import Mathlib

/-!
HomeStore: B-tree node search and log-store truncation.

A shallow embedding of `src/include/homestore/btree/detail/btree_node.hpp`
(node header, `bsearch`, `bsearch_node`, `find`, `match_range`, `set_checksum`,
`verify_node`) and of `src/logdev/log_store.cpp` (`HomeLogStore` truncation
barriers, `search_max_le`, `do_truncate`, `on_write_completion`, `on_log_found`,
`get_contiguous_completed_seq_num`, `HomeLogStoreMgr::device_truncate`), followed
by the theorems about them.

Conventions: machine integers are `Nat`/`Int`; a conversion that can change a
value (`int` to `uint32_t`) is written out with its modulus.  Loops are
structural recursions on a fuel argument that the caller sets to the loop
measure; the fuel lemmas in the theorem part show the measure is enough.
-/

namespace homestore

/-! ## Part 1: definitions -/

/-! ### B-tree node header -/

/-- Sentinel `empty_bnodeid`: the `bnodeid_t` (64-bit) value that marks "no link". -/
def empty_bnodeid : Nat := 2 ^ 64 - 1

/-- Value `BTREE_NODE_VERSION`. -/
def BTREE_NODE_VERSION : Nat := 1

/-- Value `BTREE_NODE_MAGIC` (0xab). -/
def BTREE_NODE_MAGIC : Nat := 0xab

/-- Struct `BtreeLinkInfo::bnode_link_info`: the stored form of a link. -/
structure bnode_link_info where
  m_bnodeid : Nat
  m_link_version : Nat
deriving DecidableEq, Repr

/-- Class `BtreeLinkInfo`: a link to a node, (node id, link version). -/
structure BtreeLinkInfo where
  bnode_id : Nat
  link_version : Nat
deriving DecidableEq, Repr

/-- Struct `persistent_hdr_t`, field by field.  `nentries` is a 30-bit field and
`leaf`, `valid_node` are 1-bit fields of one 32-bit word. -/
structure persistent_hdr_t where
  magic : Nat := BTREE_NODE_MAGIC
  version : Nat := BTREE_NODE_VERSION
  checksum : Nat := 0
  node_id : Nat := empty_bnodeid
  next_node : Nat := empty_bnodeid
  nentries : Nat := 0
  leaf : Bool := false
  valid_node : Bool := true
  node_gen : Nat := 0
  link_version : Nat := 0
  edge_info : bnode_link_info := ⟨empty_bnodeid, 0⟩
  level : Nat := 0
  node_type : Nat := 0
  reserved1 : Nat := 0
  node_size : Nat := 0
  reserved2 : Nat := 0
deriving DecidableEq, Repr

/-- A node: the persistent header and the entries of the data area, in slot
order.  The entry layout itself belongs to the node variants (simple, varlen),
which are outside this file; the list is what `get_nth_key` / `get_nth_value`
read at each index.  `data_area` holds the bytes of the same area as
`node_data_area()` exposes them, which is what the checksum reads. -/
structure BtreeNode (K V : Type) where
  hdr : persistent_hdr_t
  entries : List (K × V)
  data_area : List Nat := []

/-- What a `BtreeValue* outval` holds after a call: a link (interior nodes, edge)
or a value of the tree. -/
inductive BtreeValue (V : Type) where
  | link (l : BtreeLinkInfo)
  | value (v : V)
deriving DecidableEq, Repr

/-- Class `BtreeKeyRange`: two keys and the inclusiveness of each end. -/
structure BtreeKeyRange (K : Type) where
  start_key : K
  end_key : K
  is_start_inclusive : Bool
  is_end_inclusive : Bool

/-- Conversion `int` to `uint32_t`. -/
def int_to_u32 (i : Int) : Nat := (i % 4294967296).toNat

namespace BtreeNode

variable {K V : Type}

/-- Accessor `total_entries()`: reads the 30-bit field `nentries`. -/
def total_entries (n : BtreeNode K V) : Nat := n.hdr.nentries % 2 ^ 30

/-- Accessor `is_leaf()`. -/
def is_leaf (n : BtreeNode K V) : Bool := n.hdr.leaf

/-- Accessor `edge_id()`. -/
def edge_id (n : BtreeNode K V) : Nat := n.hdr.edge_info.m_bnodeid

/-- Accessor `edge_link_version()`. -/
def edge_link_version (n : BtreeNode K V) : Nat := n.hdr.edge_info.m_link_version

/-- Method `has_valid_edge()`. -/
def has_valid_edge (n : BtreeNode K V) : Bool :=
  if n.is_leaf then false else n.edge_id != empty_bnodeid

/-- Method `get_edge_value()`. -/
def get_edge_value (n : BtreeNode K V) : BtreeLinkInfo :=
  ⟨n.edge_id, n.edge_link_version⟩

/-- Modelled from the spec: `BtreeKey::compare` is declared in `btree_kv.hpp`,
which is not part of the sources at hand.  Keys are totally ordered and
`a.compare(b)` is negative, zero or positive as `a` is below, equal to or above
`b` (`validate_key_order` rejects `prevKey.compare(curKey) >= 0`). -/
def key_compare [LinearOrder K] (a b : K) : Int :=
  if a < b then -1 else if b < a then 1 else 0

/-- Modelled from the spec: `get_nth_key` is pure virtual in `BtreeNode`; the
variants return the key stored in slot `ind`.  A slot past the stored entries
reads whatever the buffer holds, here `default`. -/
def get_nth_key [Inhabited K] (n : BtreeNode K V) (ind : Nat) : K :=
  (n.entries.map Prod.fst).getD ind default

/-- Modelled from the spec: `compare_nth_key` is pure virtual in `BtreeNode`; the
variants compare the key in slot `ind` with `cmp_key`, so the result is positive
when the stored key is above `cmp_key` (the branch in which `bsearch` moves
`end` down). -/
def compare_nth_key [LinearOrder K] [Inhabited K] (n : BtreeNode K V) (cmp_key : K)
    (ind : Nat) : Int :=
  key_compare (n.get_nth_key ind) cmp_key

/-- Modelled from the spec: `get_nth_value` is pure virtual in `BtreeNode`; the
variants store the value of slot `ind` into `out_val`.  A slot past the stored
entries leaves `old` in place. -/
def get_nth_value (n : BtreeNode K V) (ind : Nat) (old : BtreeValue V) : BtreeValue V :=
  match n.entries[ind]? with
  | some e => BtreeValue.value e.2
  | none => old

/-- The `while ((end - start) > 1)` loop of `bsearch`, over the comparison
`cmp ind = compare_nth_key(key, ind)`.  Returns `(found, end)` at loop exit.
`(end - start) / 2` has a positive dividend, so the rounding mode of `/` is
immaterial.  The first argument is fuel; every iteration that does not return
shrinks `end - start`, so `end - start` iterations are never exceeded. -/
def bsearch_loop (cmp : Nat → Int) : Nat → Int → Int → Bool × Int
  | 0, _, end_ => (false, end_)
  | fuel + 1, start, end_ =>
    if end_ - start > 1 then
      let mid := start + (end_ - start) / 2
      let x := cmp (int_to_u32 mid)
      if x = 0 then (true, mid)
      else if x > 0 then bsearch_loop cmp fuel start mid
      else bsearch_loop cmp fuel mid end_
    else (false, end_)

/-- Method `bsearch(start, end, key)`. -/
def bsearch [LinearOrder K] [Inhabited K] (n : BtreeNode K V) (start end_ : Int) (key : K) :
    Bool × Nat :=
  if end_ - start ≤ 1 then (false, 0)
  else
    let r := bsearch_loop (n.compare_nth_key key) (end_ - start).toNat start end_
    (r.1, int_to_u32 r.2)

/-- Method `bsearch_node(key)`: `bsearch(-1, total_entries(), key)`. -/
def bsearch_node [LinearOrder K] [Inhabited K] (n : BtreeNode K V) (key : K) : Bool × Nat :=
  n.bsearch (-1) (n.total_entries : Int) key

/-- Method `find(key, outval, copy_val)`.  `outval` is `none` for a null pointer,
otherwise the value the pointee holds; the result is `((found, idx), outval)`
with the pointee as the call leaves it. -/
def find [LinearOrder K] [Inhabited K] (n : BtreeNode K V) (key : K)
    (outval : Option (BtreeValue V)) : (Bool × Nat) × Option (BtreeValue V) :=
  let found := (n.bsearch_node key).1
  let idx := (n.bsearch_node key).2
  if idx = n.total_entries then
    if !n.has_valid_edge || n.is_leaf then ((found, idx), outval)
    else ((found, idx), outval.map (fun _ => BtreeValue.link n.get_edge_value))
  else ((found, idx), outval.map (fun old => n.get_nth_value idx old))

/-- Method `match_range(range, start_idx, end_idx)`.  The result is
`(ret, start_idx, end_idx)` with the two reference arguments as the call leaves
them (every path writes both).  `start_idx`, `end_idx` are `uint32_t`. -/
def match_range [LinearOrder K] [Inhabited K] (n : BtreeNode K V) (range : BtreeKeyRange K) :
    Bool × Nat × Nat :=
  let sfound := (n.bsearch_node range.start_key).1
  let start_idx := (n.bsearch_node range.start_key).2
  let start_idx :=
    if sfound && !range.is_start_inclusive then (start_idx + 1) % 4294967296 else start_idx
  if start_idx = n.total_entries then
    (!n.is_leaf && n.has_valid_edge, start_idx, start_idx)
  else
    let efound := (n.bsearch_node range.end_key).1
    let end_idx := (n.bsearch_node range.end_key).2
    if n.is_leaf || (end_idx = n.total_entries && !n.has_valid_edge) then
      if !efound || !range.is_end_inclusive then
        if end_idx = 0 then (false, start_idx, end_idx)
        else
          let end_idx := end_idx - 1
          if start_idx > end_idx then (false, start_idx, end_idx) else (true, start_idx, end_idx)
      else if start_idx > end_idx then (false, start_idx, end_idx) else (true, start_idx, end_idx)
    else (true, start_idx, end_idx)

/-- The node is coherent: the header counts the stored entries. -/
def wf (n : BtreeNode K V) : Prop := n.total_entries = n.entries.length

instance (n : BtreeNode K V) : Decidable n.wf := by unfold wf; infer_instance

/-- The keys of the node are strictly increasing in slot order. -/
def keys_increasing [LT K] (n : BtreeNode K V) : Prop :=
  (n.entries.map Prod.fst).Pairwise (fun a b => a < b)

/-- A key lies in a range, each end taken as inclusive or exclusive. -/
def in_range [LinearOrder K] (range : BtreeKeyRange K) (k : K) : Prop :=
  (if range.is_start_inclusive then range.start_key ≤ k else range.start_key < k) ∧
  (if range.is_end_inclusive then k ≤ range.end_key else k < range.end_key)

end BtreeNode

/-- A leaf with keys 10, 20, 30. -/
def leaf3 : BtreeNode Int Nat :=
  { hdr := { nentries := 3, leaf := true }, entries := [(10, 1), (20, 2), (30, 3)] }

/-- An interior node with keys 10, 20, 30 and a valid edge to node 7. -/
def interior3 : BtreeNode Int Nat :=
  { hdr := { nentries := 3, leaf := false, edge_info := ⟨7, 4⟩ },
    entries := [(10, 1), (20, 2), (30, 3)] }

/-! ### Log store -/

/-- Struct `logdev_key`: (`idx` : `logid_t`, signed 64-bit; `dev_offset` : unsigned 64-bit). -/
structure logdev_key where
  idx : Int
  dev_offset : Nat
deriving DecidableEq, Repr, Inhabited

/-- Order on `logdev_key` by `idx`, then `dev_offset`. -/
def logdev_key.le (a b : logdev_key) : Prop :=
  a.idx < b.idx ∨ (a.idx = b.idx ∧ a.dev_offset ≤ b.dev_offset)

instance (a b : logdev_key) : Decidable (a.le b) := by unfold logdev_key.le; infer_instance

/-- A truncation barrier, the element type of `m_truncation_barriers` and the type
of `m_flush_batch_max`: `{seq_num, ld_key}`. -/
structure TruncationBarrier where
  seq_num : Int
  ld_key : logdev_key
deriving DecidableEq, Repr, Inhabited

/-- A sum or difference of `logstore_seq_num_t` values (signed 64-bit integers) as
the machine leaves it: the value modulo 2^64 in the range -2^63 .. 2^63 - 1. -/
def wrap_i64 (x : Int) : Int :=
  (x + 9223372036854775808) % 18446744073709551616 - 9223372036854775808

/-- State of one record of the store: reserved at `create`, completed with its
`m_dev_key` once written or recovered. -/
inductive logstore_record where
  | reserved
  | completed (m_dev_key : logdev_key)
deriving DecidableEq, Repr

/-- Modelled from the spec: the records container `m_records` (a stream tracker
declared outside the sources at hand) is a sparse map from seq_num to record;
a seq_num with no record, or truncated, maps to `none`. -/
structure StreamTracker where
  slots : Int → Option logstore_record

namespace StreamTracker

/-- Modelled from the spec: `create(seq)` reserves the record at `seq`. -/
def create (t : StreamTracker) (seq : Int) : StreamTracker :=
  ⟨fun i => if i = seq then some logstore_record.reserved else t.slots i⟩

/-- Modelled from the spec: `update(seq, f)` as `on_write_completion` calls it:
the record at `seq` gets `m_dev_key := ld_key` and, `f` returning true, is
completed.  A seq_num without a record stays without one. -/
def update (t : StreamTracker) (seq : Int) (ld_key : logdev_key) : StreamTracker :=
  ⟨fun i => if i = seq then (t.slots i).map (fun _ => logstore_record.completed ld_key)
    else t.slots i⟩

/-- Modelled from the spec: `truncate(seq)` removes the records prefix, every
record at a seq_num up to and including `seq`. -/
def truncate (t : StreamTracker) (seq : Int) : StreamTracker :=
  ⟨fun i => if i ≤ seq then none else t.slots i⟩

end StreamTracker

/-- The members of `HomeLogStore` that the truncation logic reads or writes. -/
structure HomeLogStore where
  m_store_id : Nat
  m_records : StreamTracker
  m_seq_num : Int
  m_last_truncated_seq_num : Int
  m_truncation_barriers : List TruncationBarrier
  m_safe_truncate_ld_key : logdev_key
  m_flush_batch_max : TruncationBarrier

namespace HomeLogStore

/-- Constructor `HomeLogStore(id)`: no barriers, `m_safe_truncate_ld_key = {-1, 0}`.
The in-class member initialisers live in `log_store.hpp`, outside the sources at
hand: sequence numbers start at 0, nothing is truncated yet
(`m_last_truncated_seq_num = -1`) and `m_flush_batch_max` holds its reset value
`{-1, {-1, 0}}`. -/
def new (id : Nat) : HomeLogStore :=
  { m_store_id := id
    m_records := ⟨fun _ => none⟩
    m_seq_num := 0
    m_last_truncated_seq_num := -1
    m_truncation_barriers := []
    m_safe_truncate_ld_key := ⟨-1, 0⟩
    m_flush_batch_max := ⟨-1, ⟨-1, 0⟩⟩ }

/-- Method `write_async(req, cb)`: reserves the record of `req->seq_num`; the
append itself goes to the log device. -/
def write_async (s : HomeLogStore) (seq_num : Int) : HomeLogStore :=
  { s with m_records := s.m_records.create seq_num }

/-- Method `append_async(b, cookie, cb)`: `write_async(m_seq_num.fetch_add(1), ...)`.
`m_seq_num` is an atomic signed 64-bit integer: `fetch_add` hands out the old
value and stores the sum wrapped to 64 bits. -/
def append_async (s : HomeLogStore) : HomeLogStore :=
  write_async { s with m_seq_num := wrap_i64 (s.m_seq_num + 1) } s.m_seq_num

/-- Method `create_truncation_barrier()`. -/
def create_truncation_barrier (s : HomeLogStore) : HomeLogStore :=
  match s.m_truncation_barriers.getLast? with
  | some back =>
    if back.seq_num ≥ s.m_flush_batch_max.seq_num then
      { s with m_truncation_barriers :=
          s.m_truncation_barriers.dropLast ++ [{ back with ld_key := s.m_flush_batch_max.ld_key }] }
    else { s with m_truncation_barriers := s.m_truncation_barriers ++ [s.m_flush_batch_max] }
  | none => { s with m_truncation_barriers := s.m_truncation_barriers ++ [s.m_flush_batch_max] }

/-- Method `on_write_completion(req, ld_key, flush_ld_key, nremaining_in_batch)`,
with `seq_num = req->seq_num`; the user callback at the end does not touch the
store. -/
def on_write_completion (s : HomeLogStore) (seq_num : Int) (ld_key flush_ld_key : logdev_key)
    (nremaining_in_batch : Nat) : HomeLogStore :=
  let s := { s with m_records := s.m_records.update seq_num ld_key }
  let s :=
    if seq_num > s.m_flush_batch_max.seq_num then
      { s with m_flush_batch_max := ⟨seq_num, flush_ld_key⟩ }
    else s
  if nremaining_in_batch = 0 then
    { s.create_truncation_barrier with m_flush_batch_max := ⟨-1, ⟨-1, 0⟩⟩ }
  else s

/-- The `while ((end - start) > 1)` loop of `search_max_le` over the barrier list
`bs`; the result is the returned `int`.  The first argument is fuel; every
iteration that does not return shrinks `end - start`. -/
def search_max_le_loop (bs : List TruncationBarrier) (input_sn : Int) : Nat → Int → Int → Int
  | 0, _, end_ => end_ - 1
  | fuel + 1, start, end_ =>
    if end_ - start > 1 then
      let mid := start + (end_ - start) / 2
      let mid_entry := bs.getD mid.toNat default
      if mid_entry.seq_num = input_sn then mid
      else if mid_entry.seq_num > input_sn then search_max_le_loop bs input_sn fuel start mid
      else search_max_le_loop bs input_sn fuel mid end_
    else end_ - 1

/-- Method `search_max_le(input_sn)`: `start = -1`, `end = m_truncation_barriers.size()`
(a list of the store holds fewer than 2^31 barriers, so `int` holds its size). -/
def search_max_le (s : HomeLogStore) (input_sn : Int) : Int :=
  search_max_le_loop s.m_truncation_barriers input_sn (s.m_truncation_barriers.length + 1)
    (-1) s.m_truncation_barriers.length

/-- Method `do_truncate(upto_seq_num)`. -/
def do_truncate (s : HomeLogStore) (upto_seq_num : Int) : HomeLogStore :=
  let ind := s.search_max_le upto_seq_num
  if ind < 0 then s
  else
    let b := s.m_truncation_barriers.getD ind.toNat default
    { s with
      m_safe_truncate_ld_key := b.ld_key
      m_last_truncated_seq_num := b.seq_num
      m_records := s.m_records.truncate b.seq_num
      m_truncation_barriers := s.m_truncation_barriers.drop (ind.toNat + 1) }

/-- Method `truncate(upto_seq_num, in_memory_truncate_only)`: the closure handed to
`try_lock_flush` runs `do_truncate(upto_seq_num)`; `device_truncate` after it
reads the stores and changes none of them. -/
def truncate (s : HomeLogStore) (upto_seq_num : Int) : HomeLogStore :=
  s.do_truncate upto_seq_num

/-- The barrier list is strictly increasing in seq_num. -/
def barriers_increasing (bs : List TruncationBarrier) : Prop :=
  bs.Pairwise (fun a b => a.seq_num < b.seq_num)

instance (bs : List TruncationBarrier) : Decidable (barriers_increasing bs) := by
  unfold barriers_increasing; infer_instance

end HomeLogStore

/-- A call on a store, as the log device and the user issue them. -/
inductive StoreOp where
  | write_completion (seq_num : Int) (ld_key flush_ld_key : logdev_key)
      (nremaining_in_batch : Nat)
  | truncate (upto_seq_num : Int)
deriving DecidableEq, Repr

/-- One call applied to a store. -/
def StoreOp.apply (s : HomeLogStore) : StoreOp → HomeLogStore
  | .write_completion seq ld flush nrem => s.on_write_completion seq ld flush nrem
  | .truncate upto => s.do_truncate upto

/-- A sequence of calls applied to a store, first call first. -/
def run_ops (s : HomeLogStore) (ops : List StoreOp) : HomeLogStore :=
  ops.foldl StoreOp.apply s



/-- The write completions of one flush batch that completes the seq_nums
`0 .. n-1` in submission order: call `i` carries `ld i` and the batch flush key,
and `n - 1 - i` completions remain after it. -/
def batch_ops (n : Nat) (ld : Nat → logdev_key) (flush : logdev_key) : List StoreOp :=
  (List.range n).map
    (fun (i : Nat) => StoreOp.write_completion (Int.ofNat i) (ld i) flush (n - 1 - i))

/-- A new store after `n` calls of `append_async` whose records all completed in a
single flush batch. -/
def single_batch_store (id n : Nat) (ld : Nat → logdev_key) (flush : logdev_key) :
    HomeLogStore :=
  run_ops (HomeLogStore.append_async^[n] (HomeLogStore.new id)) (batch_ops n ld flush)

/-- The flush keys that the write completions of a call sequence deliver, in call
order. -/
def flush_keys : List StoreOp → List logdev_key
  | [] => []
  | StoreOp.write_completion _ _ flush _ :: ops => flush :: flush_keys ops
  | StoreOp.truncate _ :: ops => flush_keys ops

/-- The log device hands out non-decreasing flush keys: from the initial safe key
`{-1, 0}` on, each flush key of the sequence is at least every earlier one. -/
def flush_keys_ordered (ops : List StoreOp) : Prop :=
  ((⟨-1, 0⟩ : logdev_key) :: flush_keys ops).Pairwise logdev_key.le

instance (ops : List StoreOp) : Decidable (flush_keys_ordered ops) := by
  unfold flush_keys_ordered; infer_instance

/-- A write completion carries a seq_num that is at least 0 (a truncation carries
none). -/
def StoreOp.seq_num_nonneg : StoreOp → Prop
  | StoreOp.write_completion seq _ _ _ => 0 ≤ seq
  | StoreOp.truncate _ => True

instance (op : StoreOp) : Decidable op.seq_num_nonneg := by
  cases op <;> unfold StoreOp.seq_num_nonneg <;> infer_instance

/-- Every write completion of the sequence carries a seq_num that is at least 0. -/
def seq_nums_nonneg (ops : List StoreOp) : Prop :=
  ∀ op ∈ ops, op.seq_num_nonneg

instance (ops : List StoreOp) : Decidable (seq_nums_nonneg ops) := by
  unfold seq_nums_nonneg; infer_instance

/-- A store with the barriers (10, {1,0}), (20, {2,0}), (30, {3,0}) and records
reserved for the seq_nums 0 .. 30. -/
def store3 : HomeLogStore :=
  { HomeLogStore.new 1 with
    m_records := ⟨fun i => if 0 ≤ i ∧ i ≤ 30 then some logstore_record.reserved else none⟩
    m_seq_num := 31
    m_truncation_barriers := [⟨10, ⟨1, 0⟩⟩, ⟨20, ⟨2, 0⟩⟩, ⟨30, ⟨3, 0⟩⟩] }

/-- Two flush batches whose flush keys go down, {5,0} then {3,0}, followed by a
truncation up to seq_num 0. -/
def ops_flush_down : List StoreOp :=
  [StoreOp.write_completion 0 ⟨1, 0⟩ ⟨5, 0⟩ 0, StoreOp.write_completion 1 ⟨2, 0⟩ ⟨3, 0⟩ 0,
   StoreOp.truncate 0]

/-- Two flush batches with flush keys {3,0} then {5,0}, followed by a truncation up
to seq_num 0. -/
def ops_flush_up : List StoreOp :=
  [StoreOp.write_completion 0 ⟨1, 0⟩ ⟨3, 0⟩ 0, StoreOp.write_completion 1 ⟨2, 0⟩ ⟨5, 0⟩ 0,
   StoreOp.truncate 0]

/-- The keys of a store are in order with respect to `last`, the latest flush key
delivered: the safe key is below every barrier key, barrier keys do not decrease
along the list, all of them are at most `last`, and an open flush batch
(`m_flush_batch_max.seq_num >= 0`) carries a key above the safe key and the
barrier keys. -/
def HomeLogStore.keys_ordered (s : HomeLogStore) (last : logdev_key) : Prop :=
  s.m_safe_truncate_ld_key.le last ∧
  (∀ b ∈ s.m_truncation_barriers, s.m_safe_truncate_ld_key.le b.ld_key ∧ b.ld_key.le last) ∧
  s.m_truncation_barriers.Pairwise (fun a b => a.ld_key.le b.ld_key) ∧
  (0 ≤ s.m_flush_batch_max.seq_num →
    s.m_flush_batch_max.ld_key.le last ∧
    s.m_safe_truncate_ld_key.le s.m_flush_batch_max.ld_key ∧
    ∀ b ∈ s.m_truncation_barriers, b.ld_key.le s.m_flush_batch_max.ld_key)

/-- State of a store `t` part-way through the single flush batch of `n` records:
the first `k` completions are in.  No barrier exists until the batch closes
(`k = n`), when the one barrier `(n - 1, flush)` is created; nothing has been
truncated; records below `k` are completed, the others up to `n` reserved. -/
def batch_progress (t : HomeLogStore) (n k : Nat) (ld : Nat → logdev_key)
    (flush : logdev_key) : Prop :=
  t.m_truncation_barriers = (if k = n ∧ 0 < n then [⟨(n : Int) - 1, flush⟩] else []) ∧
  t.m_flush_batch_max = (if 0 < k ∧ k < n then ⟨(k : Int) - 1, flush⟩ else ⟨-1, ⟨-1, 0⟩⟩) ∧
  t.m_last_truncated_seq_num = -1 ∧
  ∀ i : Int, t.m_records.slots i =
    if 0 ≤ i ∧ i < k then some (logstore_record.completed (ld i.toNat))
    else if 0 ≤ i ∧ i < n then some logstore_record.reserved else none

/-! ### Log store: recovery, record scans and device truncation -/

/-- Modelled from the spec: `create_and_complete(seq, ld_key)` of the records
container (declared outside the sources at hand): the record at `seq` exists and
is completed with `ld_key`, whatever was there. -/
def StreamTracker.create_and_complete (t : StreamTracker) (seq : Int) (ld_key : logdev_key) :
    StreamTracker :=
  ⟨fun i => if i = seq then some (logstore_record.completed ld_key) else t.slots i⟩

/-- Modelled from the spec: `atomic_update_max(v, x)` (a helper declared outside the
sources at hand) raises `v` to `x` when `v` is below `x`; the result is the new
value of `v`. -/
def atomic_update_max (v x : Int) : Int := if v < x then x else v

/-- Modelled from the spec: `atomic_update_min(v, x)` (a helper declared outside the
sources at hand) lowers `v` to `x` when `x` is below `v`; the result is the new
value of `v`. -/
def atomic_update_min (v x : Int) : Int := if x < v then x else v

/-- Value `out_of_bound_ld_key`: `{std::numeric_limits< logid_t >::max(), 0}`, with
`logid_t` a signed 64-bit integer. -/
def out_of_bound_ld_key : logdev_key := ⟨9223372036854775807, 0⟩

namespace HomeLogStore

/-- Method `on_log_found(seq_num, ld_key, buf)`; the found callback does not touch
the store.  `logstore_seq_num_t` is a signed 64-bit integer: `seq_num + 1` and
`seq_num - 1` are the sums wrapped to 64 bits, so `seq_num + 1` at the largest
seq_num is the smallest one, and `seq_num - 1` at the smallest is the largest. -/
def on_log_found (s : HomeLogStore) (seq_num : Int) (ld_key : logdev_key) : HomeLogStore :=
  { s with
    m_records := s.m_records.create_and_complete seq_num ld_key
    m_seq_num := atomic_update_max s.m_seq_num (wrap_i64 (seq_num + 1))
    m_last_truncated_seq_num :=
      atomic_update_min s.m_last_truncated_seq_num (wrap_i64 (seq_num - 1)) }

/-- Accessor `get_safe_truncation_log_dev_key()`. -/
def get_safe_truncation_log_dev_key (s : HomeLogStore) : logdev_key :=
  s.m_safe_truncate_ld_key

end HomeLogStore

/-- The stores of `HomeLogStoreMgr::m_id_logstore_map`, in the order in which the
map is iterated. -/
structure HomeLogStoreMgr where
  stores : List HomeLogStore

/-- Method `HomeLogStoreMgr::device_truncate(dry_run)`: the loop over the stores
keeps the first key whose `idx` is below the `idx` of the key kept so far; the
call to the log device is commented out in the source, so `dry_run` has no
effect. -/
def HomeLogStoreMgr.device_truncate (m : HomeLogStoreMgr) (_dry_run : Bool) : logdev_key :=
  m.stores.foldl
    (fun min_safe_ld_key store =>
      if store.get_safe_truncation_log_dev_key.idx < min_safe_ld_key.idx then
        store.get_safe_truncation_log_dev_key
      else min_safe_ld_key)
    out_of_bound_ld_key

/-- A call on a store, the calls that reserve and recover records included. -/
inductive StoreCall where
  | write_async (seq_num : Int)
  | append_async
  | write_completion (seq_num : Int) (ld_key flush_ld_key : logdev_key)
      (nremaining_in_batch : Nat)
  | log_found (seq_num : Int) (ld_key : logdev_key)
  | truncate (upto_seq_num : Int)
deriving DecidableEq, Repr

/-- One call applied to a store. -/
def StoreCall.apply (s : HomeLogStore) : StoreCall → HomeLogStore
  | .write_async seq => s.write_async seq
  | .append_async => s.append_async
  | .write_completion seq ld flush nrem => s.on_write_completion seq ld flush nrem
  | .log_found seq ld => s.on_log_found seq ld
  | .truncate upto => s.do_truncate upto

/-- A sequence of calls applied to a store, first call first. -/
def run_calls (s : HomeLogStore) (calls : List StoreCall) : HomeLogStore :=
  calls.foldl StoreCall.apply s

/-- A call that reserves a record does so above `last_truncated_seq_num`:
`write_async` with its own seq_num, `append_async` with the current
`m_seq_num`.  A recovered record carries a seq_num above the smallest 64-bit
value, so that `seq_num - 1` in `on_log_found` does not wrap.  The other calls
reserve nothing. -/
def StoreCall.above_truncated (s : HomeLogStore) : StoreCall → Prop
  | .write_async seq => s.m_last_truncated_seq_num < seq
  | .append_async => s.m_last_truncated_seq_num < s.m_seq_num
  | .write_completion _ _ _ _ => True
  | .log_found seq _ => -9223372036854775808 < seq
  | .truncate _ => True

instance (s : HomeLogStore) (c : StoreCall) : Decidable (c.above_truncated s) := by
  cases c <;> unfold StoreCall.above_truncated <;> infer_instance

/-- Every reserving call of the sequence, at the time it is made, reserves above
`last_truncated_seq_num`. -/
def calls_above_truncated : HomeLogStore → List StoreCall → Prop
  | _, [] => True
  | s, c :: cs => c.above_truncated s ∧ calls_above_truncated (c.apply s) cs

/-- Decision procedure for `calls_above_truncated`. -/
def calls_above_truncated_dec :
    (s : HomeLogStore) → (cs : List StoreCall) → Decidable (calls_above_truncated s cs)
  | _, [] => isTrue trivial
  | s, c :: cs =>
    have := calls_above_truncated_dec (c.apply s) cs
    inferInstanceAs (Decidable (c.above_truncated s ∧ calls_above_truncated (c.apply s) cs))

instance (s : HomeLogStore) (cs : List StoreCall) : Decidable (calls_above_truncated s cs) :=
  calls_above_truncated_dec s cs

/-- A truncation at seq_num 0 followed by a `write_async` of seq_num 0 again. -/
def calls_rewrite_truncated : List StoreCall :=
  [StoreCall.write_async 0, StoreCall.write_completion 0 ⟨1, 0⟩ ⟨1, 64⟩ 0,
   StoreCall.truncate 0, StoreCall.write_async 0]

/-- A truncation at the externally numbered seq_num 5 followed by `append_async`,
which hands out seq_num 0. -/
def calls_append_below : List StoreCall :=
  [StoreCall.write_async 5, StoreCall.write_completion 5 ⟨1, 0⟩ ⟨1, 64⟩ 0,
   StoreCall.truncate 5, StoreCall.append_async]

/-- Three appends completed in one batch, a truncation at the barrier, and two
more appends. -/
def calls_append_truncate : List StoreCall :=
  [StoreCall.append_async, StoreCall.append_async, StoreCall.append_async,
   StoreCall.write_completion 0 ⟨1, 0⟩ ⟨1, 192⟩ 2,
   StoreCall.write_completion 1 ⟨1, 64⟩ ⟨1, 192⟩ 1,
   StoreCall.write_completion 2 ⟨1, 128⟩ ⟨1, 192⟩ 0,
   StoreCall.truncate 2, StoreCall.append_async, StoreCall.log_found 7 ⟨2, 0⟩,
   StoreCall.append_async]

/-- A store that holds `key` as its safe truncation key. -/
def store_with_safe_key (id : Nat) (key : logdev_key) : HomeLogStore :=
  { HomeLogStore.new id with m_safe_truncate_ld_key := key }

/-- Two stores with safe keys {5, 100} and {5, 50}: equal idx, the second with the
smaller dev_offset. -/
def mgr_equal_idx : HomeLogStoreMgr :=
  ⟨[store_with_safe_key 1 ⟨5, 100⟩, store_with_safe_key 2 ⟨5, 50⟩]⟩

/-- Three stores with safe keys {7, 0}, {3, 64} and {5, 0}. -/
def mgr_three : HomeLogStoreMgr :=
  ⟨[store_with_safe_key 1 ⟨7, 0⟩, store_with_safe_key 2 ⟨3, 64⟩, store_with_safe_key 3 ⟨5, 0⟩]⟩

/-- One write completion as the log device delivers it: the seq_num of the request,
its own key, and the flush key. -/
structure Completion where
  seq_num : Int
  ld_key : logdev_key
  flush_ld_key : logdev_key
deriving DecidableEq, Repr

/-- A flush batch delivered to a store: `on_write_completion` for each completion
in order, `nremaining_in_batch` being the number of completions still to come,
so that the last call, and only the last, carries 0. -/
def HomeLogStore.run_batch (s : HomeLogStore) : List Completion → HomeLogStore
  | [] => s
  | c :: rest =>
    HomeLogStore.run_batch
      (s.on_write_completion c.seq_num c.ld_key c.flush_ld_key rest.length) rest

/-- The scratch `m_flush_batch_max` after the completions `cs`, starting from
`fbm`: the update `if (req->seq_num > m_flush_batch_max.seq_num)` of each call. -/
def batch_max (fbm : TruncationBarrier) (cs : List Completion) : TruncationBarrier :=
  cs.foldl (fun m c => if c.seq_num > m.seq_num then ⟨c.seq_num, c.flush_ld_key⟩ else m) fbm

/-- A batch whose maximum seq_num 5 comes first with flush key {7, 0}, closed by
seq_num 3 with flush key {8, 0}. -/
def batch_mixed_flush : List Completion :=
  [⟨5, ⟨1, 0⟩, ⟨7, 0⟩⟩, ⟨3, ⟨1, 64⟩, ⟨8, 0⟩⟩]

/-- A batch of the seq_nums 31, 33, 32 that all carry the flush key {9, 0}. -/
def batch_uniform_flush : List Completion :=
  [⟨31, ⟨4, 0⟩, ⟨9, 0⟩⟩, ⟨33, ⟨4, 128⟩, ⟨9, 0⟩⟩, ⟨32, ⟨4, 64⟩, ⟨9, 0⟩⟩]

/-- The store with barriers 10, 20, 30 and an open batch whose maximum so far is
seq_num 25 with flush key {9, 0}. -/
def store3_open_batch : HomeLogStore :=
  { store3 with m_flush_batch_max := ⟨25, ⟨9, 0⟩⟩ }

/-! ### B-tree node checksum -/

/-- Modelled from the spec: `BtreeConfig` is declared in `btree_internal.hpp`, outside
the sources at hand; of it the checksum uses `node_data_size()`, the number of
bytes of the data area. -/
structure BtreeConfig where
  m_node_data_size : Nat
deriving DecidableEq, Repr

/-- Accessor `BtreeConfig::node_data_size()`. -/
def BtreeConfig.node_data_size (cfg : BtreeConfig) : Nat := cfg.m_node_data_size

/-- Modelled from the spec: the seed `bt_init_crc_16` is declared in
`btree_internal.hpp`, outside the sources at hand; it is a 16-bit constant, taken
here as 0x8005.  No theorem below depends on its value. -/
def bt_init_crc_16 : Nat := 0x8005

/-- One bit step of the CRC-16 with the T10-DIF polynomial 0x8BB7: shift left, and
reduce by the polynomial when the bit shifted out is set. -/
def crc16_t10dif_bit (crc : Nat) : Nat :=
  if crc / 32768 % 2 = 1 then (crc * 2 % 65536) ^^^ 0x8BB7 else crc * 2 % 65536

/-- One byte of the CRC-16: the byte enters at the high end, then eight bit steps. -/
def crc16_t10dif_byte (crc byte : Nat) : Nat :=
  crc16_t10dif_bit (crc16_t10dif_bit (crc16_t10dif_bit (crc16_t10dif_bit
    (crc16_t10dif_bit (crc16_t10dif_bit (crc16_t10dif_bit (crc16_t10dif_bit
      (crc ^^^ (byte % 256 * 256)))))))))

/-- Modelled from the spec: `crc16_t10dif(init_crc, buf, len)` comes from the isa-l
library (`<isa-l/crc.h>`), outside the sources at hand: the CRC-16 with the T10-DIF
polynomial over the first `len` bytes of `buf`, most significant bit first,
without reflection or final xor. -/
def crc16_t10dif (init_crc : Nat) (buf : List Nat) (len : Nat) : Nat :=
  (buf.take len).foldl crc16_t10dif_byte (init_crc % 65536)

namespace BtreeNode

variable {K V : Type}

/-- Accessor `magic()`. -/
def magic (n : BtreeNode K V) : Nat := n.hdr.magic

/-- Accessor `version()`. -/
def version (n : BtreeNode K V) : Nat := n.hdr.version

/-- Accessor `checksum()`. -/
def checksum (n : BtreeNode K V) : Nat := n.hdr.checksum

/-- Accessor `is_valid_node()`. -/
def is_valid_node (n : BtreeNode K V) : Bool := n.hdr.valid_node

/-- Accessor `node_data_area_const()`: the bytes that follow the header. -/
def node_data_area_const (n : BtreeNode K V) : List Nat := n.data_area

/-- Method `set_checksum(cfg)`. -/
def set_checksum (n : BtreeNode K V) (cfg : BtreeConfig) : BtreeNode K V :=
  { n with hdr := { n.hdr with
      checksum := crc16_t10dif bt_init_crc_16 n.node_data_area_const cfg.node_data_size } }

/-- Method `verify_node(cfg)`; the debug assertion on `is_valid_node()` is left to
the callers (the theorems state it as a hypothesis). -/
def verify_node (n : BtreeNode K V) (cfg : BtreeConfig) : Bool :=
  let exp_checksum := crc16_t10dif bt_init_crc_16 n.node_data_area_const cfg.node_data_size
  (n.magic == BTREE_NODE_MAGIC) && (n.checksum == exp_checksum)

end BtreeNode

/-- A configuration with a data area of 4 bytes. -/
def cfg4 : BtreeConfig := ⟨4⟩

/-- A leaf with the data bytes 1, 2, 3, 4, the checksum not yet set. -/
def node_data4 : BtreeNode Int Nat :=
  { hdr := { leaf := true, node_id := 7 }, entries := [], data_area := [1, 2, 3, 4] }

/-- An interior node with the same data bytes 1, 2, 3, 4 and a different header:
other node id, entry count, generation, edge and a stale checksum. -/
def node_data4_other : BtreeNode Int Nat :=
  { hdr := { leaf := false, node_id := 99, nentries := 5, node_gen := 12, checksum := 4660,
             edge_info := ⟨3, 8⟩, level := 2 },
    entries := [], data_area := [1, 2, 3, 4] }

/-- The leaf with data bytes 1, 2, 3, 4, its checksum set, and header version 2. -/
def node_version2 : BtreeNode Int Nat :=
  { (node_data4.set_checksum cfg4) with
    hdr := { (node_data4.set_checksum cfg4).hdr with version := 2 } }

/-! ### B-tree node: key order check, edge, node size, load, entry operations -/

/-- Size `sizeof(persistent_hdr_t)` of the packed header: 1 + 1 + 2 (magic, version,
checksum) + 8 + 8 (node_id, next_node) + 4 (nentries, leaf, valid_node) + 8 + 8
(node_gen, link_version) + 16 (edge_info) + 2 + 1 + 1 + 2 + 2 (level, node_type,
reserved1, node_size, reserved2). -/
def sizeof_persistent_hdr_t : Nat := 64

/-- Modelled from the spec: the status codes of `btree_status_t`, declared in
`btree_internal.hpp`, outside the sources at hand. -/
inductive btree_status_t where
  | success
  | not_found
  | already_exists
  | space_not_avail
  | retry
  | crc_mismatch
  | node_freed
  | fast_path_not_possible
  | resource_full
  | stale_buf
  | operation_aborted
  | lock_not_acquired
deriving DecidableEq, Repr

/-- Accessor `BtreeConfig::node_size()`: the size of a whole node, header and data
area. -/
def BtreeConfig.node_size (cfg : BtreeConfig) : Nat :=
  cfg.m_node_data_size + sizeof_persistent_hdr_t

namespace BtreeNode

variable {K V : Type}

/-- The loop `for (auto i = 1u; i < total_entries(); ++i)` of `validate_key_order`.
On an entry that is not above its predecessor the source runs
`DEBUG_ASSERT(false, ...)` and then `return false`: in a debug build
(`debug_build`) the assertion aborts and nothing is returned (`none`), in a
release build it is compiled out and false is returned.  The first argument is
fuel; `i` grows by one on each iteration that does not return. -/
def validate_key_order_loop [LinearOrder K] [Inhabited K] (n : BtreeNode K V)
    (debug_build : Bool) : Nat → Nat → Option Bool
  | 0, _ => some true
  | fuel + 1, i =>
    if i < n.total_entries then
      if key_compare (n.get_nth_key (i - 1)) (n.get_nth_key i) ≥ 0 then
        if debug_build then none else some false
      else validate_key_order_loop n debug_build fuel (i + 1)
    else some true

/-- Method `validate_key_order()`, in a debug or a release build; the result is the
value returned, `none` when the debug assertion aborts. -/
def validate_key_order [LinearOrder K] [Inhabited K] (n : BtreeNode K V)
    (debug_build : Bool) : Option Bool :=
  n.validate_key_order_loop debug_build n.total_entries 1

/-- Method `set_edge_id(edge)`. -/
def set_edge_id (n : BtreeNode K V) (edge : Nat) : BtreeNode K V :=
  { n with hdr := { n.hdr with edge_info := { n.hdr.edge_info with m_bnodeid := edge } } }

/-- Method `invalidate_edge()`. -/
def invalidate_edge (n : BtreeNode K V) : BtreeNode K V := n.set_edge_id empty_bnodeid

/-- Method `set_node_size(size)`: `node_size = s_cast< uint16_t >(size - 1)`, with
`size` a `uint32_t`. -/
def set_node_size (n : BtreeNode K V) (size : Nat) : BtreeNode K V :=
  { n with hdr := { n.hdr with
      node_size := (size % 4294967296 + 4294967296 - 1) % 4294967296 % 65536 } }

/-- Method `node_size()`: `s_cast< uint32_t >(node_size) + 1`. -/
def node_size (n : BtreeNode K V) : Nat := (n.hdr.node_size + 1) % 4294967296

/-- Method `node_data_size()`: `node_size() - sizeof(persistent_hdr_t)`, returned as
`uint32_t`. -/
def node_data_size (n : BtreeNode K V) : Nat :=
  (n.node_size + 4294967296 - sizeof_persistent_hdr_t) % 4294967296

/-- Accessor `node_id()`. -/
def node_id (n : BtreeNode K V) : Nat := n.hdr.node_id

/-- Method `set_node_id(id)`. -/
def set_node_id (n : BtreeNode K V) (id : Nat) : BtreeNode K V :=
  { n with hdr := { n.hdr with node_id := id } }

/-- Method `set_leaf(leaf)`. -/
def set_leaf (n : BtreeNode K V) (leaf : Bool) : BtreeNode K V :=
  { n with hdr := { n.hdr with leaf := leaf } }

/-- Constructor `BtreeNode(node_buf, id, init_buf, is_leaf, cfg)`, on the node that
`node_buf` holds.  With `init_buf` the header is constructed anew (the members
without initialiser keep what the buffer held), then `set_node_id`, `set_leaf`,
`set_node_size(cfg.node_size())`.  Without `init_buf` the three header checks are
`DEBUG_ASSERT_EQ`s.  Modelled from the spec: the assertion macros are declared
outside the sources at hand; a `DEBUG_ASSERT` is compiled in debug builds only
(`debug_build`), where a failed one aborts, here `none`.  The transient header,
which the constructor also sets, is outside this model. -/
def construct (node_buf : BtreeNode K V) (id : Nat) (init_buf is_leaf : Bool)
    (cfg : BtreeConfig) (debug_build : Bool) : Option (BtreeNode K V) :=
  if init_buf then
    let fresh : BtreeNode K V :=
      { node_buf with hdr :=
          { level := node_buf.hdr.level, node_type := node_buf.hdr.node_type,
            reserved1 := node_buf.hdr.reserved1, node_size := node_buf.hdr.node_size,
            reserved2 := node_buf.hdr.reserved2 } }
    some (((fresh.set_node_id id).set_leaf is_leaf).set_node_size cfg.node_size)
  else if debug_build &&
      !(node_buf.node_id == id && node_buf.magic == BTREE_NODE_MAGIC &&
        node_buf.version == BTREE_NODE_VERSION) then none
  else some node_buf

/-- Method `inc_entries()`: `++nentries` on the 30-bit field. -/
def inc_entries (n : BtreeNode K V) : BtreeNode K V :=
  { n with hdr := { n.hdr with nentries := (n.hdr.nentries % 2 ^ 30 + 1) % 2 ^ 30 } }

/-- Method `sub_entries(subn)`: `nentries -= subn` on the 30-bit field. -/
def sub_entries (n : BtreeNode K V) (subn : Nat) : BtreeNode K V :=
  { n with hdr := { n.hdr with
      nentries := (n.hdr.nentries % 2 ^ 30 + 2 ^ 30 - subn % 2 ^ 30) % 2 ^ 30 } }

/-- Modelled from the spec: `insert(ind, key, val)` is pure virtual in `BtreeNode`;
the variants place the entry at position `ind`, shift the later entries right and
count the new entry. -/
def insert_at (n : BtreeNode K V) (ind : Nat) (key : K) (val : V) :
    btree_status_t × BtreeNode K V :=
  (btree_status_t.success,
    { n.inc_entries with entries := n.entries.take ind ++ (key, val) :: n.entries.drop ind })

/-- Modelled from the spec: `remove(ind_s, ind_e)` is pure virtual in `BtreeNode`; the
variants take out the entries `ind_s ..= ind_e`, shift the later entries left and
lower the entry count by their number. -/
def remove_range (n : BtreeNode K V) (ind_s ind_e : Nat) : BtreeNode K V :=
  { n.sub_entries (ind_e + 1 - ind_s) with
    entries := n.entries.take ind_s ++ n.entries.drop (ind_e + 1) }

/-- Method `remove(ind)`: `remove(ind, ind)`. -/
def remove (n : BtreeNode K V) (ind : Nat) : BtreeNode K V := n.remove_range ind ind

/-- Modelled from the spec: `update(ind, val)` is pure virtual in `BtreeNode`; the
variants replace the value of the entry at `ind` and keep its key. -/
def update (n : BtreeNode K V) (ind : Nat) (val : V) : BtreeNode K V :=
  match n.entries[ind]? with
  | some e => { n with entries := n.entries.set ind (e.1, val) }
  | none => n

/-- Method `insert(key, val)`: `find`, then `insert(idx, key, val)`; the status of
the latter is dropped and `success` returned. -/
def insert [LinearOrder K] [Inhabited K] (n : BtreeNode K V) (key : K) (val : V) :
    btree_status_t × BtreeNode K V :=
  let idx := (n.find key none).1.2
  (btree_status_t.success, (n.insert_at idx key val).2)

/-- Method `remove_one(key, outkey, outval)`.  The result is
`(found, node, outkey, outval)`: the node and the two pointees as the call
leaves them (`none` for a null pointer). -/
def remove_one [LinearOrder K] [Inhabited K] (n : BtreeNode K V) (key : K)
    (outkey : Option K) (outval : Option (BtreeValue V)) :
    Bool × BtreeNode K V × Option K × Option (BtreeValue V) :=
  let r := n.find key outval
  if r.1.1 then
    (r.1.1, n.remove r.1.2, outkey.map (fun _ => n.get_nth_key r.1.2), r.2)
  else (r.1.1, n, outkey, r.2)

/-- Method `update_one(key, val, outval)`.  The result is `(found, node, outval)`:
the node and the pointee as the call leaves them. -/
def update_one [LinearOrder K] [Inhabited K] (n : BtreeNode K V) (key : K) (val : V)
    (outval : Option (BtreeValue V)) : Bool × BtreeNode K V × Option (BtreeValue V) :=
  let r := n.find key outval
  if r.1.1 then (r.1.1, n.update r.1.2 val, r.2) else (r.1.1, n, r.2)

/-- Child slot `i` of an interior node covers the key `k`: slot `i` covers the keys
in `(key[i-1], key[i]]`, and slot `nentries`, the edge, the keys above the last
key. -/
def slot_covers [LinearOrder K] [Inhabited K] (n : BtreeNode K V) (i : Nat) (k : K) : Prop :=
  i ≤ n.total_entries ∧ (0 < i → n.get_nth_key (i - 1) < k) ∧
  (i < n.total_entries → k ≤ n.get_nth_key i)

end BtreeNode

/-- A request that `device_truncate` makes to the log device. -/
inductive LogDevCall where
  | truncate (key : logdev_key)
deriving DecidableEq, Repr

/-- Method `HomeLogStoreMgr::device_truncate(dry_run)` with its requests to the log
device: the returned key and the requests made.  The one request of the source,
`if (!dry_run) m_log_dev.truncate(min_safe_ld_key);`, is commented out, so no
request is made. -/
def HomeLogStoreMgr.device_truncate_calls (m : HomeLogStoreMgr) (dry_run : Bool) :
    logdev_key × List LogDevCall :=
  (m.device_truncate dry_run, [])

/-- The seq_nums that `k` successive `append_async` calls hand to `write_async`, in
call order: call `j` gets what `m_seq_num.fetch_add(1)` returns, the `m_seq_num`
left by the calls before it. -/
def HomeLogStore.assigned_seq_nums (s : HomeLogStore) (k : Nat) : List Int :=
  (List.range k).map (fun j => (HomeLogStore.append_async^[j] s).m_seq_num)

/-- A node with keys 10, 20, 20, 30: two adjacent keys equal. -/
def leaf_dup : BtreeNode Int Nat :=
  { hdr := { nentries := 4, leaf := true }, entries := [(10, 1), (20, 2), (20, 5), (30, 3)] }

/-- A leaf with the one key 10. -/
def leaf1 : BtreeNode Int Nat :=
  { hdr := { nentries := 1, leaf := true }, entries := [(10, 1)] }

/-- A leaf whose header carries an edge id, 7. -/
def leaf_with_edge_id : BtreeNode Int Nat :=
  { hdr := { nentries := 1, leaf := true, edge_info := ⟨7, 4⟩ }, entries := [(10, 1)] }

/-- A buffer whose header has magic 0x12 and version 9, and node id 7. -/
def node_bad_magic : BtreeNode Int Nat :=
  { hdr := { magic := 0x12, version := 9, node_id := 7, leaf := true }, entries := [] }

/-! ### B-tree node: adjacent indices, probes of the search, entry counter -/

namespace BtreeNode

variable {K V : Type}

/-- The `for` loop of `get_adjacent_indicies`: `i` runs from `start_ind` while
`i <= end_ind` and the list holds fewer than `max_indices` indices; the index
`nentries` is pushed only with a valid edge and ends the loop.  `i` is `uint32_t`.
The first argument is fuel; every iteration that does not leave the loop pushes
one index, so `max_indices + 1` iterations are never exceeded. -/
def get_adjacent_indicies_loop (n : BtreeNode K V) (max_indices end_ind : Nat) :
    Nat → Nat → List Nat → List Nat
  | 0, _, indices_list => indices_list
  | fuel + 1, i, indices_list =>
    if i ≤ end_ind ∧ indices_list.length < max_indices then
      if i = n.total_entries then
        if n.has_valid_edge then indices_list ++ [i] else indices_list
      else
        get_adjacent_indicies_loop n max_indices end_ind fuel ((i + 1) % 4294967296)
          (indices_list ++ [i])
    else indices_list

/-- Method `get_adjacent_indicies(cur_ind, indices_list, max_indices)`; the result is
`indices_list` as the call leaves it.  All the arithmetic is `uint32_t`; the two
subtractions `max_ind - cur_ind` and `cur_ind - max_ind` are taken in the branch
in which they do not wrap. -/
def get_adjacent_indicies (n : BtreeNode K V) (cur_ind : Nat) (indices_list : List Nat)
    (max_indices : Nat) : List Nat :=
  let max_ind := ((max_indices / 2 + 4294967296 - 1) % 4294967296 + max_indices % 2) % 4294967296
  let end_ind := (cur_ind + max_indices / 2) % 4294967296
  let end_ind := if cur_ind < max_ind then (end_ind + (max_ind - cur_ind)) % 4294967296 else end_ind
  let start_ind := if cur_ind < max_ind then 0 else cur_ind - max_ind
  n.get_adjacent_indicies_loop max_indices end_ind (max_indices + 1) start_ind indices_list

/-- The number of indices that the loop of `get_adjacent_indicies` pushes from index
`i` on, with `room` places left in the list and `window` indices left up to
`end_ind`: all of them while `nentries` is not reached, otherwise those below
`nentries` and, with a valid edge, `nentries` itself. -/
def adjacent_run_length (n : BtreeNode K V) (room window i : Nat) : Nat :=
  if n.total_entries - i < min room window then
    (n.total_entries - i) + (if n.has_valid_edge then 1 else 0)
  else min room window

end BtreeNode

/-- Three stores, the second one new (never truncated): safe keys {7, 0}, {-1, 0}
and {5, 0}. -/
def mgr_with_new_store : HomeLogStoreMgr :=
  ⟨[store_with_safe_key 1 ⟨7, 0⟩, HomeLogStore.new 2, store_with_safe_key 3 ⟨5, 0⟩]⟩

/-! ### The binary searches with their probes recorded -/

namespace BtreeNode

variable {K V : Type}

/-- The `while ((end - start) > 1)` loop of `bsearch` run step by step with its
probes recorded: the result is `none` when the fuel (one unit per iteration) ends
before the loop exits, and otherwise `(found, end)` at loop exit together with the
values of `mid` that were probed, in order. -/
def bsearch_loop_trace (cmp : Nat → Int) : Nat → Int → Int → Option ((Bool × Int) × List Int)
  | 0, _, _ => none
  | fuel + 1, start, end_ =>
    if end_ - start > 1 then
      let mid := start + (end_ - start) / 2
      let x := cmp (int_to_u32 mid)
      if x = 0 then some ((true, mid), [mid])
      else if x > 0 then
        (bsearch_loop_trace cmp fuel start mid).map (fun r => (r.1, mid :: r.2))
      else (bsearch_loop_trace cmp fuel mid end_).map (fun r => (r.1, mid :: r.2))
    else some ((false, end_), [])

/-- The values of `mid` that `bsearch(start, end, key)` probes, in order (none when
`end - start <= 1`, where `bsearch` returns before the loop). -/
def bsearch_probes [LinearOrder K] [Inhabited K] (n : BtreeNode K V) (start end_ : Int)
    (key : K) : List Int :=
  match bsearch_loop_trace (n.compare_nth_key key) ((end_ - start).toNat + 1) start end_ with
  | some r => r.2
  | none => []

end BtreeNode

namespace HomeLogStore

/-- The `while ((end - start) > 1)` loop of `search_max_le` run step by step: `none`
when the fuel (one unit per iteration) ends before the loop returns, otherwise the
returned `int` together with the number of barriers probed. -/
def search_max_le_trace (bs : List TruncationBarrier) (input_sn : Int) :
    Nat → Int → Int → Option (Int × Nat)
  | 0, _, _ => none
  | fuel + 1, start, end_ =>
    if end_ - start > 1 then
      let mid := start + (end_ - start) / 2
      let mid_entry := bs.getD mid.toNat default
      if mid_entry.seq_num = input_sn then some (mid, 1)
      else if mid_entry.seq_num > input_sn then
        (search_max_le_trace bs input_sn fuel start mid).map (fun r => (r.1, r.2 + 1))
      else (search_max_le_trace bs input_sn fuel mid end_).map (fun r => (r.1, r.2 + 1))
    else some (end_ - 1, 0)

end HomeLogStore

/-! ### Cache statistics -/

/-- Class `CacheStats`: the two counters that `get_hit_ratio` reads.  They are held
by the base class `homeds::Stats`, which is outside the sources at hand; each is a
`uint64_t`. -/
structure CacheStats where
  hit_count : Nat
  miss_count : Nat
deriving DecidableEq, Repr

/-- Conversion of a `uint64_t` to the `int` that `get_hit_ratio` returns: the low 32
bits, read as a signed number. -/
def u64_to_int (v : Nat) : Int := ((v + 2147483648) % 4294967296 : Nat) - 2147483648

namespace CacheStats

/-- Method `get_hit_count()`: `this->get(CACHE_STATS_HIT_COUNT)`, a `uint64_t`. -/
def get_hit_count (c : CacheStats) : Nat := c.hit_count % 18446744073709551616

/-- Method `get_miss_count()`: `this->get(CACHE_STATS_MISS_COUNT)`, a `uint64_t`. -/
def get_miss_count (c : CacheStats) : Nat := c.miss_count % 18446744073709551616

/-- Method `get_hit_ratio()`:
`(get_hit_count() * 100) / (get_hit_count() + get_miss_count())` in `uint64_t`
arithmetic, returned as `int`.  A zero divisor has no defined result: `none`. -/
def get_hit_ratio (c : CacheStats) : Option Int :=
  if (c.get_hit_count + c.get_miss_count) % 18446744073709551616 = 0 then none
  else
    some (u64_to_int ((c.get_hit_count * 100) % 18446744073709551616
      / ((c.get_hit_count + c.get_miss_count) % 18446744073709551616)))

end CacheStats

/-! ### The assertion of `on_write_completion` -/

namespace HomeLogStore

/-- The value that `m_flush_batch_max` holds when `on_write_completion` reaches
`assert(m_flush_batch_max.seq_num != -1)`: that of the store after
`if (req->seq_num > m_flush_batch_max.seq_num) { m_flush_batch_max = {req->seq_num, flush_ld_key}; }`. -/
def flush_batch_max_at_assert (s : HomeLogStore) (seq_num : Int) (flush_ld_key : logdev_key) :
    TruncationBarrier :=
  if seq_num > s.m_flush_batch_max.seq_num then ⟨seq_num, flush_ld_key⟩
  else s.m_flush_batch_max

/-- The assertion of `on_write_completion`, `m_flush_batch_max.seq_num != -1`, which
is evaluated only in the branch `nremaining_in_batch == 0`. -/
def on_write_completion_assert (s : HomeLogStore) (seq_num : Int) (flush_ld_key : logdev_key)
    (nremaining_in_batch : Nat) : Bool :=
  if nremaining_in_batch = 0 then
    (s.flush_batch_max_at_assert seq_num flush_ld_key).seq_num != -1
  else true

/-- A run of `on_write_completion` calls, first call first, each with its
`nremaining_in_batch`. -/
def run_completions (s : HomeLogStore) (calls : List (Completion × Nat)) : HomeLogStore :=
  calls.foldl
    (fun t c => t.on_write_completion c.1.seq_num c.1.ld_key c.1.flush_ld_key c.2) s

end HomeLogStore

/-! ### B-tree node: the entry counter and the flags of its word -/

namespace BtreeNode

variable {K V : Type}

/-- Method `set_total_entries(n)`: `nentries = n`, kept to the 30 bits of the field. -/
def set_total_entries (n : BtreeNode K V) (cnt : Nat) : BtreeNode K V :=
  { n with hdr := { n.hdr with nentries := cnt % 4294967296 % 2 ^ 30 } }

/-- Method `dec_entries()`: `--nentries` on the 30-bit field. -/
def dec_entries (n : BtreeNode K V) : BtreeNode K V :=
  { n with hdr := { n.hdr with nentries := (n.hdr.nentries % 2 ^ 30 + 2 ^ 30 - 1) % 2 ^ 30 } }

/-- Method `add_entries(addn)`: `nentries += addn` on the 30-bit field, `addn` being
`uint32_t`. -/
def add_entries (n : BtreeNode K V) (addn : Nat) : BtreeNode K V :=
  { n with hdr := { n.hdr with
      nentries := (n.hdr.nentries % 2 ^ 30 + addn % 4294967296) % 2 ^ 30 } }

/-- Method `set_valid_node(valid)`: `valid_node = (valid ? 1 : 0)`. -/
def set_valid_node (n : BtreeNode K V) (valid : Bool) : BtreeNode K V :=
  { n with hdr := { n.hdr with valid_node := if valid then true else false } }

/-- All of the node but the entry counter is as in `n`. -/
def same_but_nentries (n r : BtreeNode K V) : Prop :=
  r.hdr = { n.hdr with nentries := r.hdr.nentries } ∧ r.entries = n.entries ∧
  r.data_area = n.data_area

end BtreeNode

/-- A leaf whose keys 30, 10, 20 are not in order. -/
def leaf_unsorted : BtreeNode Int Nat :=
  { hdr := { nentries := 3, leaf := true }, entries := [(30, 1), (10, 2), (20, 3)] }

/-- A leaf header whose entry counter holds the largest value of the 30-bit field,
2^30 - 1. -/
def node_counter_max : BtreeNode Int Nat :=
  { hdr := { nentries := 1073741823, leaf := true }, entries := [] }

/-- A store whose next_seq_num is the largest 64-bit seq_num, 2^63 - 1. -/
def store_seq_max : HomeLogStore :=
  { HomeLogStore.new 1 with m_seq_num := 9223372036854775807 }

/-- One store whose safe key {2^63 - 1, 77} carries the out-of-bound idx. -/
def mgr_sentinel_idx : HomeLogStoreMgr :=
  ⟨[store_with_safe_key 1 ⟨9223372036854775807, 77⟩]⟩

/-- Two stores with safe keys {-1, 3} and {-5, 9}. -/
def mgr_below_minus_one : HomeLogStoreMgr :=
  ⟨[store_with_safe_key 1 ⟨-1, 3⟩, store_with_safe_key 2 ⟨-5, 9⟩]⟩

/-! ## Part 2: theorems -/

namespace BtreeNode

variable {K V : Type}

theorem key_compare_eq_zero [LinearOrder K] (a b : K) : key_compare a b = 0 ↔ a = b := by
  unfold key_compare
  rcases lt_trichotomy a b with h | h | h
  · simp [h, h.ne]
  · simp [h]
  · simp [h, not_lt_of_gt h, h.ne.symm]

theorem key_compare_pos [LinearOrder K] (a b : K) : 0 < key_compare a b ↔ b < a := by
  unfold key_compare
  rcases lt_trichotomy a b with h | h | h
  · simp [h, not_lt_of_gt h]
  · simp [h]
  · simp [h, not_lt_of_gt h]

theorem key_compare_neg [LinearOrder K] (a b : K) : key_compare a b < 0 ↔ a < b := by
  unfold key_compare
  rcases lt_trichotomy a b with h | h | h
  · simp [h]
  · simp [h]
  · simp [h, not_lt_of_gt h]

theorem int_to_u32_of_nat (i : Int) (h0 : 0 ≤ i) (h1 : i < 4294967296) :
    int_to_u32 i = i.toNat := by
  unfold int_to_u32
  rw [Int.emod_eq_of_lt h0 h1]

/-- Loop invariant of `bsearch`: with a comparison that is negative below the
target and positive above it, the loop ends on the first index that is not
negative. -/
theorem bsearch_loop_spec (cmp : Nat → Int) (n : Nat) (hn : n < 2 ^ 30)
    (hlt : ∀ i j : Nat, i < j → j < n → cmp j ≤ 0 → cmp i < 0)
    (hgt : ∀ i j : Nat, i < j → j < n → 0 ≤ cmp i → 0 < cmp j) :
    ∀ (fuel : Nat) (s e : Int), -1 ≤ s → s < e → e ≤ n → e - s ≤ fuel →
      (∀ i : Nat, (i : Int) ≤ s → cmp i < 0) →
      (∀ i : Nat, e ≤ (i : Int) → i < n → 0 < cmp i) →
      0 ≤ (bsearch_loop cmp fuel s e).2 ∧ (bsearch_loop cmp fuel s e).2 ≤ n ∧
      (∀ i : Nat, (i : Int) < (bsearch_loop cmp fuel s e).2 → cmp i < 0) ∧
      (∀ i : Nat, (bsearch_loop cmp fuel s e).2 < (i : Int) → i < n → 0 < cmp i) ∧
      ((bsearch_loop cmp fuel s e).1 = true →
        (bsearch_loop cmp fuel s e).2 < n ∧ cmp (bsearch_loop cmp fuel s e).2.toNat = 0) ∧
      ((bsearch_loop cmp fuel s e).1 = false → (bsearch_loop cmp fuel s e).2 < n →
        0 < cmp (bsearch_loop cmp fuel s e).2.toNat) := by
  intro fuel
  induction fuel with
  | zero => intro s e h1 h2 h3 h4; omega
  | succ fuel ih =>
    intro s e h1 h2 h3 h4 hlo hhi
    unfold bsearch_loop
    by_cases hw : e - s > 1
    · have hm0 : 0 ≤ s + (e - s) / 2 := by omega
      have hm1 : s + (e - s) / 2 < e := by omega
      have hm2 : s < s + (e - s) / 2 := by omega
      have hmn : (s + (e - s) / 2).toNat < n := by omega
      have hu : int_to_u32 (s + (e - s) / 2) = (s + (e - s) / 2).toNat :=
        int_to_u32_of_nat _ hm0 (by omega)
      simp only [hw, if_true, hu]
      by_cases hx0 : cmp (s + (e - s) / 2).toNat = 0
      · rw [if_pos hx0]
        refine ⟨hm0, by omega, ?_, ?_, ?_, ?_⟩
        · intro i hi
          exact hlt i _ (by omega) hmn (le_of_eq hx0)
        · intro i hi hin
          exact hgt _ i (by omega) hin (le_of_eq hx0.symm)
        · intro _; exact ⟨by omega, hx0⟩
        · intro h; exact absurd h (by simp)
      · rw [if_neg hx0]
        by_cases hxp : cmp (s + (e - s) / 2).toNat > 0
        · rw [if_pos hxp]
          apply ih s _ h1 hm2 (by omega) (by omega) hlo
          intro i hi hin
          rcases Nat.lt_or_ge (s + (e - s) / 2).toNat i with h | h
          · exact hgt _ i h hin (le_of_lt hxp)
          · have : i = (s + (e - s) / 2).toNat := by omega
            rw [this]; exact hxp
        · rw [if_neg hxp]
          have hxn : cmp (s + (e - s) / 2).toNat < 0 := by omega
          apply ih _ e (by omega) hm1 h3 (by omega) _ hhi
          intro i hi
          rcases Nat.lt_or_ge i (s + (e - s) / 2).toNat with h | h
          · exact hlt i _ h hmn (le_of_lt hxn)
          · have : i = (s + (e - s) / 2).toNat := by omega
            rw [this]; exact hxn
    · simp only [hw, if_false]
      have hes : e = s + 1 := by omega
      refine ⟨by omega, h3, ?_, ?_, ?_, ?_⟩
      · intro i hi; exact hlo i (by omega)
      · intro i hi hin; exact hhi i (by omega) hin
      · intro h; exact absurd h (by simp)
      · intro _ hen; exact hhi e.toNat (by omega) (by omega)

/-- Fuel of `bsearch_loop`: once the fuel covers `end - start` the result no longer
depends on it, for any comparison whatever (sorted keys or not). -/
theorem bsearch_loop_fuel (cmp : Nat → Int) :
    ∀ (f1 f2 : Nat) (s e : Int), e - s ≤ f1 → e - s ≤ f2 →
      bsearch_loop cmp f1 s e = bsearch_loop cmp f2 s e := by
  intro f1
  induction f1 with
  | zero =>
    intro f2 s e h1 _
    cases f2 with
    | zero => rfl
    | succ f2 =>
      unfold bsearch_loop
      rw [if_neg (by omega)]
  | succ f1 ih =>
    intro f2 s e h1 h2
    cases f2 with
    | zero =>
      unfold bsearch_loop
      rw [if_neg (by omega)]
    | succ f2 =>
      rw [bsearch_loop, bsearch_loop]
      by_cases hw : e - s > 1
      · simp only [hw, if_true]
        rw [ih f2 s _ (by omega) (by omega), ih f2 _ e (by omega) (by omega)]
      · simp only [hw, if_false]

/-- The loop equation of `bsearch`: with fuel covering `end - start`, one call is
one iteration of the `while` loop followed by the loop on the narrowed bounds. -/
theorem bsearch_loop_unfold (cmp : Nat → Int) (fuel : Nat) (s e : Int) (h : e - s ≤ fuel) :
    bsearch_loop cmp fuel s e =
      if e - s > 1 then
        if cmp (int_to_u32 (s + (e - s) / 2)) = 0 then (true, s + (e - s) / 2)
        else if cmp (int_to_u32 (s + (e - s) / 2)) > 0 then
          bsearch_loop cmp (s + (e - s) / 2 - s).toNat s (s + (e - s) / 2)
        else bsearch_loop cmp (e - (s + (e - s) / 2)).toNat (s + (e - s) / 2) e
      else (false, e) := by
  cases fuel with
  | zero =>
    unfold bsearch_loop
    rw [if_neg (by omega)]
  | succ fuel =>
    rw [bsearch_loop]
    by_cases hw : e - s > 1
    · simp only [hw, if_true]
      rw [bsearch_loop_fuel cmp fuel (s + (e - s) / 2 - s).toNat s _ (by omega) (by omega),
        bsearch_loop_fuel cmp fuel (e - (s + (e - s) / 2)).toNat _ e (by omega) (by omega)]
    · simp only [hw, if_false]

theorem total_entries_lt (n : BtreeNode K V) : n.total_entries < 2 ^ 30 := by
  unfold total_entries
  exact Nat.mod_lt _ (by norm_num)

theorem get_nth_key_lt [LinearOrder K] [Inhabited K] (n : BtreeNode K V)
    (hs : n.keys_increasing) (i j : Nat) (hij : i < j) (hj : j < n.entries.length) :
    n.get_nth_key i < n.get_nth_key j := by
  unfold keys_increasing at hs
  unfold get_nth_key
  have hj2 : j < (n.entries.map Prod.fst).length := by simpa using hj
  have hi2 : i < (n.entries.map Prod.fst).length := by omega
  rw [List.getD_eq_getElem _ _ hi2, List.getD_eq_getElem _ _ hj2]
  exact List.pairwise_iff_getElem.mp hs i j hi2 hj2 hij

/-- On a coherent node with strictly increasing keys `bsearch_node` returns the
first index whose key is not below the target, and `found` tells whether the key
there equals the target. -/
theorem bsearch_node_spec [LinearOrder K] [Inhabited K] (n : BtreeNode K V) (key : K)
    (hwf : n.wf) (hs : n.keys_increasing) :
    (n.bsearch_node key).2 ≤ n.total_entries ∧
    (∀ i : Nat, i < (n.bsearch_node key).2 → n.get_nth_key i < key) ∧
    (∀ i : Nat, (n.bsearch_node key).2 < i → i < n.total_entries → key < n.get_nth_key i) ∧
    ((n.bsearch_node key).1 = true →
      (n.bsearch_node key).2 < n.total_entries ∧ n.get_nth_key (n.bsearch_node key).2 = key) ∧
    ((n.bsearch_node key).1 = false → (n.bsearch_node key).2 < n.total_entries →
      key < n.get_nth_key (n.bsearch_node key).2) := by
  have hn := n.total_entries_lt
  unfold wf at hwf
  unfold bsearch_node bsearch
  by_cases h0 : (n.total_entries : Int) - -1 ≤ 1
  · rw [if_pos h0]
    have : n.total_entries = 0 := by omega
    simp [this]
  · rw [if_neg h0]
    have hlt : ∀ i j : Nat, i < j → j < n.total_entries → n.compare_nth_key key j ≤ 0 →
        n.compare_nth_key key i < 0 := by
      intro i j hij hj hc
      unfold compare_nth_key at *
      rw [key_compare_neg]
      have h1 := n.get_nth_key_lt hs i j hij (by omega)
      have h2 : ¬ key < n.get_nth_key j := by
        intro h; rw [← key_compare_pos] at h; omega
      exact lt_of_lt_of_le h1 (not_lt.mp h2)
    have hgt : ∀ i j : Nat, i < j → j < n.total_entries → 0 ≤ n.compare_nth_key key i →
        0 < n.compare_nth_key key j := by
      intro i j hij hj hc
      unfold compare_nth_key at *
      rw [key_compare_pos]
      have h1 := n.get_nth_key_lt hs i j hij (by omega)
      have h2 : ¬ n.get_nth_key i < key := by
        intro h; rw [← key_compare_neg] at h; omega
      exact lt_of_le_of_lt (not_lt.mp h2) h1
    have hsp := bsearch_loop_spec (n.compare_nth_key key) n.total_entries hn hlt hgt
      ((n.total_entries : Int) - -1).toNat (-1) n.total_entries (le_refl _) (by omega)
      (le_refl _) (by omega) (by intro i hi; omega) (by intro i hi hin; omega)
    obtain ⟨r0, r1, r2, r3, r4, r5⟩ := hsp
    generalize bsearch_loop (n.compare_nth_key key) ((n.total_entries : Int) - -1).toNat (-1)
      n.total_entries = r at *
    have hu : int_to_u32 r.2 = r.2.toNat := int_to_u32_of_nat _ r0 (by omega)
    simp only [hu]
    refine ⟨by omega, ?_, ?_, ?_, ?_⟩
    · intro i hi
      have := r2 i (by omega)
      unfold compare_nth_key at this
      exact (key_compare_neg _ _).mp this
    · intro i hi hin
      have := r3 i (by omega) hin
      unfold compare_nth_key at this
      exact (key_compare_pos _ _).mp this
    · intro hf
      obtain ⟨ha, hb⟩ := r4 hf
      unfold compare_nth_key at hb
      exact ⟨by omega, (key_compare_eq_zero _ _).mp hb⟩
    · intro hf hlt2
      have := r5 hf (by omega)
      unfold compare_nth_key at this
      exact (key_compare_pos _ _).mp this

theorem find_fst [LinearOrder K] [Inhabited K] (n : BtreeNode K V) (key : K)
    (outval : Option (BtreeValue V)) : (n.find key outval).1 = n.bsearch_node key := by
  unfold find
  simp only []
  split
  · split <;> rfl
  · rfl

/-- C1: on a node whose keys are strictly increasing, `find` returns `(found, idx)`
with `idx` the smallest index whose key is at least the target (every key before
`idx` is below the target, the key at `idx` is not), `idx = nentries` when every
key is below the target and `idx = 0` for an empty node; `found` is true exactly
when the target is a key of the node, and then the key at `idx` is the target. -/
theorem find_spec [LinearOrder K] [Inhabited K] (n : BtreeNode K V) (key : K)
    (outval : Option (BtreeValue V)) (hwf : n.wf) (hs : n.keys_increasing) :
    (n.find key outval).1.2 ≤ n.total_entries ∧
    (∀ i : Nat, i < (n.find key outval).1.2 → n.get_nth_key i < key) ∧
    ((n.find key outval).1.2 < n.total_entries → key ≤ n.get_nth_key (n.find key outval).1.2) ∧
    ((∀ i : Nat, i < n.total_entries → n.get_nth_key i < key) →
      (n.find key outval).1.2 = n.total_entries) ∧
    (n.total_entries = 0 → (n.find key outval).1.2 = 0) ∧
    ((n.find key outval).1.1 = true ↔ ∃ i : Nat, i < n.total_entries ∧ n.get_nth_key i = key) ∧
    ((n.find key outval).1.1 = true →
      (n.find key outval).1.2 < n.total_entries ∧
      n.get_nth_key (n.find key outval).1.2 = key) := by
  rw [find_fst]
  obtain ⟨h1, h2, h3, h4, h5⟩ := n.bsearch_node_spec key hwf hs
  have hidx : (n.bsearch_node key).2 < n.total_entries →
      key ≤ n.get_nth_key (n.bsearch_node key).2 := by
    intro hlt
    cases hf : (n.bsearch_node key).1
    · exact le_of_lt (h5 hf hlt)
    · exact le_of_eq (h4 hf).2.symm
  refine ⟨h1, h2, hidx, ?_, by omega, ?_, h4⟩
  · intro hall
    by_contra hne
    have hlt : (n.bsearch_node key).2 < n.total_entries := by omega
    exact absurd (hall _ hlt) (not_lt.mpr (hidx hlt))
  · constructor
    · intro hf
      exact ⟨_, h4 hf⟩
    · rintro ⟨i, hi, hk⟩
      by_contra hf
      have hf2 : (n.bsearch_node key).1 = false := by simpa using hf
      rcases Nat.lt_trichotomy i (n.bsearch_node key).2 with h | h | h
      · have := h2 i h
        rw [hk] at this
        exact lt_irrefl _ this
      · have := h5 hf2 (by omega)
        rw [← h, hk] at this
        exact lt_irrefl _ this
      · have := h3 i h hi
        rw [hk] at this
        exact lt_irrefl _ this

/-- C1 witness: the leaf with keys 10, 20, 30 and target 20. -/
theorem find_spec_witness :
    leaf3.wf ∧ leaf3.keys_increasing ∧ (leaf3.find 20 none).1 = (true, 1) ∧
    ((leaf3.find 20 none).1.1 = true ↔
      ∃ i : Nat, i < leaf3.total_entries ∧ leaf3.get_nth_key i = 20) :=
  ⟨by decide, by unfold keys_increasing; decide, by decide,
    (find_spec leaf3 20 none (by decide) (by unfold keys_increasing; decide)).2.2.2.2.2.1⟩

/-- The adjusted start index of `match_range`: the indices from it on are those
whose key satisfies the lower end of the range. -/
theorem match_range_start_spec [LinearOrder K] [Inhabited K] (n : BtreeNode K V) (key : K)
    (incl : Bool) (hwf : n.wf) (hs : n.keys_increasing) :
    (if (n.bsearch_node key).1 && !incl then ((n.bsearch_node key).2 + 1) % 4294967296
      else (n.bsearch_node key).2) ≤ n.total_entries ∧
    ∀ i : Nat, i < n.total_entries →
      ((if (n.bsearch_node key).1 && !incl then ((n.bsearch_node key).2 + 1) % 4294967296
        else (n.bsearch_node key).2) ≤ i ↔
       (if incl = true then key ≤ n.get_nth_key i else key < n.get_nth_key i)) := by
  obtain ⟨h1, h2, h3, h4, h5⟩ := n.bsearch_node_spec key hwf hs
  have hn := n.total_entries_lt
  have hbelow : ∀ i : Nat, i < n.total_entries → key ≤ n.get_nth_key i →
      (n.bsearch_node key).2 ≤ i := by
    intro i _ hk
    by_contra hlt
    exact absurd (h2 i (by omega)) (not_lt.mpr hk)
  cases hf : (n.bsearch_node key).1 <;> cases incl
  · simp only [Bool.false_and, Bool.false_eq_true, if_false]
    refine ⟨h1, fun i hi => ⟨fun hle => ?_, fun hk => hbelow i hi (le_of_lt hk)⟩⟩
    rcases Nat.eq_or_lt_of_le hle with h | h
    · rw [← h]; exact h5 hf (by omega)
    · exact h3 i h hi
  · simp only [Bool.false_and, Bool.false_eq_true, if_false, if_true]
    refine ⟨h1, fun i hi => ⟨fun hle => ?_, fun hk => hbelow i hi hk⟩⟩
    rcases Nat.eq_or_lt_of_le hle with h | h
    · rw [← h]; exact le_of_lt (h5 hf (by omega))
    · exact le_of_lt (h3 i h hi)
  · obtain ⟨ha, hb⟩ := h4 hf
    have hmod : ((n.bsearch_node key).2 + 1) % 4294967296 = (n.bsearch_node key).2 + 1 :=
      Nat.mod_eq_of_lt (by omega)
    simp only [Bool.not_false, Bool.and_self, if_true, Bool.false_eq_true, if_false, hmod]
    refine ⟨by omega, fun i hi => ⟨fun hle => h3 i (by omega) hi, fun hk => ?_⟩⟩
    have hle := hbelow i hi (le_of_lt hk)
    rcases Nat.eq_or_lt_of_le hle with h | h
    · rw [← h, hb] at hk; exact absurd hk (lt_irrefl _)
    · omega
  · obtain ⟨ha, hb⟩ := h4 hf
    simp only [Bool.not_true, Bool.and_false, Bool.false_eq_true, if_false, if_true]
    refine ⟨h1, fun i hi => ⟨fun hle => ?_, fun hk => hbelow i hi hk⟩⟩
    rcases Nat.eq_or_lt_of_le hle with h | h
    · rw [← h, hb]
    · exact le_of_lt (h3 i h hi)

/-- The end index of `match_range` before its retreat: the indices below
`end_idx` (below `end_idx + 1` when the end key was found and is inclusive) are
those whose key satisfies the upper end of the range. -/
theorem match_range_end_spec [LinearOrder K] [Inhabited K] (n : BtreeNode K V) (key : K)
    (incl : Bool) (hwf : n.wf) (hs : n.keys_increasing) :
    ∀ i : Nat, i < n.total_entries →
      (i < (if !(n.bsearch_node key).1 || !incl then (n.bsearch_node key).2
        else (n.bsearch_node key).2 + 1) ↔
       (if incl = true then n.get_nth_key i ≤ key else n.get_nth_key i < key)) := by
  obtain ⟨h1, h2, h3, h4, h5⟩ := n.bsearch_node_spec key hwf hs
  have habove : ∀ i : Nat, i < n.total_entries → n.get_nth_key i ≤ key →
      i ≤ (n.bsearch_node key).2 := by
    intro i hi hk
    by_contra hlt
    exact absurd (h3 i (by omega) hi) (not_lt.mpr hk)
  cases hf : (n.bsearch_node key).1 <;> cases incl
  · simp only [Bool.not_false, Bool.or_self, if_true, Bool.false_eq_true, if_false]
    refine fun i hi => ⟨fun hlt => h2 i hlt, fun hk => ?_⟩
    rcases Nat.eq_or_lt_of_le (habove i hi (le_of_lt hk)) with h | h
    · have := h5 hf (by omega)
      rw [← h] at this
      exact absurd hk (lt_asymm this)
    · exact h
  · simp only [Bool.not_false, Bool.not_true, Bool.or_false, if_true]
    refine fun i hi => ⟨fun hlt => le_of_lt (h2 i hlt), fun hk => ?_⟩
    rcases Nat.eq_or_lt_of_le (habove i hi hk) with h | h
    · have := h5 hf (by omega)
      rw [← h] at this
      exact absurd hk (not_le.mpr this)
    · exact h
  · obtain ⟨ha, hb⟩ := h4 hf
    simp only [Bool.not_true, Bool.not_false, Bool.or_true, if_true, Bool.false_eq_true,
      if_false]
    refine fun i hi => ⟨fun hlt => h2 i hlt, fun hk => ?_⟩
    rcases Nat.eq_or_lt_of_le (habove i hi (le_of_lt hk)) with h | h
    · rw [h, hb] at hk; exact absurd hk (lt_irrefl _)
    · exact h
  · obtain ⟨ha, hb⟩ := h4 hf
    simp only [Bool.not_true, Bool.or_self, Bool.false_eq_true, if_false, if_true]
    refine fun i hi => ⟨fun hlt => ?_, fun hk => by have := habove i hi hk; omega⟩
    rcases Nat.eq_or_lt_of_le (Nat.lt_succ_iff.mp hlt) with h | h
    · rw [h, hb]
    · exact le_of_lt (h2 i h)

/-- On a leaf `match_range` answers true exactly when the adjusted start index is
below the exclusive upper index, and then reports `[start_idx, upper - 1]`. -/
theorem match_range_leaf_eval [LinearOrder K] [Inhabited K] (n : BtreeNode K V)
    (range : BtreeKeyRange K) (hleaf : n.is_leaf = true) (S U : Nat)
    (hS : S = (if (n.bsearch_node range.start_key).1 && !range.is_start_inclusive then
      ((n.bsearch_node range.start_key).2 + 1) % 4294967296
      else (n.bsearch_node range.start_key).2))
    (hU : U = (if !(n.bsearch_node range.end_key).1 || !range.is_end_inclusive then
      (n.bsearch_node range.end_key).2 else (n.bsearch_node range.end_key).2 + 1)) :
    ((n.match_range range).1 = true ↔ S ≠ n.total_entries ∧ S < U) ∧
    ((n.match_range range).1 = true →
      (n.match_range range).2.1 = S ∧ (n.match_range range).2.2 = U - 1) := by
  unfold match_range
  simp only [hleaf, Bool.true_or, if_true, ← hS]
  by_cases h1 : S = n.total_entries
  · simp [h1]
  · rw [if_neg h1]
    by_cases h2 : (!(n.bsearch_node range.end_key).1 || !range.is_end_inclusive) = true
    · rw [if_pos h2] at hU
      rw [if_pos h2]
      subst hU
      by_cases h3 : (n.bsearch_node range.end_key).2 = 0
      · simp [h3, h1]
      · rw [if_neg h3]
        by_cases h4 : S > (n.bsearch_node range.end_key).2 - 1
        · rw [if_pos h4]
          simp only [Bool.false_eq_true, false_iff, false_implies, and_true]
          omega
        · rw [if_neg h4]
          simp only [true_iff, true_implies, and_true, h1, ne_eq, not_false_eq_true, true_and]
          omega
    · rw [if_neg h2] at hU
      rw [if_neg h2]
      subst hU
      by_cases h4 : S > (n.bsearch_node range.end_key).2
      · rw [if_pos h4]
        simp only [Bool.false_eq_true, false_iff, false_implies, and_true]
        omega
      · rw [if_neg h4]
        simp only [true_iff, true_implies, and_true, h1, ne_eq, not_false_eq_true, true_and]
        omega

/-- C2: on a leaf with strictly increasing keys, for a range with any combination
of inclusive and exclusive ends, `match_range` returns true if and only if some
entry has its key in the range; when it returns true, `end_idx < nentries` and
the indices in `[start_idx, end_idx]` are exactly the indices of the entries
whose key lies in the range. -/
theorem match_range_leaf_spec [LinearOrder K] [Inhabited K] (n : BtreeNode K V)
    (range : BtreeKeyRange K) (hwf : n.wf) (hs : n.keys_increasing)
    (hleaf : n.is_leaf = true) :
    ((n.match_range range).1 = true ↔
      ∃ i : Nat, i < n.total_entries ∧ in_range range (n.get_nth_key i)) ∧
    ((n.match_range range).1 = true →
      (n.match_range range).2.2 < n.total_entries ∧
      ∀ i : Nat, ((n.match_range range).2.1 ≤ i ∧ i ≤ (n.match_range range).2.2) ↔
        (i < n.total_entries ∧ in_range range (n.get_nth_key i))) := by
  obtain ⟨hS1, hS2⟩ :=
    n.match_range_start_spec range.start_key range.is_start_inclusive hwf hs
  have hE := n.match_range_end_spec range.end_key range.is_end_inclusive hwf hs
  obtain ⟨e1, _, _, e4, _⟩ := n.bsearch_node_spec range.end_key hwf hs
  obtain ⟨hiff, hidx⟩ := n.match_range_leaf_eval range hleaf _ _ rfl rfl
  have hUle : (if !(n.bsearch_node range.end_key).1 || !range.is_end_inclusive then
      (n.bsearch_node range.end_key).2 else (n.bsearch_node range.end_key).2 + 1)
      ≤ n.total_entries := by
    split
    · exact e1
    · rename_i hc
      have hf : (n.bsearch_node range.end_key).1 = true := by
        cases h : (n.bsearch_node range.end_key).1
        · simp [h] at hc
        · rfl
      have := (e4 hf).1
      omega
  generalize (if (n.bsearch_node range.start_key).1 && !range.is_start_inclusive then
      ((n.bsearch_node range.start_key).2 + 1) % 4294967296
      else (n.bsearch_node range.start_key).2) = S at *
  generalize (if !(n.bsearch_node range.end_key).1 || !range.is_end_inclusive then
      (n.bsearch_node range.end_key).2 else (n.bsearch_node range.end_key).2 + 1) = U at *
  unfold in_range
  constructor
  · rw [hiff]
    constructor
    · rintro ⟨_, hlt⟩
      exact ⟨S, by omega, (hS2 S (by omega)).mp (le_refl _), (hE S (by omega)).mp hlt⟩
    · rintro ⟨i, hi, hlo, hhi⟩
      have a := (hS2 i hi).mpr hlo
      have b := (hE i hi).mpr hhi
      exact ⟨by omega, by omega⟩
  · intro ht
    obtain ⟨r1, r2⟩ := hidx ht
    obtain ⟨_, hlt⟩ := hiff.mp ht
    rw [r1, r2]
    refine ⟨by omega, fun i => ⟨?_, ?_⟩⟩
    · rintro ⟨a, b⟩
      have hi : i < n.total_entries := by omega
      exact ⟨hi, (hS2 i hi).mp a, (hE i hi).mp (by omega)⟩
    · rintro ⟨hi, hlo, hhi⟩
      have a := (hS2 i hi).mpr hlo
      have b := (hE i hi).mpr hhi
      exact ⟨a, by omega⟩

/-- C2 witness: the leaf with keys 10, 20, 30 and the range (10, 30]. -/
theorem match_range_leaf_spec_witness :
    leaf3.wf ∧ leaf3.keys_increasing ∧ leaf3.is_leaf = true ∧
    leaf3.match_range ⟨10, 30, false, true⟩ = (true, 1, 2) ∧
    ((leaf3.match_range ⟨10, 30, false, true⟩).1 = true ↔
      ∃ i : Nat, i < leaf3.total_entries ∧
        in_range ⟨10, 30, false, true⟩ (leaf3.get_nth_key i)) :=
  ⟨by decide, by unfold keys_increasing; decide, by decide, by decide,
    (match_range_leaf_spec leaf3 ⟨10, 30, false, true⟩ (by decide)
      (by unfold keys_increasing; decide) (by decide)).1⟩

/-- C3, as stated, fails on an interior node: with keys 10, 20, 30 and a valid
edge, the inverted range [25, 5] and the empty range (20, 20] both make
`match_range` return true with `start_idx > end_idx`. -/
theorem match_range_start_le_end_counterexample :
    interior3.wf ∧ interior3.keys_increasing ∧
    interior3.match_range ⟨25, 5, true, true⟩ = (true, 2, 0) ∧
    interior3.match_range ⟨20, 20, false, true⟩ = (true, 2, 1) ∧
    ¬ (∀ range : BtreeKeyRange Int, (interior3.match_range range).1 = true →
        (interior3.match_range range).2.1 ≤ (interior3.match_range range).2.2) := by
  refine ⟨by decide, by unfold keys_increasing; decide, by decide, by decide, ?_⟩
  intro h
  exact absurd (h ⟨25, 5, true, true⟩ (by decide)) (by decide)

/-- C3 (amended): on a node with strictly increasing keys, leaf or interior, with
or without a valid edge, whenever `match_range` returns true `start_idx <= end_idx`,
provided the node is a leaf or the range is ordered (`start_key < end_key`, or
`start_key = end_key` with an inclusive start). -/
theorem match_range_start_le_end [LinearOrder K] [Inhabited K] (n : BtreeNode K V)
    (range : BtreeKeyRange K) (hwf : n.wf) (hs : n.keys_increasing)
    (hr : n.is_leaf = true ∨ range.start_key < range.end_key ∨
      (range.start_key = range.end_key ∧ range.is_start_inclusive = true))
    (ht : (n.match_range range).1 = true) :
    (n.match_range range).2.1 ≤ (n.match_range range).2.2 := by
  obtain ⟨hS1, hS2⟩ :=
    n.match_range_start_spec range.start_key range.is_start_inclusive hwf hs
  obtain ⟨e1, _, _, e4, e5⟩ := n.bsearch_node_spec range.end_key hwf hs
  have hkey : (n.bsearch_node range.end_key).2 < n.total_entries →
      range.end_key ≤ n.get_nth_key (n.bsearch_node range.end_key).2 := by
    intro hlt
    cases hf : (n.bsearch_node range.end_key).1
    · exact le_of_lt (e5 hf hlt)
    · exact le_of_eq (e4 hf).2.symm
  revert ht
  unfold match_range
  simp only []
  generalize (if (n.bsearch_node range.start_key).1 && !range.is_start_inclusive then
      ((n.bsearch_node range.start_key).2 + 1) % 4294967296
      else (n.bsearch_node range.start_key).2) = S at *
  by_cases h1 : S = n.total_entries
  · rw [if_pos h1]; intro _; exact le_refl _
  · rw [if_neg h1]
    by_cases h2 : (n.is_leaf ||
        (decide ((n.bsearch_node range.end_key).2 = n.total_entries) && !n.has_valid_edge))
        = true
    · rw [if_pos h2]
      split_ifs <;> simp <;> omega
    · rw [if_neg h2]
      intro _
      show S ≤ (n.bsearch_node range.end_key).2
      have hnl : n.is_leaf = false := by
        cases h : n.is_leaf
        · rfl
        · simp [h] at h2
      rcases Nat.eq_or_lt_of_le e1 with he | he
      · omega
      · rw [hS2 _ he]
        have hk := hkey he
        rcases hr with hr | hr | ⟨hr, hi⟩
        · rw [hnl] at hr; exact absurd hr (by simp)
        · split
          · exact le_trans (le_of_lt hr) hk
          · exact lt_of_lt_of_le hr hk
        · rw [if_pos hi, hr]; exact hk

/-- C3 witness: the interior node with keys 10, 20, 30 and the range [10, 25). -/
theorem match_range_start_le_end_witness :
    interior3.match_range ⟨10, 25, true, false⟩ = (true, 0, 2) ∧
    (interior3.match_range ⟨10, 25, true, false⟩).2.1 ≤
      (interior3.match_range ⟨10, 25, true, false⟩).2.2 :=
  ⟨by decide, match_range_start_le_end interior3 ⟨10, 25, true, false⟩ (by decide)
    (by unfold keys_increasing; decide) (by decide) (by decide)⟩

/-- A target above every key: `bsearch_node` probes only keys below it and ends at
`(false, nentries)`; the key order plays no part. -/
theorem bsearch_node_all_below [LinearOrder K] [Inhabited K] (n : BtreeNode K V) (key : K)
    (hall : ∀ i : Nat, i < n.total_entries → n.get_nth_key i < key) :
    n.bsearch_node key = (false, n.total_entries) := by
  have hn := n.total_entries_lt
  have hneg : ∀ i : Nat, i < n.total_entries → n.compare_nth_key key i < 0 := by
    intro i hi
    unfold compare_nth_key
    exact (key_compare_neg _ _).mpr (hall i hi)
  unfold bsearch_node bsearch
  by_cases h0 : (n.total_entries : Int) - -1 ≤ 1
  · rw [if_pos h0]
    have : n.total_entries = 0 := by omega
    simp [this]
  · rw [if_neg h0]
    have hsp := bsearch_loop_spec (n.compare_nth_key key) n.total_entries hn
      (fun i j hij hj _ => hneg i (by omega))
      (fun i j hij hj hc => absurd (hneg i (by omega)) (by omega))
      ((n.total_entries : Int) - -1).toNat (-1) n.total_entries (le_refl _) (by omega)
      (le_refl _) (by omega) (by intro i hi; omega) (by intro i hi hin; omega)
    obtain ⟨r0, r1, _, _, r4, r5⟩ := hsp
    generalize bsearch_loop (n.compare_nth_key key) ((n.total_entries : Int) - -1).toNat (-1)
      n.total_entries = r at *
    have hf : r.1 = false := by
      cases h : r.1
      · rfl
      · obtain ⟨a, b⟩ := r4 h
        have := hneg r.2.toNat (by omega)
        omega
    have he : r.2 = n.total_entries := by
      by_contra hne
      have hlt : r.2 < n.total_entries := by omega
      have := r5 hf hlt
      have := hneg r.2.toNat (by omega)
      omega
    have hu : int_to_u32 r.2 = r.2.toNat := int_to_u32_of_nat _ r0 (by omega)
    show (r.1, int_to_u32 r.2) = (false, n.total_entries)
    rw [hf, hu, he]
    simp

/-- C4: for a key above every entry of the node, `find` returns `(false, nentries)`;
on an interior node with a valid edge a supplied `outval` receives the edge link
`(edge_id, edge_link_version)`, and on a leaf or on an interior node without a
valid edge `outval` is left as it was. -/
theorem find_beyond_last [LinearOrder K] [Inhabited K] (n : BtreeNode K V) (key : K)
    (outval : Option (BtreeValue V))
    (hall : ∀ i : Nat, i < n.total_entries → n.get_nth_key i < key) :
    (n.find key outval).1 = (false, n.total_entries) ∧
    (n.is_leaf = false ∧ n.has_valid_edge = true →
      (n.find key outval).2 =
        outval.map (fun _ => BtreeValue.link ⟨n.edge_id, n.edge_link_version⟩)) ∧
    (n.is_leaf = true ∨ n.has_valid_edge = false → (n.find key outval).2 = outval) := by
  have hb := n.bsearch_node_all_below key hall
  unfold find
  simp only [hb, if_true]
  refine ⟨?_, ?_, ?_⟩
  · split <;> rfl
  · rintro ⟨h1, h2⟩
    simp [h1, h2, get_edge_value]
  · rintro (h | h)
    · simp [h]
    · simp [h]

/-- C4 witness: key 35 on the interior node with keys 10, 20, 30 and edge (7, 4). -/
theorem find_beyond_last_witness :
    (∀ i : Nat, i < interior3.total_entries → interior3.get_nth_key i < 35) ∧
    interior3.find 35 (some (BtreeValue.value 0)) =
      ((false, 3), some (BtreeValue.link ⟨7, 4⟩)) ∧
    (interior3.find 35 (some (BtreeValue.value 0))).1 = (false, interior3.total_entries) :=
  ⟨by decide, by decide,
    (find_beyond_last interior3 35 (some (BtreeValue.value 0)) (by decide)).1⟩

end BtreeNode

namespace HomeLogStore

theorem barriers_increasing_getD (bs : List TruncationBarrier) (hs : barriers_increasing bs)
    (i j : Nat) (hij : i < j) (hj : j < bs.length) :
    (bs.getD i default).seq_num < (bs.getD j default).seq_num := by
  unfold barriers_increasing at hs
  have hi : i < bs.length := by omega
  rw [List.getD_eq_getElem _ _ hi, List.getD_eq_getElem _ _ hj]
  exact List.pairwise_iff_getElem.mp hs i j hi hj hij

/-- Fuel of `search_max_le_loop`: once the fuel covers `end - start` the result no
longer depends on it, for any barrier list (sorted or not). -/
theorem search_max_le_loop_fuel (bs : List TruncationBarrier) (input_sn : Int) :
    ∀ (f1 f2 : Nat) (s e : Int), e - s ≤ f1 → e - s ≤ f2 →
      search_max_le_loop bs input_sn f1 s e = search_max_le_loop bs input_sn f2 s e := by
  intro f1
  induction f1 with
  | zero =>
    intro f2 s e h1 _
    cases f2 with
    | zero => rfl
    | succ f2 =>
      unfold search_max_le_loop
      rw [if_neg (by omega)]
  | succ f1 ih =>
    intro f2 s e h1 h2
    cases f2 with
    | zero =>
      unfold search_max_le_loop
      rw [if_neg (by omega)]
    | succ f2 =>
      rw [search_max_le_loop, search_max_le_loop]
      by_cases hw : e - s > 1
      · simp only [hw, if_true]
        rw [ih f2 s _ (by omega) (by omega), ih f2 _ e (by omega) (by omega)]
      · simp only [hw, if_false]

/-- Loop invariant of `search_max_le`: barriers up to `start` are below `input_sn`,
barriers from `end` on are above it; the loop returns the last index whose
seq_num is at most `input_sn`. -/
theorem search_max_le_loop_spec (bs : List TruncationBarrier) (input_sn : Int)
    (hs : barriers_increasing bs) :
    ∀ (fuel : Nat) (s e : Int), -1 ≤ s → s < e → e ≤ bs.length → e - s ≤ fuel →
      (∀ i : Nat, (i : Int) ≤ s → (bs.getD i default).seq_num < input_sn) →
      (∀ i : Nat, e ≤ (i : Int) → i < bs.length → input_sn < (bs.getD i default).seq_num) →
      -1 ≤ search_max_le_loop bs input_sn fuel s e ∧
      search_max_le_loop bs input_sn fuel s e < bs.length ∧
      ∀ i : Nat, i < bs.length →
        ((i : Int) ≤ search_max_le_loop bs input_sn fuel s e ↔
          (bs.getD i default).seq_num ≤ input_sn) := by
  intro fuel
  induction fuel with
  | zero => intro s e h1 h2 h3 h4; omega
  | succ fuel ih =>
    intro s e h1 h2 h3 h4 hlo hhi
    unfold search_max_le_loop
    by_cases hw : e - s > 1
    · have hm0 : 0 ≤ s + (e - s) / 2 := by omega
      have hm1 : s + (e - s) / 2 < e := by omega
      have hm2 : s < s + (e - s) / 2 := by omega
      have hmn : (s + (e - s) / 2).toNat < bs.length := by omega
      simp only [hw, if_true]
      by_cases hx0 : (bs.getD (s + (e - s) / 2).toNat default).seq_num = input_sn
      · rw [if_pos hx0]
        refine ⟨by omega, by omega, fun i hi => ⟨fun hle => ?_, fun hk => ?_⟩⟩
        · rcases Nat.lt_or_ge i (s + (e - s) / 2).toNat with h | h
          · have := barriers_increasing_getD bs hs i _ h hmn
            omega
          · have : i = (s + (e - s) / 2).toNat := by omega
            rw [this]; omega
        · by_contra hgt
          have := barriers_increasing_getD bs hs (s + (e - s) / 2).toNat i (by omega) hi
          omega
      · rw [if_neg hx0]
        by_cases hxp : (bs.getD (s + (e - s) / 2).toNat default).seq_num > input_sn
        · rw [if_pos hxp]
          apply ih s _ h1 hm2 (by omega) (by omega) hlo
          intro i hi hin
          rcases Nat.lt_or_ge (s + (e - s) / 2).toNat i with h | h
          · have := barriers_increasing_getD bs hs _ i h hin
            omega
          · have : i = (s + (e - s) / 2).toNat := by omega
            rw [this]; exact hxp
        · rw [if_neg hxp]
          apply ih _ e (by omega) hm1 h3 (by omega) _ hhi
          intro i hi
          rcases Nat.lt_or_ge i (s + (e - s) / 2).toNat with h | h
          · have := barriers_increasing_getD bs hs i _ h hmn
            omega
          · have : i = (s + (e - s) / 2).toNat := by omega
            rw [this]; omega
    · simp only [hw, if_false]
      refine ⟨by omega, by omega, fun i hi => ⟨fun hle => ?_, fun hk => ?_⟩⟩
      · exact le_of_lt (hlo i (by omega))
      · by_contra hgt
        have := hhi i (by omega) hi
        omega

/-- The index `search_max_le` returns splits a strictly increasing barrier list:
the barriers up to it are those with seq_num at most `input_sn`. -/
theorem search_max_le_split (s : HomeLogStore) (input_sn : Int)
    (hs : barriers_increasing s.m_truncation_barriers) :
    -1 ≤ s.search_max_le input_sn ∧
    s.search_max_le input_sn < s.m_truncation_barriers.length ∧
    ∀ i : Nat, i < s.m_truncation_barriers.length →
      ((i : Int) ≤ s.search_max_le input_sn ↔
        (s.m_truncation_barriers.getD i default).seq_num ≤ input_sn) := by
  unfold search_max_le
  exact search_max_le_loop_spec s.m_truncation_barriers input_sn hs _ (-1) _ (le_refl _)
    (by omega) (le_refl _) (by push_cast; omega) (by intro i hi; omega)
    (by intro i hi hin; omega)

/-- C5: on a barrier list strictly increasing in seq_num, `search_max_le` returns the
index of the barrier with the largest seq_num that is at most `input_sn` (that
barrier is at most `input_sn` and no barrier at most `input_sn` has a larger
seq_num), and returns -1 exactly when no barrier has seq_num at most `input_sn`,
the empty list included. -/
theorem search_max_le_spec (s : HomeLogStore) (input_sn : Int)
    (hs : barriers_increasing s.m_truncation_barriers) :
    -1 ≤ s.search_max_le input_sn ∧
    s.search_max_le input_sn < s.m_truncation_barriers.length ∧
    (0 ≤ s.search_max_le input_sn →
      (s.m_truncation_barriers.getD (s.search_max_le input_sn).toNat default).seq_num
        ≤ input_sn ∧
      ∀ b ∈ s.m_truncation_barriers, b.seq_num ≤ input_sn →
        b.seq_num ≤
          (s.m_truncation_barriers.getD (s.search_max_le input_sn).toNat default).seq_num) ∧
    (s.search_max_le input_sn = -1 ↔
      ∀ b ∈ s.m_truncation_barriers, input_sn < b.seq_num) ∧
    (s.m_truncation_barriers = [] → s.search_max_le input_sn = -1) := by
  obtain ⟨h1, h2, h3⟩ := s.search_max_le_split input_sn hs
  have hmem : ∀ b ∈ s.m_truncation_barriers, ∃ i : Nat,
      i < s.m_truncation_barriers.length ∧ s.m_truncation_barriers.getD i default = b := by
    intro b hb
    obtain ⟨i, hi, rfl⟩ := List.getElem_of_mem hb
    exact ⟨i, hi, List.getD_eq_getElem _ _ hi⟩
  refine ⟨h1, h2, ?_, ?_, ?_⟩
  · intro h0
    have hr : (s.search_max_le input_sn).toNat < s.m_truncation_barriers.length := by omega
    refine ⟨(h3 _ hr).mp (by omega), fun b hb hle => ?_⟩
    obtain ⟨i, hi, rfl⟩ := hmem b hb
    have hir := (h3 i hi).mpr hle
    rcases Nat.lt_or_ge i (s.search_max_le input_sn).toNat with h | h
    · exact le_of_lt (barriers_increasing_getD _ hs i _ h hr)
    · have : i = (s.search_max_le input_sn).toNat := by omega
      rw [← this]
  · constructor
    · intro hr b hb
      obtain ⟨i, hi, rfl⟩ := hmem b hb
      by_contra hle
      have := (h3 i hi).mpr (by omega)
      omega
    · intro hall
      by_contra hne
      have hr : (s.search_max_le input_sn).toNat < s.m_truncation_barriers.length := by omega
      have hle := (h3 _ hr).mp (by omega)
      have := hall _ (List.getD_eq_getElem _ default hr ▸ List.getElem_mem hr)
      omega
  · intro hnil
    rw [hnil] at h2
    simp at h2
    omega

/-- C5 witness: barriers at 10, 20, 30 and `input_sn = 25` give index 1. -/
theorem search_max_le_spec_witness :
    barriers_increasing store3.m_truncation_barriers ∧ store3.search_max_le 25 = 1 ∧
    store3.search_max_le 5 = -1 ∧ -1 ≤ store3.search_max_le 25 :=
  ⟨by decide, by decide, by decide, (search_max_le_spec store3 25 (by decide)).1⟩

/-- Dropping a strictly increasing list through index `k` keeps exactly the
barriers above the one at `k`, in order. -/
theorem drop_eq_filter_of_increasing (bs : List TruncationBarrier)
    (hs : barriers_increasing bs) (k : Nat) (hk : k < bs.length) :
    bs.drop (k + 1) =
      bs.filter (fun x => decide ((bs.getD k default).seq_num < x.seq_num)) := by
  unfold barriers_increasing at hs
  induction bs generalizing k with
  | nil => simp at hk
  | cons a t ih =>
    rw [List.pairwise_cons] at hs
    obtain ⟨ha, ht⟩ := hs
    cases k with
    | zero =>
      simp only [List.drop_succ_cons, List.drop_zero, List.getD_cons_zero, zero_add]
      rw [List.filter_cons_of_neg (by simp)]
      symm
      rw [List.filter_eq_self]
      intro x hx
      simpa using ha x hx
    | succ k =>
      have hk2 : k < t.length := by simpa using hk
      simp only [List.drop_succ_cons, List.getD_cons_succ]
      rw [ih ht k hk2]
      have hmem : t.getD k default ∈ t := by
        rw [List.getD_eq_getElem _ _ hk2]; exact List.getElem_mem hk2
      have := ha _ hmem
      rw [List.filter_cons_of_neg (by simp only [decide_eq_true_eq]; omega)]

/-- C6: for a store with strictly increasing barriers and an `upto_seq` that some
barrier does not exceed, `do_truncate(upto_seq)` picks the barrier `b` with the
largest seq_num at most `upto_seq`; afterwards `safe_truncate_ld_key = b.ld_key`,
`last_truncated_seq_num = b.seq_num <= upto_seq`, the records are truncated up to
`b.seq_num` (none at or below it, the others untouched), and the barrier list is
the old one without the barriers of seq_num at most `b.seq_num`, order kept. -/
theorem do_truncate_spec (s : HomeLogStore) (upto_seq : Int)
    (hs : barriers_increasing s.m_truncation_barriers)
    (hex : ∃ b ∈ s.m_truncation_barriers, b.seq_num ≤ upto_seq) :
    ∃ b ∈ s.m_truncation_barriers,
      b.seq_num ≤ upto_seq ∧
      (∀ c ∈ s.m_truncation_barriers, c.seq_num ≤ upto_seq → c.seq_num ≤ b.seq_num) ∧
      (s.do_truncate upto_seq).m_safe_truncate_ld_key = b.ld_key ∧
      (s.do_truncate upto_seq).m_last_truncated_seq_num = b.seq_num ∧
      (s.do_truncate upto_seq).m_last_truncated_seq_num ≤ upto_seq ∧
      (s.do_truncate upto_seq).m_records = s.m_records.truncate b.seq_num ∧
      (∀ i : Int, i ≤ b.seq_num → (s.do_truncate upto_seq).m_records.slots i = none) ∧
      (∀ i : Int, b.seq_num < i →
        (s.do_truncate upto_seq).m_records.slots i = s.m_records.slots i) ∧
      (s.do_truncate upto_seq).m_truncation_barriers =
        s.m_truncation_barriers.filter (fun x => decide (b.seq_num < x.seq_num)) := by
  obtain ⟨h1, h2, h3, h4, _⟩ := s.search_max_le_spec upto_seq hs
  have hind : 0 ≤ s.search_max_le upto_seq := by
    by_contra hneg
    have hm1 : s.search_max_le upto_seq = -1 := by omega
    obtain ⟨b, hb, hle⟩ := hex
    have := h4.mp hm1 b hb
    omega
  have hk : (s.search_max_le upto_seq).toNat < s.m_truncation_barriers.length := by omega
  obtain ⟨hle, hmax⟩ := h3 hind
  refine ⟨s.m_truncation_barriers.getD (s.search_max_le upto_seq).toNat default, ?_, hle,
    hmax, ?_⟩
  · rw [List.getD_eq_getElem _ _ hk]; exact List.getElem_mem hk
  · have hdt : s.do_truncate upto_seq =
        { s with
          m_safe_truncate_ld_key :=
            (s.m_truncation_barriers.getD (s.search_max_le upto_seq).toNat default).ld_key
          m_last_truncated_seq_num :=
            (s.m_truncation_barriers.getD (s.search_max_le upto_seq).toNat default).seq_num
          m_records := s.m_records.truncate
            (s.m_truncation_barriers.getD (s.search_max_le upto_seq).toNat default).seq_num
          m_truncation_barriers :=
            s.m_truncation_barriers.drop ((s.search_max_le upto_seq).toNat + 1) } := by
      unfold do_truncate
      simp only [not_lt.mpr hind, if_false]
    rw [hdt]
    refine ⟨rfl, rfl, hle, rfl, ?_, ?_, ?_⟩
    · intro i hi
      show (if i ≤ _ then none else s.m_records.slots i) = none
      rw [if_pos hi]
    · intro i hi
      show (if i ≤ _ then none else s.m_records.slots i) = s.m_records.slots i
      rw [if_neg (not_le.mpr hi)]
    · exact drop_eq_filter_of_increasing _ hs _ hk

/-- C6 witness: barriers at 10, 20, 30 and `upto_seq = 25`: the barrier at 20 is
picked and only the barrier at 30 stays. -/
theorem do_truncate_spec_witness :
    (store3.do_truncate 25).m_last_truncated_seq_num = 20 ∧
    (store3.do_truncate 25).m_safe_truncate_ld_key = ⟨2, 0⟩ ∧
    (store3.do_truncate 25).m_truncation_barriers = [⟨30, ⟨3, 0⟩⟩] ∧
    ∃ b ∈ store3.m_truncation_barriers, b.seq_num ≤ 25 ∧
      (∀ c ∈ store3.m_truncation_barriers, c.seq_num ≤ 25 → c.seq_num ≤ b.seq_num) ∧
      (store3.do_truncate 25).m_safe_truncate_ld_key = b.ld_key ∧
      (store3.do_truncate 25).m_last_truncated_seq_num = b.seq_num := by
  refine ⟨by decide, by decide, by decide, ?_⟩
  obtain ⟨b, hb, h1, h2, h3, h4, _⟩ :=
    do_truncate_spec store3 25 (by decide) ⟨⟨10, ⟨1, 0⟩⟩, by decide, by decide⟩
  exact ⟨b, hb, h1, h2, h3, h4⟩

/-- A second `do_truncate` with the same argument finds no barrier to truncate at. -/
theorem search_max_le_after_truncate (s : HomeLogStore) (upto_seq : Int)
    (hs : barriers_increasing s.m_truncation_barriers) :
    (s.do_truncate upto_seq).search_max_le upto_seq < 0 := by
  obtain ⟨h1, h2, h3⟩ := s.search_max_le_split upto_seq hs
  by_cases hneg : s.search_max_le upto_seq < 0
  · unfold do_truncate
    simp only [hneg, if_true]
  · have hst : (s.do_truncate upto_seq).m_truncation_barriers =
        s.m_truncation_barriers.drop ((s.search_max_le upto_seq).toNat + 1) := by
      unfold do_truncate
      simp only [hneg, if_false]
    have hs2 : barriers_increasing (s.do_truncate upto_seq).m_truncation_barriers := by
      rw [hst]
      unfold barriers_increasing at *
      exact List.Pairwise.sublist (List.drop_sublist _ _) hs
    have hall : ∀ b ∈ (s.do_truncate upto_seq).m_truncation_barriers,
        upto_seq < b.seq_num := by
      intro b hb
      rw [hst] at hb
      obtain ⟨j, hj, rfl⟩ := List.getElem_of_mem hb
      rw [List.getElem_drop]
      rw [List.length_drop] at hj
      have hidx : (s.search_max_le upto_seq).toNat + 1 + j < s.m_truncation_barriers.length := by
        omega
      have := (h3 _ hidx).not
      rw [List.getD_eq_getElem _ _ hidx] at this
      have h5 := this.mp (by omega)
      omega
    have := ((s.do_truncate upto_seq).search_max_le_spec upto_seq hs2).2.2.2.1.mpr hall
    omega

/-- C7: truncation is idempotent: on a store with strictly increasing barriers a
second `do_truncate(upto_seq)` (and so a second `truncate(upto_seq)`) right after
the first returns the store exactly as the first call left it, in particular
`safe_truncate_ld_key`, `last_truncated_seq_num`, the records and the barriers. -/
theorem do_truncate_idempotent (s : HomeLogStore) (upto_seq : Int)
    (hs : barriers_increasing s.m_truncation_barriers) :
    (s.do_truncate upto_seq).do_truncate upto_seq = s.do_truncate upto_seq ∧
    (s.truncate upto_seq).truncate upto_seq = s.truncate upto_seq := by
  have h := s.search_max_le_after_truncate upto_seq hs
  have key : (s.do_truncate upto_seq).do_truncate upto_seq = s.do_truncate upto_seq := by
    generalize s.do_truncate upto_seq = t at *
    unfold do_truncate
    simp only [h, if_true]
  exact ⟨key, key⟩

/-- C7 witness: truncating the store with barriers 10, 20, 30 up to 25, twice. -/
theorem do_truncate_idempotent_witness :
    barriers_increasing store3.m_truncation_barriers ∧
    (store3.do_truncate 25).do_truncate 25 = store3.do_truncate 25 ∧
    ((store3.do_truncate 25).do_truncate 25).m_truncation_barriers = [⟨30, ⟨3, 0⟩⟩] :=
  ⟨by decide, (do_truncate_idempotent store3 25 (by decide)).1, by decide⟩

theorem create_truncation_barrier_increasing (s : HomeLogStore)
    (hs : barriers_increasing s.m_truncation_barriers) :
    barriers_increasing s.create_truncation_barrier.m_truncation_barriers := by
  unfold barriers_increasing at *
  unfold create_truncation_barrier
  cases hl : s.m_truncation_barriers.getLast? with
  | none =>
    have hnil : s.m_truncation_barriers = [] := List.getLast?_eq_none_iff.mp hl
    simp [hnil]
  | some back =>
    have hsplit : s.m_truncation_barriers = s.m_truncation_barriers.dropLast ++ [back] := by
      obtain ⟨ys, hys⟩ := List.getLast?_eq_some_iff.mp hl
      rw [hys, List.dropLast_concat]
    rw [hsplit, List.pairwise_append] at hs
    obtain ⟨h1, _, h3⟩ := hs
    by_cases hge : back.seq_num ≥ s.m_flush_batch_max.seq_num
    · simp only [hge, if_true]
      rw [List.pairwise_append]
      refine ⟨h1, List.pairwise_singleton _ _, ?_⟩
      intro a ha b hb
      rw [List.mem_singleton] at hb
      rw [hb]
      exact h3 a ha back (List.mem_singleton.mpr rfl)
    · simp only [hge, if_false]
      rw [List.pairwise_append]
      refine ⟨?_, List.pairwise_singleton _ _, ?_⟩
      · rw [hsplit, List.pairwise_append]
        exact ⟨h1, List.pairwise_singleton _ _, h3⟩
      · intro a ha b hb
        rw [List.mem_singleton] at hb
        rw [hb]
        rw [hsplit, List.mem_append] at ha
        rcases ha with ha | ha
        · have := h3 a ha back (List.mem_singleton.mpr rfl)
          omega
        · rw [List.mem_singleton] at ha
          rw [ha]; omega

theorem on_write_completion_increasing (s : HomeLogStore) (seq_num : Int)
    (ld_key flush_ld_key : logdev_key) (nremaining_in_batch : Nat)
    (hs : barriers_increasing s.m_truncation_barriers) :
    barriers_increasing
      (s.on_write_completion seq_num ld_key flush_ld_key nremaining_in_batch).m_truncation_barriers
    := by
  unfold on_write_completion
  simp only []
  split
  · apply create_truncation_barrier_increasing
    split <;> exact hs
  · split <;> exact hs

theorem do_truncate_increasing (s : HomeLogStore) (upto_seq : Int)
    (hs : barriers_increasing s.m_truncation_barriers) :
    barriers_increasing (s.do_truncate upto_seq).m_truncation_barriers := by
  unfold do_truncate
  simp only []
  split
  · exact hs
  · unfold barriers_increasing at *
    exact List.Pairwise.sublist (List.drop_sublist _ _) hs

theorem run_ops_increasing (ops : List StoreOp) :
    ∀ s : HomeLogStore, barriers_increasing s.m_truncation_barriers →
      barriers_increasing (run_ops s ops).m_truncation_barriers := by
  induction ops with
  | nil => intro s hs; exact hs
  | cons op ops ih =>
    intro s hs
    show barriers_increasing (run_ops (StoreOp.apply s op) ops).m_truncation_barriers
    apply ih
    cases op with
    | write_completion seq ld flush nrem =>
      exact on_write_completion_increasing s seq ld flush nrem hs
    | truncate upto => exact do_truncate_increasing s upto hs

/-- C8: in every state reached from a newly constructed store by a sequence of
`on_write_completion` and `do_truncate` calls, the truncation barrier list is
strictly increasing in seq_num (whatever the seq_nums of the completions, those
at least 0 included). -/
theorem barriers_increasing_reachable (id : Nat) (ops : List StoreOp) :
    barriers_increasing (run_ops (HomeLogStore.new id) ops).m_truncation_barriers := by
  apply run_ops_increasing
  unfold barriers_increasing HomeLogStore.new
  exact List.Pairwise.nil

theorem logdev_key_le_refl (a : logdev_key) : a.le a := by
  unfold logdev_key.le; omega

theorem logdev_key_le_trans (a b c : logdev_key) (h1 : a.le b) (h2 : b.le c) : a.le c := by
  unfold logdev_key.le at *; omega

/-- What `create_truncation_barrier` does to the list: a sublist of the old barriers
followed by one barrier that carries the key of `m_flush_batch_max`. -/
theorem create_truncation_barrier_shape (s : HomeLogStore) :
    ∃ (l : List TruncationBarrier) (x : TruncationBarrier),
      l.Sublist s.m_truncation_barriers ∧ x.ld_key = s.m_flush_batch_max.ld_key ∧
      s.create_truncation_barrier.m_truncation_barriers = l ++ [x] ∧
      s.create_truncation_barrier.m_safe_truncate_ld_key = s.m_safe_truncate_ld_key := by
  unfold create_truncation_barrier
  cases hl : s.m_truncation_barriers.getLast? with
  | none =>
    exact ⟨s.m_truncation_barriers, s.m_flush_batch_max, List.Sublist.refl _, rfl, rfl, rfl⟩
  | some back =>
    by_cases hge : back.seq_num ≥ s.m_flush_batch_max.seq_num
    · simp only []
      rw [if_pos hge]
      exact ⟨s.m_truncation_barriers.dropLast,
        { back with ld_key := s.m_flush_batch_max.ld_key },
        List.dropLast_sublist _, rfl, rfl, rfl⟩
    · simp only []
      rw [if_neg hge]
      exact ⟨s.m_truncation_barriers, s.m_flush_batch_max, List.Sublist.refl _, rfl, rfl, rfl⟩

theorem create_truncation_barrier_keys_ordered (s : HomeLogStore) (last : logdev_key)
    (hinv : s.keys_ordered last) (hopen : 0 ≤ s.m_flush_batch_max.seq_num) :
    keys_ordered { s.create_truncation_barrier with m_flush_batch_max := ⟨-1, ⟨-1, 0⟩⟩ } last := by
  obtain ⟨i1, i2, i3, i4⟩ := hinv
  obtain ⟨f1, f2, f3⟩ := i4 hopen
  obtain ⟨l, x, hsub, hx, hlist, hsafe⟩ := s.create_truncation_barrier_shape
  unfold keys_ordered
  simp only [hlist, hsafe]
  refine ⟨i1, ?_, ?_, ?_⟩
  · intro b hb
    rw [List.mem_append, List.mem_singleton] at hb
    rcases hb with hb | hb
    · exact i2 b (hsub.subset hb)
    · rw [hb, hx]; exact ⟨f2, f1⟩
  · rw [List.pairwise_append]
    refine ⟨List.Pairwise.sublist hsub i3, List.pairwise_singleton _ _, ?_⟩
    intro a ha b hb
    rw [List.mem_singleton] at hb
    rw [hb, hx]
    exact f3 a (hsub.subset ha)
  · intro h; omega

theorem on_write_completion_keys_ordered (s : HomeLogStore) (seq_num : Int)
    (ld_key flush_ld_key : logdev_key) (nremaining_in_batch : Nat) (last : logdev_key)
    (hinv : s.keys_ordered last) (hlast : last.le flush_ld_key) (hseq : 0 ≤ seq_num) :
    (s.on_write_completion seq_num ld_key flush_ld_key nremaining_in_batch).keys_ordered
      flush_ld_key := by
  obtain ⟨i1, i2, i3, i4⟩ := hinv
  have hmid : keys_ordered
      (if seq_num > s.m_flush_batch_max.seq_num then
        { s with m_records := s.m_records.update seq_num ld_key,
                 m_flush_batch_max := ⟨seq_num, flush_ld_key⟩ }
       else { s with m_records := s.m_records.update seq_num ld_key }) flush_ld_key ∧
      0 ≤ (if seq_num > s.m_flush_batch_max.seq_num then
        { s with m_records := s.m_records.update seq_num ld_key,
                 m_flush_batch_max := ⟨seq_num, flush_ld_key⟩ }
       else { s with m_records := s.m_records.update seq_num ld_key }).m_flush_batch_max.seq_num
      := by
    have c1 := logdev_key_le_trans _ _ _ i1 hlast
    have c2 : ∀ b ∈ s.m_truncation_barriers,
        s.m_safe_truncate_ld_key.le b.ld_key ∧ b.ld_key.le flush_ld_key :=
      fun b hb => ⟨(i2 b hb).1, logdev_key_le_trans _ _ _ (i2 b hb).2 hlast⟩
    by_cases hgt : seq_num > s.m_flush_batch_max.seq_num
    · rw [if_pos hgt]
      exact ⟨⟨c1, c2, i3, fun _ => ⟨logdev_key_le_refl _, c1, fun b hb => (c2 b hb).2⟩⟩, hseq⟩
    · rw [if_neg hgt]
      have hopen : 0 ≤ s.m_flush_batch_max.seq_num := by omega
      obtain ⟨f1, f2, f3⟩ := i4 hopen
      exact ⟨⟨c1, c2, i3, fun _ => ⟨logdev_key_le_trans _ _ _ f1 hlast, f2, f3⟩⟩, hopen⟩
  unfold on_write_completion
  simp only []
  generalize (if seq_num > s.m_flush_batch_max.seq_num then
        { s with m_records := s.m_records.update seq_num ld_key,
                 m_flush_batch_max := ⟨seq_num, flush_ld_key⟩ }
       else { s with m_records := s.m_records.update seq_num ld_key }) = t at *
  split
  · exact create_truncation_barrier_keys_ordered t flush_ld_key hmid.1 hmid.2
  · exact hmid.1

/-- With the keys in order, `do_truncate` does not lower the safe key and keeps the
keys in order. -/
theorem do_truncate_keys_ordered (s : HomeLogStore) (upto_seq : Int) (last : logdev_key)
    (hinv : s.keys_ordered last) (hs : barriers_increasing s.m_truncation_barriers) :
    s.m_safe_truncate_ld_key.le (s.do_truncate upto_seq).m_safe_truncate_ld_key ∧
    (s.do_truncate upto_seq).keys_ordered last := by
  obtain ⟨h1, h2, _⟩ := s.search_max_le_split upto_seq hs
  by_cases hneg : s.search_max_le upto_seq < 0
  · have hdt : s.do_truncate upto_seq = s := by
      unfold do_truncate
      simp only [hneg, if_true]
    rw [hdt]
    exact ⟨logdev_key_le_refl _, hinv⟩
  · have hk : (s.search_max_le upto_seq).toNat < s.m_truncation_barriers.length := by omega
    have hdt : s.do_truncate upto_seq =
        { s with
          m_safe_truncate_ld_key :=
            (s.m_truncation_barriers.getD (s.search_max_le upto_seq).toNat default).ld_key
          m_last_truncated_seq_num :=
            (s.m_truncation_barriers.getD (s.search_max_le upto_seq).toNat default).seq_num
          m_records := s.m_records.truncate
            (s.m_truncation_barriers.getD (s.search_max_le upto_seq).toNat default).seq_num
          m_truncation_barriers :=
            s.m_truncation_barriers.drop ((s.search_max_le upto_seq).toNat + 1) } := by
      unfold do_truncate
      simp only [hneg, if_false]
    rw [hdt]
    obtain ⟨i1, i2, i3, i4⟩ := hinv
    rw [List.getD_eq_getElem _ _ hk]
    have hmem : s.m_truncation_barriers[(s.search_max_le upto_seq).toNat] ∈
        s.m_truncation_barriers := List.getElem_mem hk
    have hafter : ∀ b ∈ s.m_truncation_barriers.drop ((s.search_max_le upto_seq).toNat + 1),
        (s.m_truncation_barriers[(s.search_max_le upto_seq).toNat]).ld_key.le b.ld_key := by
      intro b hb
      obtain ⟨j, hj, rfl⟩ := List.getElem_of_mem hb
      rw [List.getElem_drop]
      rw [List.length_drop] at hj
      exact List.pairwise_iff_getElem.mp i3 _ _ hk (by omega) (by omega)
    refine ⟨(i2 _ hmem).1, (i2 _ hmem).2, ?_, ?_, ?_⟩
    · intro b hb
      exact ⟨hafter b hb, (i2 b (List.mem_of_mem_drop hb)).2⟩
    · exact List.Pairwise.sublist (List.drop_sublist _ _) i3
    · intro hopen
      obtain ⟨f1, _, f3⟩ := i4 hopen
      exact ⟨f1, f3 _ hmem, fun b hb => f3 b (List.mem_of_mem_drop hb)⟩

theorem run_ops_keys_ordered (ops : List StoreOp) :
    ∀ (s : HomeLogStore) (last : logdev_key), s.keys_ordered last →
      barriers_increasing s.m_truncation_barriers → seq_nums_nonneg ops →
      (last :: flush_keys ops).Pairwise logdev_key.le →
      ∃ last2 : logdev_key, (run_ops s ops).keys_ordered last2 := by
  induction ops with
  | nil => intro s last hinv _ _ _; exact ⟨last, hinv⟩
  | cons op ops ih =>
    intro s last hinv hs hseq hfl
    have hseq2 : seq_nums_nonneg ops := fun o ho => hseq o (List.mem_cons_of_mem _ ho)
    show ∃ last2 : logdev_key, (run_ops (StoreOp.apply s op) ops).keys_ordered last2
    cases op with
    | write_completion seq ld flush nrem =>
      have h0 : 0 ≤ seq := hseq _ (List.mem_cons_self _ _)
      rw [flush_keys, List.pairwise_cons] at hfl
      exact ih _ flush
        (on_write_completion_keys_ordered s seq ld flush nrem last hinv
          (hfl.1 flush (List.mem_cons_self _ _)) h0)
        (on_write_completion_increasing s seq ld flush nrem hs) hseq2 hfl.2
    | truncate upto =>
      rw [flush_keys] at hfl
      exact ih _ last (do_truncate_keys_ordered s upto last hinv hs).2
        (do_truncate_increasing s upto hs) hseq2 hfl

/-- C9, as stated, fails: two flush batches whose flush keys go down, {5,0} for
seq_num 0 and {3,0} for seq_num 1, then `do_truncate(0)` and `do_truncate(1)`: the
second truncation lowers `safe_truncate_ld_key` from {5,0} to {3,0}. -/
theorem safe_truncate_ld_key_monotone_counterexample :
    seq_nums_nonneg ops_flush_down ∧
    (run_ops (HomeLogStore.new 1) ops_flush_down).m_safe_truncate_ld_key = ⟨5, 0⟩ ∧
    ((run_ops (HomeLogStore.new 1) ops_flush_down).do_truncate 1).m_safe_truncate_ld_key
      = ⟨3, 0⟩ ∧
    ¬ (run_ops (HomeLogStore.new 1) ops_flush_down).m_safe_truncate_ld_key.le
      ((run_ops (HomeLogStore.new 1) ops_flush_down).do_truncate 1).m_safe_truncate_ld_key := by
  refine ⟨by decide, by decide, by decide, by decide⟩

/-- C9 (amended): when the flush keys that the log device delivers do not decrease
in call order (starting from the initial safe key {-1, 0}) and every completed
request has seq_num at least 0, then after any sequence of `on_write_completion`
and `do_truncate` calls on a new store a further `do_truncate` leaves
`safe_truncate_ld_key` at least (by idx, then dev_offset) what it was. -/
theorem safe_truncate_ld_key_monotone (id : Nat) (ops : List StoreOp) (upto_seq : Int)
    (hseq : seq_nums_nonneg ops) (hfl : flush_keys_ordered ops) :
    (run_ops (HomeLogStore.new id) ops).m_safe_truncate_ld_key.le
      ((run_ops (HomeLogStore.new id) ops).do_truncate upto_seq).m_safe_truncate_ld_key := by
  have hnew : (HomeLogStore.new id).keys_ordered ⟨-1, 0⟩ := by
    unfold keys_ordered HomeLogStore.new
    refine ⟨logdev_key_le_refl _, ?_, List.Pairwise.nil, ?_⟩
    · intro b hb; simp at hb
    · intro h; simp at h
  have hinc : barriers_increasing (HomeLogStore.new id).m_truncation_barriers := by
    unfold barriers_increasing HomeLogStore.new
    exact List.Pairwise.nil
  obtain ⟨last2, hinv⟩ := run_ops_keys_ordered ops _ _ hnew hinc hseq hfl
  exact (do_truncate_keys_ordered _ upto_seq last2 hinv (run_ops_increasing ops _ hinc)).1

/-- C9 witness: the flush keys {3,0} then {5,0}; the truncations go from {-1,0} to
{3,0} and then to {5,0}. -/
theorem safe_truncate_ld_key_monotone_witness :
    seq_nums_nonneg ops_flush_up ∧ flush_keys_ordered ops_flush_up ∧
    (run_ops (HomeLogStore.new 1) ops_flush_up).m_safe_truncate_ld_key = ⟨3, 0⟩ ∧
    ((run_ops (HomeLogStore.new 1) ops_flush_up).do_truncate 1).m_safe_truncate_ld_key
      = ⟨5, 0⟩ ∧
    (run_ops (HomeLogStore.new 1) ops_flush_up).m_safe_truncate_ld_key.le
      ((run_ops (HomeLogStore.new 1) ops_flush_up).do_truncate 1).m_safe_truncate_ld_key :=
  ⟨by decide, by decide, by decide, by decide,
    safe_truncate_ld_key_monotone 1 ops_flush_up 1 (by decide) (by decide)⟩

/-- A value within the signed 64-bit range is left as it is. -/
theorem wrap_i64_of_range (x : Int) (h1 : -9223372036854775808 ≤ x)
    (h2 : x < 9223372036854775808) : wrap_i64 x = x := by
  unfold wrap_i64
  omega

/-- A wrapped value lies in the signed 64-bit range. -/
theorem wrap_i64_range (x : Int) :
    -9223372036854775808 ≤ wrap_i64 x ∧ wrap_i64 x < 9223372036854775808 := by
  unfold wrap_i64
  omega

/-- After `n` calls of `append_async`, `n` at most 2^63, a new store has the
records `0 .. n-1` reserved, `m_seq_num = n` as a 64-bit value, and no barrier. -/
theorem append_async_iterate (id n : Nat) (h63 : (n : Int) ≤ 9223372036854775808) :
    (append_async^[n] (HomeLogStore.new id)).m_truncation_barriers = [] ∧
    (append_async^[n] (HomeLogStore.new id)).m_flush_batch_max = ⟨-1, ⟨-1, 0⟩⟩ ∧
    (append_async^[n] (HomeLogStore.new id)).m_last_truncated_seq_num = -1 ∧
    (append_async^[n] (HomeLogStore.new id)).m_seq_num = wrap_i64 n ∧
    ∀ i : Int, (append_async^[n] (HomeLogStore.new id)).m_records.slots i =
      if 0 ≤ i ∧ i < n then some logstore_record.reserved else none := by
  induction n with
  | zero =>
    refine ⟨rfl, rfl, rfl, rfl, fun i => ?_⟩
    have : ¬ (0 ≤ i ∧ i < ((0 : Nat) : Int)) := by omega
    rw [if_neg this]
    rfl
  | succ n ih =>
    rw [Function.iterate_succ_apply']
    obtain ⟨h1, h2, h3, h4, h5⟩ := ih (by omega)
    rw [wrap_i64_of_range _ (by omega) (by omega)] at h4
    generalize append_async^[n] (HomeLogStore.new id) = t at *
    refine ⟨h1, h2, h3, ?_, fun i => ?_⟩
    · show wrap_i64 (t.m_seq_num + 1) = wrap_i64 ((n + 1 : Nat) : Int)
      rw [h4]; push_cast; rfl
    · show (if i = t.m_seq_num then some logstore_record.reserved else t.m_records.slots i) = _
      rw [h4, h5]
      by_cases hi : i = n
      · rw [if_pos hi, if_pos (by omega)]
      · rw [if_neg hi]
        by_cases hr : 0 ≤ i ∧ i < n
        · rw [if_pos hr, if_pos (by omega)]
        · rw [if_neg hr, if_neg (by omega)]

/-- One completion of the single batch: from `k` completions in to `k + 1`. -/
theorem batch_progress_step (t : HomeLogStore) (n k : Nat) (ld : Nat → logdev_key)
    (flush : logdev_key) (hk : k < n) (hp : batch_progress t n k ld flush) :
    batch_progress (t.on_write_completion (Int.ofNat k) (ld k) flush (n - 1 - k)) n (k + 1)
      ld flush := by
  obtain ⟨p1, p2, p3, p4⟩ := hp
  have hbar : t.m_truncation_barriers = [] := by
    rw [p1, if_neg (by omega)]
  have hgt : Int.ofNat k > t.m_flush_batch_max.seq_num := by
    rw [p2]
    split
    · show ((k : Int) - 1) < (k : Int); omega
    · show (-1 : Int) < (k : Int); omega
  have hrec : ∀ i : Int, (t.m_records.update (Int.ofNat k) (ld k)).slots i =
      if 0 ≤ i ∧ i < ((k + 1 : Nat) : Int) then some (logstore_record.completed (ld i.toNat))
      else if 0 ≤ i ∧ i < n then some logstore_record.reserved else none := by
    intro i
    show (if i = Int.ofNat k then (t.m_records.slots i).map _ else t.m_records.slots i) = _
    rw [p4]
    by_cases hi : i = Int.ofNat k
    · have hi2 : i = (k : Int) := hi
      rw [if_pos hi, if_neg (show ¬ (0 ≤ i ∧ i < (k : Int)) by omega),
        if_pos (show 0 ≤ i ∧ i < (n : Int) by omega),
        if_pos (show 0 ≤ i ∧ i < ((k + 1 : Nat) : Int) by omega)]
      subst hi
      rfl
    · have hi2 : ¬ i = (k : Int) := hi
      rw [if_neg hi]
      by_cases hr : 0 ≤ i ∧ i < (k : Int)
      · rw [if_pos hr, if_pos (show 0 ≤ i ∧ i < ((k + 1 : Nat) : Int) by omega)]
      · rw [if_neg hr, if_neg (show ¬ (0 ≤ i ∧ i < ((k + 1 : Nat) : Int)) by omega)]
  unfold on_write_completion
  simp only [hgt, if_true]
  by_cases hlast : n - 1 - k = 0
  · have hkn : k + 1 = n := by omega
    rw [if_pos hlast]
    unfold create_truncation_barrier
    simp only [hbar, List.getLast?_nil, List.nil_append]
    refine ⟨?_, ?_, p3, hrec⟩
    · rw [if_pos ⟨hkn, by omega⟩]
      have : (Int.ofNat k) = (n : Int) - 1 := by
        show (k : Int) = (n : Int) - 1
        omega
      rw [this]
    · rw [if_neg (by omega)]
  · rw [if_neg hlast]
    refine ⟨?_, ?_, p3, hrec⟩
    · show t.m_truncation_barriers = _
      rw [hbar, if_neg (by omega)]
    · show (⟨Int.ofNat k, flush⟩ : TruncationBarrier) = _
      rw [if_pos (by omega)]
      have : (Int.ofNat k) = ((k + 1 : Nat) : Int) - 1 := by
        show (k : Int) = ((k + 1 : Nat) : Int) - 1
        omega
      rw [this]

/-- The first `k` completions of the batch bring the appended store to
`batch_progress n k`. -/
theorem batch_progress_prefix (id n : Nat) (ld : Nat → logdev_key) (flush : logdev_key)
    (h63 : (n : Int) ≤ 9223372036854775808) :
    ∀ k : Nat, k ≤ n →
      batch_progress
        (run_ops (append_async^[n] (HomeLogStore.new id))
          ((List.range k).map
            (fun (i : Nat) => StoreOp.write_completion (Int.ofNat i) (ld i) flush (n - 1 - i))))
        n k ld flush := by
  intro k
  induction k with
  | zero =>
    intro _
    obtain ⟨h1, h2, h3, _, h5⟩ := append_async_iterate id n h63
    refine ⟨?_, ?_, h3, fun i => ?_⟩
    · show (append_async^[n] (HomeLogStore.new id)).m_truncation_barriers = _
      rw [h1, if_neg (by omega)]
    · show (append_async^[n] (HomeLogStore.new id)).m_flush_batch_max = _
      rw [h2, if_neg (by omega)]
    · show (append_async^[n] (HomeLogStore.new id)).m_records.slots i = _
      rw [h5, if_neg (show ¬ (0 ≤ i ∧ i < ((0 : Nat) : Int)) by omega)]
  | succ k ih =>
    intro hk
    have hp := ih (by omega)
    rw [List.range_succ, List.map_append, run_ops, List.foldl_append]
    exact batch_progress_step _ n k ld flush (by omega) hp

/-- A store whose `n >= 1` records completed in a single flush batch holds the one
barrier `(n - 1, flush)`, has truncated nothing, and holds the records `0 .. n-1`
completed; `n` is at most 2^63, the number of non-negative 64-bit seq_nums. -/
theorem single_batch_store_state (id n : Nat) (ld : Nat → logdev_key) (flush : logdev_key)
    (hn : 0 < n) (h63 : (n : Int) ≤ 9223372036854775808) :
    (single_batch_store id n ld flush).m_truncation_barriers = [⟨(n : Int) - 1, flush⟩] ∧
    (single_batch_store id n ld flush).m_last_truncated_seq_num = -1 ∧
    ∀ i : Nat, i < n → (single_batch_store id n ld flush).m_records.slots i =
      some (logstore_record.completed (ld i)) := by
  obtain ⟨p1, _, p3, p4⟩ := batch_progress_prefix id n ld flush h63 n (le_refl _)
  unfold single_batch_store batch_ops
  refine ⟨?_, p3, fun i hi => ?_⟩
  · rw [p1, if_pos ⟨rfl, hn⟩]
  · rw [p4, if_pos (by omega)]
    simp

/-- On a single-batch store a truncation below the batch maximum finds no barrier
to truncate at and leaves the store as it is. -/
theorem single_batch_truncate_noop (id n : Nat) (ld : Nat → logdev_key) (flush : logdev_key)
    (upto_seq : Int) (hup : upto_seq < (n : Int) - 1) (hn : 0 < n)
    (h63 : (n : Int) ≤ 9223372036854775808) :
    (single_batch_store id n ld flush).do_truncate upto_seq =
      single_batch_store id n ld flush := by
  obtain ⟨hb, _, _⟩ := single_batch_store_state id n ld flush hn h63
  have hs : barriers_increasing (single_batch_store id n ld flush).m_truncation_barriers := by
    rw [hb]; unfold barriers_increasing; exact List.pairwise_singleton _ _
  have hm1 : (single_batch_store id n ld flush).search_max_le upto_seq = -1 := by
    apply ((single_batch_store id n ld flush).search_max_le_spec upto_seq hs).2.2.2.1.mpr
    intro b hbm
    rw [hb, List.mem_singleton] at hbm
    rw [hbm]
    exact hup
  unfold do_truncate
  simp only [hm1]
  rfl

theorem truncate_eq_do_truncate (s : HomeLogStore) (upto_seq : Int) :
    s.truncate upto_seq = s.do_truncate upto_seq := rfl

/-- C10, as stated, fails: after a single flush batch the only barrier sits at
seq_num `n - 1`, so `truncate(upto_seq)` with `upto_seq < n - 1` truncates
nothing.  With n = 3 and upto_seq = 1, `last_truncated_seq_num` is -1 (not 1) and
record 0 is still there, completed; with n = 1000 and upto_seq = 499,
`last_truncated_seq_num` is not 499 and record 0 is still there. -/
theorem truncate_single_batch_counterexample :
    ((single_batch_store 1 3 (fun i => ⟨i, 0⟩) ⟨0, 192⟩).truncate 1).m_last_truncated_seq_num
      = -1 ∧
    ((single_batch_store 1 3 (fun i => ⟨i, 0⟩) ⟨0, 192⟩).truncate 1).m_records.slots 0
      = some (logstore_record.completed ⟨0, 0⟩) ∧
    ((single_batch_store 1 1000 (fun i => ⟨i, 0⟩) ⟨0, 64000⟩).truncate 499).m_last_truncated_seq_num
      ≠ 499 ∧
    ((single_batch_store 1 1000 (fun i => ⟨i, 0⟩) ⟨0, 64000⟩).truncate 499).m_records.slots 0
      ≠ none := by
  refine ⟨by decide, by decide, ?_, ?_⟩
  · rw [truncate_eq_do_truncate,
      single_batch_truncate_noop 1 1000 _ _ 499 (by decide) (by decide) (by decide),
      (single_batch_store_state 1 1000 _ _ (by decide) (by decide)).2.1]
    decide
  · rw [truncate_eq_do_truncate,
      single_batch_truncate_noop 1 1000 _ _ 499 (by decide) (by decide) (by decide)]
    have h := (single_batch_store_state 1 1000 (fun i => ⟨i, 0⟩) ⟨0, 64000⟩ (by decide)
      (by decide)).2.2 0 (by decide)
    rw [show ((0 : Nat) : Int) = 0 from rfl] at h
    rw [h]
    exact Option.some_ne_none _

/-- C10 (amended): for a store whose `n` appended records (seq 0 .. n-1) all
completed in a single flush batch and every `upto_seq` with
`0 <= upto_seq < n - 1`, `truncate(upto_seq)` finds no barrier at or below
`upto_seq` (the only barrier is at `n - 1`) and changes nothing:
`last_truncated_seq_num` stays -1 and the records 0 .. n-1 are all still present
and completed.  The seq_nums 0 .. n-1 are 64-bit seq_nums, so `n` is at most
2^63. -/
theorem truncate_single_batch (id n : Nat) (ld : Nat → logdev_key) (flush : logdev_key)
    (upto_seq : Int) (h0 : 0 ≤ upto_seq) (h1 : upto_seq < (n : Int) - 1)
    (h63 : (n : Int) ≤ 9223372036854775808) :
    (single_batch_store id n ld flush).truncate upto_seq = single_batch_store id n ld flush ∧
    ((single_batch_store id n ld flush).truncate upto_seq).m_last_truncated_seq_num = -1 ∧
    ((single_batch_store id n ld flush).truncate upto_seq).m_truncation_barriers
      = [⟨(n : Int) - 1, flush⟩] ∧
    ∀ i : Nat, i < n →
      ((single_batch_store id n ld flush).truncate upto_seq).m_records.slots i =
        some (logstore_record.completed (ld i)) := by
  have hn : 0 < n := by omega
  have hnoop := single_batch_truncate_noop id n ld flush upto_seq h1 hn h63
  obtain ⟨s1, s2, s3⟩ := single_batch_store_state id n ld flush hn h63
  rw [truncate_eq_do_truncate, hnoop]
  exact ⟨rfl, s2, s1, s3⟩

/-- C10 witness: n = 1000 and upto_seq = 499; and, on three records, a truncation
up to the batch maximum 2 does truncate. -/
theorem truncate_single_batch_witness :
    ((single_batch_store 1 1000 (fun i => ⟨i, 0⟩) ⟨0, 64000⟩).truncate 499).m_last_truncated_seq_num
      = -1 ∧
    ((single_batch_store 1 3 (fun i => ⟨i, 0⟩) ⟨0, 192⟩).truncate 2).m_last_truncated_seq_num
      = 2 :=
  ⟨(truncate_single_batch 1 1000 (fun i => ⟨i, 0⟩) ⟨0, 64000⟩ 499 (by decide) (by decide)
      (by decide)).2.1,
    by decide⟩

/-- No record at or below `last_truncated_seq_num`. -/
theorem no_record_new (id : Nat) :
    ∀ i : Int, i ≤ (HomeLogStore.new id).m_last_truncated_seq_num →
      (HomeLogStore.new id).m_records.slots i = none := by
  intro i _
  rfl

/-- Each call keeps the store free of records at or below
`last_truncated_seq_num`, a reserving call provided it reserves above it. -/
theorem no_record_step (s : HomeLogStore) (c : StoreCall) (hc : c.above_truncated s)
    (hinv : ∀ i : Int, i ≤ s.m_last_truncated_seq_num → s.m_records.slots i = none) :
    ∀ i : Int, i ≤ (c.apply s).m_last_truncated_seq_num →
      (c.apply s).m_records.slots i = none := by
  intro i hi
  cases c with
  | write_async seq =>
    have hlt : s.m_last_truncated_seq_num < seq := hc
    have hi2 : i ≤ s.m_last_truncated_seq_num := hi
    show (if i = seq then some logstore_record.reserved else s.m_records.slots i) = none
    rw [if_neg (by omega)]
    exact hinv i hi2
  | append_async =>
    have hlt : s.m_last_truncated_seq_num < s.m_seq_num := hc
    have hi2 : i ≤ s.m_last_truncated_seq_num := hi
    show (if i = s.m_seq_num then some logstore_record.reserved else s.m_records.slots i) = none
    rw [if_neg (by omega)]
    exact hinv i hi2
  | write_completion seq ld flush nrem =>
    have hlast : (s.on_write_completion seq ld flush nrem).m_last_truncated_seq_num =
        s.m_last_truncated_seq_num := by
      unfold on_write_completion create_truncation_barrier
      simp only []
      split_ifs <;> (try split) <;> (try split_ifs) <;> rfl
    have hrec : (s.on_write_completion seq ld flush nrem).m_records =
        s.m_records.update seq ld := by
      unfold on_write_completion create_truncation_barrier
      simp only []
      split_ifs <;> (try split) <;> (try split_ifs) <;> rfl
    have hi2 : i ≤ s.m_last_truncated_seq_num := by
      have h : i ≤ (s.on_write_completion seq ld flush nrem).m_last_truncated_seq_num := hi
      rw [hlast] at h
      exact h
    show (s.on_write_completion seq ld flush nrem).m_records.slots i = none
    rw [hrec]
    show (if i = seq then (s.m_records.slots i).map _ else s.m_records.slots i) = none
    rw [hinv i hi2]
    split <;> rfl
  | log_found seq ld =>
    have hseq : -9223372036854775808 < seq := hc
    have hw : wrap_i64 (seq - 1) ≤ seq - 1 := by
      unfold wrap_i64
      omega
    have hi2 : i ≤ atomic_update_min s.m_last_truncated_seq_num (wrap_i64 (seq - 1)) := hi
    unfold atomic_update_min at hi2
    have h3 : i ≤ s.m_last_truncated_seq_num ∧ i ≤ seq - 1 := by
      split at hi2 <;> omega
    show (if i = seq then some (logstore_record.completed ld) else s.m_records.slots i) = none
    rw [if_neg (by omega)]
    exact hinv i h3.1
  | truncate upto =>
    show (s.do_truncate upto).m_records.slots i = none
    have hi2 : i ≤ (s.do_truncate upto).m_last_truncated_seq_num := hi
    unfold do_truncate at hi2 ⊢
    simp only [] at hi2 ⊢
    split
    · rename_i hneg
      rw [if_pos hneg] at hi2
      exact hinv i hi2
    · rename_i hneg
      rw [if_neg hneg] at hi2
      show (if i ≤ _ then none else s.m_records.slots i) = none
      rw [if_pos hi2]

/-- C11, as stated, fails: `write_async` takes any seq_num.  After
`write_async(0)`, its completion closing the batch and `do_truncate(0)`, a second
`write_async(0)` reserves a record at seq_num 0 = `last_truncated_seq_num`; and
after a truncation at the externally numbered seq_num 5, `append_async` reserves
seq_num 0, below `last_truncated_seq_num` = 5. -/
theorem no_record_below_truncated_counterexample :
    (run_calls (HomeLogStore.new 1) calls_rewrite_truncated).m_last_truncated_seq_num = 0 ∧
    (run_calls (HomeLogStore.new 1) calls_rewrite_truncated).m_records.slots 0
      = some logstore_record.reserved ∧
    (run_calls (HomeLogStore.new 1) calls_append_below).m_last_truncated_seq_num = 5 ∧
    (run_calls (HomeLogStore.new 1) calls_append_below).m_records.slots 0
      = some logstore_record.reserved := by
  refine ⟨by decide, by decide, by decide, by decide⟩

/-- C11 (amended): in every state reached from a new store by `write_async`,
`append_async`, `on_write_completion`, `on_log_found` and `do_truncate` calls in
which every `write_async` / `append_async` reserves a seq_num above the
`last_truncated_seq_num` of that moment (and every recovered seq_num is above the
smallest 64-bit value, so that `seq_num - 1` in `on_log_found` does not wrap), no
record exists at any seq_num at or below `last_truncated_seq_num`. -/
theorem no_record_below_truncated (id : Nat) (calls : List StoreCall)
    (hg : calls_above_truncated (HomeLogStore.new id) calls) (i : Int)
    (hi : i ≤ (run_calls (HomeLogStore.new id) calls).m_last_truncated_seq_num) :
    (run_calls (HomeLogStore.new id) calls).m_records.slots i = none := by
  have key : ∀ (cs : List StoreCall) (s : HomeLogStore), calls_above_truncated s cs →
      (∀ j : Int, j ≤ s.m_last_truncated_seq_num → s.m_records.slots j = none) →
      ∀ j : Int, j ≤ (run_calls s cs).m_last_truncated_seq_num →
        (run_calls s cs).m_records.slots j = none := by
    intro cs
    induction cs with
    | nil => intro s _ hinv; exact hinv
    | cons c cs ih =>
      intro s hgs hinv
      obtain ⟨hc, hcs⟩ := hgs
      show ∀ j : Int, j ≤ (run_calls (c.apply s) cs).m_last_truncated_seq_num →
          (run_calls (c.apply s) cs).m_records.slots j = none
      exact ih _ hcs (no_record_step s c hc hinv)
  exact key calls _ hg (no_record_new id) i hi

/-- C11 witness: three appends, their batch, a truncation at 2, then an append, a
recovered record and another append; seq_num 1 is at or below
`last_truncated_seq_num` = 2 and holds no record. -/
theorem no_record_below_truncated_witness :
    calls_above_truncated (HomeLogStore.new 1) calls_append_truncate ∧
    (run_calls (HomeLogStore.new 1) calls_append_truncate).m_last_truncated_seq_num = 2 ∧
    (run_calls (HomeLogStore.new 1) calls_append_truncate).m_records.slots 1 = none :=
  ⟨by decide, by decide,
    no_record_below_truncated 1 calls_append_truncate (by decide) 1 (by decide)⟩

theorem atomic_update_max_eq (v x : Int) : atomic_update_max v x = max v x := by
  unfold atomic_update_max
  split
  · rw [max_eq_right (by omega)]
  · rw [max_eq_left (by omega)]

theorem atomic_update_min_eq (v x : Int) : atomic_update_min v x = min v x := by
  unfold atomic_update_min
  split
  · rw [min_eq_right (by omega)]
  · rw [min_eq_left (by omega)]

/-- The two counters after `on_log_found`, as maximum and minimum. -/
theorem on_log_found_counters (s : HomeLogStore) (seq : Int) (ld_key : logdev_key) :
    (s.on_log_found seq ld_key).m_seq_num = max s.m_seq_num (wrap_i64 (seq + 1)) ∧
    (s.on_log_found seq ld_key).m_last_truncated_seq_num
      = min s.m_last_truncated_seq_num (wrap_i64 (seq - 1)) :=
  ⟨atomic_update_max_eq _ _, atomic_update_min_eq _ _⟩

/-- C13, as stated, fails at the two ends of the 64-bit range of seq_nums: on a new
store (next_seq_num 0, last_truncated_seq_num -1) `on_log_found` of the largest
seq_num 2^63 - 1 leaves next_seq_num at 0, not at `max(0, seq + 1)` = 2^63, and
`on_log_found` of the smallest seq_num -2^63 leaves last_truncated_seq_num at -1,
not at `min(-1, seq - 1)`. -/
theorem on_log_found_wrap_counterexample :
    ((HomeLogStore.new 1).on_log_found 9223372036854775807 ⟨1, 0⟩).m_seq_num = 0 ∧
    max (HomeLogStore.new 1).m_seq_num (9223372036854775807 + 1) = 9223372036854775808 ∧
    ((HomeLogStore.new 1).on_log_found (-9223372036854775808) ⟨1, 0⟩).m_last_truncated_seq_num
      = -1 ∧
    min (HomeLogStore.new 1).m_last_truncated_seq_num (-9223372036854775808 - 1)
      = -9223372036854775809 := by
  refine ⟨by decide, by decide, by decide, by decide⟩

/-- C13 (amended): for every store state and every recovered `(seq, ld_key)`,
`on_log_found` leaves a completed record at `seq` that maps to `ld_key` (the
other records as they were) and leaves the barrier list, `safe_truncate_ld_key`
and the flush batch scratch unchanged.  It sets next_seq_num to
`max(previous next_seq_num, seq + 1)` for every 64-bit `seq` below the largest
one, and last_truncated_seq_num to `min(previous last_truncated_seq_num, seq - 1)`
for every 64-bit `seq` above the smallest one; at the largest seq_num `seq + 1`
wraps to -2^63 and at the smallest `seq - 1` wraps to 2^63 - 1. -/
theorem on_log_found_spec (s : HomeLogStore) (seq : Int) (ld_key : logdev_key) :
    (s.on_log_found seq ld_key).m_records.slots seq
      = some (logstore_record.completed ld_key) ∧
    (∀ i : Int, i ≠ seq → (s.on_log_found seq ld_key).m_records.slots i = s.m_records.slots i) ∧
    (-9223372036854775808 ≤ seq → seq < 9223372036854775807 →
      (s.on_log_found seq ld_key).m_seq_num = max s.m_seq_num (seq + 1)) ∧
    (-9223372036854775808 < seq → seq ≤ 9223372036854775807 →
      (s.on_log_found seq ld_key).m_last_truncated_seq_num
        = min s.m_last_truncated_seq_num (seq - 1)) ∧
    (seq = 9223372036854775807 →
      (s.on_log_found seq ld_key).m_seq_num = max s.m_seq_num (-9223372036854775808)) ∧
    (seq = -9223372036854775808 →
      (s.on_log_found seq ld_key).m_last_truncated_seq_num
        = min s.m_last_truncated_seq_num 9223372036854775807) ∧
    (s.on_log_found seq ld_key).m_truncation_barriers = s.m_truncation_barriers ∧
    (s.on_log_found seq ld_key).m_safe_truncate_ld_key = s.m_safe_truncate_ld_key ∧
    (s.on_log_found seq ld_key).m_flush_batch_max = s.m_flush_batch_max := by
  obtain ⟨hmax, hmin⟩ := on_log_found_counters s seq ld_key
  refine ⟨?_, ?_, ?_, ?_, ?_, ?_, rfl, rfl, rfl⟩
  · show (if seq = seq then some (logstore_record.completed ld_key) else s.m_records.slots seq)
      = _
    rw [if_pos rfl]
  · intro i hi
    show (if i = seq then some (logstore_record.completed ld_key) else s.m_records.slots i) = _
    rw [if_neg hi]
  · intro h1 h2
    rw [hmax, wrap_i64_of_range _ (by omega) (by omega)]
  · intro h1 h2
    rw [hmin, wrap_i64_of_range _ (by omega) (by omega)]
  · intro h
    have hw : wrap_i64 (seq + 1) = -9223372036854775808 := by
      unfold wrap_i64
      omega
    rw [hmax, hw]
  · intro h
    have hw : wrap_i64 (seq - 1) = 9223372036854775807 := by
      unfold wrap_i64
      omega
    rw [hmin, hw]

/-- C13 witness: seq_num 40 recovered on the store with next_seq_num 31. -/
theorem on_log_found_spec_witness :
    (store3.on_log_found 40 ⟨4, 0⟩).m_seq_num = 41 ∧
    (store3.on_log_found 40 ⟨4, 0⟩).m_last_truncated_seq_num = -1 ∧
    (store3.on_log_found 40 ⟨4, 0⟩).m_seq_num = max store3.m_seq_num (40 + 1) :=
  ⟨by decide, by decide,
    (on_log_found_spec store3 40 ⟨4, 0⟩).2.2.1 (by decide) (by decide)⟩

end HomeLogStore

namespace HomeLogStoreMgr

/-- The loop of `device_truncate` from any starting key: the result is the
starting key or the key of a store, its idx is at most the idx of the starting
key and of every store, and a store whose idx is below the starting idx makes
the result a store key. -/
theorem device_truncate_loop (stores : List HomeLogStore) :
    ∀ init : logdev_key,
      (stores.foldl
        (fun min_safe_ld_key store =>
          if store.get_safe_truncation_log_dev_key.idx < min_safe_ld_key.idx then
            store.get_safe_truncation_log_dev_key
          else min_safe_ld_key) init).idx ≤ init.idx ∧
      (∀ st ∈ stores,
        (stores.foldl
          (fun min_safe_ld_key store =>
            if store.get_safe_truncation_log_dev_key.idx < min_safe_ld_key.idx then
              store.get_safe_truncation_log_dev_key
            else min_safe_ld_key) init).idx ≤ st.get_safe_truncation_log_dev_key.idx) ∧
      ((stores.foldl
          (fun min_safe_ld_key store =>
            if store.get_safe_truncation_log_dev_key.idx < min_safe_ld_key.idx then
              store.get_safe_truncation_log_dev_key
            else min_safe_ld_key) init) = init ∨
        ∃ st ∈ stores,
          (stores.foldl
            (fun min_safe_ld_key store =>
              if store.get_safe_truncation_log_dev_key.idx < min_safe_ld_key.idx then
                store.get_safe_truncation_log_dev_key
              else min_safe_ld_key) init) = st.get_safe_truncation_log_dev_key) := by
  induction stores with
  | nil =>
    intro init
    refine ⟨le_refl _, ?_, Or.inl rfl⟩
    intro st hst; simp at hst
  | cons a rest ih =>
    intro init
    rw [List.foldl_cons]
    by_cases hlt : a.get_safe_truncation_log_dev_key.idx < init.idx
    · rw [if_pos hlt]
      obtain ⟨h1, h2, h3⟩ := ih a.get_safe_truncation_log_dev_key
      refine ⟨by omega, ?_, ?_⟩
      · intro st hst
        rcases List.mem_cons.mp hst with rfl | hst
        · exact h1
        · exact h2 st hst
      · right
        rcases h3 with h3 | ⟨st, hst, h3⟩
        · exact ⟨a, List.mem_cons_self _ _, h3⟩
        · exact ⟨st, List.mem_cons_of_mem _ hst, h3⟩
    · rw [if_neg hlt]
      obtain ⟨h1, h2, h3⟩ := ih init
      refine ⟨h1, ?_, ?_⟩
      · intro st hst
        rcases List.mem_cons.mp hst with rfl | hst
        · omega
        · exact h2 st hst
      · rcases h3 with h3 | ⟨st, hst, h3⟩
        · left; exact h3
        · right; exact ⟨st, List.mem_cons_of_mem _ hst, h3⟩

/-- C15, as stated, fails: the loop compares `idx` only.  With the safe keys
{5, 100} and {5, 50}, `device_truncate` returns {5, 100}, although the second
store's key is smaller at equal idx by dev_offset. -/
theorem device_truncate_counterexample :
    mgr_equal_idx.device_truncate true = ⟨5, 100⟩ ∧
    ∃ st ∈ mgr_equal_idx.stores,
      st.get_safe_truncation_log_dev_key.idx = (mgr_equal_idx.device_truncate true).idx ∧
      st.get_safe_truncation_log_dev_key.dev_offset
        < (mgr_equal_idx.device_truncate true).dev_offset := by
  refine ⟨by decide, store_with_safe_key 2 ⟨5, 50⟩, by simp [mgr_equal_idx], by decide,
    by decide⟩

/-- The loop of `device_truncate` from any starting key pins its result: either no
store has an idx below the starting idx and the starting key is returned, or the
result is the key of the first store, in iteration order, that holds the least
idx: the stores before it have a larger idx, the stores after it none smaller. -/
theorem device_truncate_loop_first (stores : List HomeLogStore) :
    ∀ init : logdev_key,
      ((stores.foldl
          (fun min_safe_ld_key store =>
            if store.get_safe_truncation_log_dev_key.idx < min_safe_ld_key.idx then
              store.get_safe_truncation_log_dev_key
            else min_safe_ld_key) init) = init ∧
        ∀ st ∈ stores, ¬ st.get_safe_truncation_log_dev_key.idx < init.idx) ∨
      ∃ (pre : List HomeLogStore) (st : HomeLogStore) (post : List HomeLogStore),
        stores = pre ++ st :: post ∧
        (stores.foldl
          (fun min_safe_ld_key store =>
            if store.get_safe_truncation_log_dev_key.idx < min_safe_ld_key.idx then
              store.get_safe_truncation_log_dev_key
            else min_safe_ld_key) init) = st.get_safe_truncation_log_dev_key ∧
        st.get_safe_truncation_log_dev_key.idx < init.idx ∧
        (∀ p ∈ pre, st.get_safe_truncation_log_dev_key.idx
          < p.get_safe_truncation_log_dev_key.idx) ∧
        (∀ p ∈ post, st.get_safe_truncation_log_dev_key.idx
          ≤ p.get_safe_truncation_log_dev_key.idx) := by
  induction stores with
  | nil =>
    intro init
    left
    exact ⟨rfl, fun st hst => by simp at hst⟩
  | cons a rest ih =>
    intro init
    rw [List.foldl_cons]
    by_cases hlt : a.get_safe_truncation_log_dev_key.idx < init.idx
    · rw [if_pos hlt]
      right
      rcases ih a.get_safe_truncation_log_dev_key with ⟨h1, h2⟩ | ⟨pre, st, post, e, h1, h2, h3, h4⟩
      · refine ⟨[], a, rest, rfl, h1, hlt, fun p hp => by simp at hp, ?_⟩
        intro p hp
        exact not_lt.mp (h2 p hp)
      · refine ⟨a :: pre, st, post, by rw [e]; rfl, h1, by omega, ?_, h4⟩
        intro p hp
        rcases List.mem_cons.mp hp with hpa | hp
        · rw [hpa]; exact h2
        · exact h3 p hp
    · rw [if_neg hlt]
      rcases ih init with ⟨h1, h2⟩ | ⟨pre, st, post, e, h1, h2, h3, h4⟩
      · left
        refine ⟨h1, ?_⟩
        intro p hp
        rcases List.mem_cons.mp hp with hpa | hp
        · rw [hpa]; exact hlt
        · exact h2 p hp
      · right
        refine ⟨a :: pre, st, post, by rw [e]; rfl, h1, h2, ?_, h4⟩
        intro p hp
        rcases List.mem_cons.mp hp with hpa | hp
        · rw [hpa]; omega
        · exact h3 p hp

/-- C15 (amended): for every set of stores, non-empty or not, `device_truncate` returns a
key of minimum `idx`: no store's safe key is smaller than the returned key by
idx.  dev_offset is not compared: when some store's idx is below the out-of-bound
idx, the returned key is the safe key of the first store, in iteration order,
that holds the least idx (every store before it has a larger idx, no store after
it a smaller one); when no store's idx is below the out-of-bound idx, the empty
set included, it is `out_of_bound_ld_key`. -/
theorem device_truncate_min_idx (m : HomeLogStoreMgr) (dry_run : Bool) :
    (∀ st ∈ m.stores,
      ¬ st.get_safe_truncation_log_dev_key.idx < (m.device_truncate dry_run).idx) ∧
    ((∀ st ∈ m.stores, ¬ st.get_safe_truncation_log_dev_key.idx < out_of_bound_ld_key.idx) →
      m.device_truncate dry_run = out_of_bound_ld_key) ∧
    ((∃ st ∈ m.stores, st.get_safe_truncation_log_dev_key.idx < out_of_bound_ld_key.idx) →
      ∃ (pre : List HomeLogStore) (st : HomeLogStore) (post : List HomeLogStore),
        m.stores = pre ++ st :: post ∧
        m.device_truncate dry_run = st.get_safe_truncation_log_dev_key ∧
        st.get_safe_truncation_log_dev_key.idx < out_of_bound_ld_key.idx ∧
        (∀ p ∈ pre, st.get_safe_truncation_log_dev_key.idx
          < p.get_safe_truncation_log_dev_key.idx) ∧
        (∀ p ∈ post, st.get_safe_truncation_log_dev_key.idx
          ≤ p.get_safe_truncation_log_dev_key.idx)) := by
  obtain ⟨_, h2, _⟩ := device_truncate_loop m.stores out_of_bound_ld_key
  have hfirst := device_truncate_loop_first m.stores out_of_bound_ld_key
  unfold device_truncate
  refine ⟨fun st hst => not_lt.mpr (h2 st hst), ?_, ?_⟩
  · intro hall
    rcases hfirst with ⟨h, _⟩ | ⟨pre, st, post, e, _, hlt, _, _⟩
    · exact h
    · exact absurd hlt (hall st (by rw [e]; simp))
  · rintro ⟨st0, hst0, hlt0⟩
    rcases hfirst with ⟨_, h⟩ | h
    · exact absurd hlt0 (h st0 hst0)
    · exact h

/-- C15 witness: the safe keys {7, 0}, {3, 64}, {5, 0} give {3, 64}; the safe keys
{5, 100}, {5, 50} give the first of them. -/
theorem device_truncate_min_idx_witness :
    mgr_three.device_truncate false = ⟨3, 64⟩ ∧
    mgr_equal_idx.device_truncate false = ⟨5, 100⟩ ∧
    (∀ st ∈ mgr_three.stores,
      ¬ st.get_safe_truncation_log_dev_key.idx < (mgr_three.device_truncate false).idx) ∧
    ∃ (pre : List HomeLogStore) (st : HomeLogStore) (post : List HomeLogStore),
      mgr_equal_idx.stores = pre ++ st :: post ∧
      mgr_equal_idx.device_truncate false = st.get_safe_truncation_log_dev_key ∧
      st.get_safe_truncation_log_dev_key.idx < out_of_bound_ld_key.idx ∧
      (∀ p ∈ pre, st.get_safe_truncation_log_dev_key.idx
        < p.get_safe_truncation_log_dev_key.idx) ∧
      (∀ p ∈ post, st.get_safe_truncation_log_dev_key.idx
        ≤ p.get_safe_truncation_log_dev_key.idx) :=
  ⟨by decide, by decide, (device_truncate_min_idx mgr_three false).1,
    (device_truncate_min_idx mgr_equal_idx false).2.2
      ⟨store_with_safe_key 1 ⟨5, 100⟩, by simp [mgr_equal_idx], by decide⟩⟩

end HomeLogStoreMgr

namespace HomeLogStore

/-- C16: `create_truncation_barrier` does exactly one of two things.  If the list
is non-empty and its last barrier `back` has `back.seq_num >= flush_batch_max.seq_num`,
the list becomes the old one with only the last barrier's ld_key replaced by
`flush_batch_max.ld_key`: same length, same seq_nums, every earlier barrier as it
was.  Otherwise `flush_batch_max` is appended as the new last barrier and every
existing barrier stays.  No other member of the store changes. -/
theorem create_truncation_barrier_spec (s : HomeLogStore) :
    (∀ back : TruncationBarrier, s.m_truncation_barriers.getLast? = some back →
      back.seq_num ≥ s.m_flush_batch_max.seq_num →
        s.create_truncation_barrier.m_truncation_barriers =
          s.m_truncation_barriers.dropLast ++ [⟨back.seq_num, s.m_flush_batch_max.ld_key⟩] ∧
        s.create_truncation_barrier.m_truncation_barriers.length
          = s.m_truncation_barriers.length ∧
        s.create_truncation_barrier.m_truncation_barriers.map TruncationBarrier.seq_num
          = s.m_truncation_barriers.map TruncationBarrier.seq_num ∧
        ∀ i : Nat, i + 1 < s.m_truncation_barriers.length →
          s.create_truncation_barrier.m_truncation_barriers[i]? = s.m_truncation_barriers[i]?) ∧
    ((s.m_truncation_barriers = [] ∨
      ∃ back : TruncationBarrier, s.m_truncation_barriers.getLast? = some back ∧
        back.seq_num < s.m_flush_batch_max.seq_num) →
        s.create_truncation_barrier.m_truncation_barriers =
          s.m_truncation_barriers ++ [s.m_flush_batch_max]) ∧
    s.create_truncation_barrier.m_safe_truncate_ld_key = s.m_safe_truncate_ld_key ∧
    s.create_truncation_barrier.m_last_truncated_seq_num = s.m_last_truncated_seq_num ∧
    s.create_truncation_barrier.m_seq_num = s.m_seq_num ∧
    s.create_truncation_barrier.m_flush_batch_max = s.m_flush_batch_max ∧
    s.create_truncation_barrier.m_records = s.m_records := by
  refine ⟨?_, ?_, ?_⟩
  · intro back hl hge
    have hsplit : s.m_truncation_barriers = s.m_truncation_barriers.dropLast ++ [back] := by
      obtain ⟨ys, hys⟩ := List.getLast?_eq_some_iff.mp hl
      rw [hys, List.dropLast_concat]
    have hnew : s.create_truncation_barrier.m_truncation_barriers =
        s.m_truncation_barriers.dropLast ++ [⟨back.seq_num, s.m_flush_batch_max.ld_key⟩] := by
      unfold create_truncation_barrier
      rw [hl]
      simp only []
      rw [if_pos hge]
    have hlen : s.m_truncation_barriers.length = s.m_truncation_barriers.dropLast.length + 1 := by
      conv_lhs => rw [hsplit]
      rw [List.length_append, List.length_singleton]
    refine ⟨hnew, ?_, ?_, ?_⟩
    · rw [hnew, List.length_append, List.length_singleton, hlen]
    · rw [hnew]
      conv_rhs => rw [hsplit]
      rw [List.map_append, List.map_append]
      rfl
    · intro i hi
      rw [hnew]
      conv_rhs => rw [hsplit]
      rw [List.getElem?_append_left (by omega), List.getElem?_append_left (by omega)]
  · rintro (hnil | ⟨back, hl, hlt⟩)
    · unfold create_truncation_barrier
      rw [hnil]
      rfl
    · unfold create_truncation_barrier
      rw [hl]
      simp only []
      rw [if_neg (by omega)]
  · unfold create_truncation_barrier
    cases s.m_truncation_barriers.getLast? with
    | none => exact ⟨rfl, rfl, rfl, rfl, rfl⟩
    | some back =>
      simp only []
      split <;> exact ⟨rfl, rfl, rfl, rfl, rfl⟩

/-- C16 witness: on the barriers 10, 20, 30 a batch maximum of 25 rewrites the key
of the barrier at 30, and leaves the barriers at 10 and 20. -/
theorem create_truncation_barrier_spec_witness :
    store3_open_batch.create_truncation_barrier.m_truncation_barriers
      = [⟨10, ⟨1, 0⟩⟩, ⟨20, ⟨2, 0⟩⟩, ⟨30, ⟨9, 0⟩⟩] ∧
    store3_open_batch.create_truncation_barrier.m_truncation_barriers.length
      = store3_open_batch.m_truncation_barriers.length :=
  ⟨by decide,
    ((create_truncation_barrier_spec store3_open_batch).1 ⟨30, ⟨3, 0⟩⟩ (by decide)
      (by decide)).2.1⟩

/-- The list that `create_truncation_barrier` leaves depends on the old list and on
`m_flush_batch_max` only. -/
theorem create_truncation_barrier_congr (s t : HomeLogStore)
    (hb : s.m_truncation_barriers = t.m_truncation_barriers)
    (hf : s.m_flush_batch_max = t.m_flush_batch_max) :
    s.create_truncation_barrier.m_truncation_barriers
      = t.create_truncation_barrier.m_truncation_barriers := by
  unfold create_truncation_barrier
  rw [hb, hf]
  cases t.m_truncation_barriers.getLast? with
  | none => rfl
  | some back =>
    simp only []
    split <;> rfl

/-- A write completion that does not close the batch only completes its record
and updates the batch maximum. -/
theorem on_write_completion_open (s : HomeLogStore) (c : Completion) (nrem : Nat)
    (hn : nrem ≠ 0) :
    (s.on_write_completion c.seq_num c.ld_key c.flush_ld_key nrem).m_truncation_barriers
      = s.m_truncation_barriers ∧
    (s.on_write_completion c.seq_num c.ld_key c.flush_ld_key nrem).m_flush_batch_max
      = batch_max s.m_flush_batch_max [c] := by
  have hbm : batch_max s.m_flush_batch_max [c] =
      (if c.seq_num > s.m_flush_batch_max.seq_num then ⟨c.seq_num, c.flush_ld_key⟩
        else s.m_flush_batch_max) := rfl
  rw [hbm]
  unfold on_write_completion
  by_cases hgt : c.seq_num > s.m_flush_batch_max.seq_num
  · simp only []
    rw [if_pos hgt, if_neg hn, if_pos hgt]
    exact ⟨rfl, rfl⟩
  · simp only []
    rw [if_neg hgt, if_neg hn, if_neg hgt]
    exact ⟨rfl, rfl⟩

/-- A write completion that closes the batch creates the barrier from the updated
batch maximum and resets the scratch. -/
theorem on_write_completion_close (s : HomeLogStore) (c : Completion) :
    (s.on_write_completion c.seq_num c.ld_key c.flush_ld_key 0).m_truncation_barriers
      = (create_truncation_barrier
          { s with m_flush_batch_max := batch_max s.m_flush_batch_max [c] }).m_truncation_barriers ∧
    (s.on_write_completion c.seq_num c.ld_key c.flush_ld_key 0).m_flush_batch_max
      = ⟨-1, ⟨-1, 0⟩⟩ := by
  have hbm : batch_max s.m_flush_batch_max [c] =
      (if c.seq_num > s.m_flush_batch_max.seq_num then ⟨c.seq_num, c.flush_ld_key⟩
        else s.m_flush_batch_max) := rfl
  unfold on_write_completion
  by_cases hgt : c.seq_num > s.m_flush_batch_max.seq_num
  · simp only []
    rw [if_pos hgt, if_pos trivial]
    refine ⟨create_truncation_barrier_congr _ _ rfl ?_, rfl⟩
    show (⟨c.seq_num, c.flush_ld_key⟩ : TruncationBarrier) = batch_max s.m_flush_batch_max [c]
    rw [hbm, if_pos hgt]
  · simp only []
    rw [if_neg hgt, if_pos trivial]
    refine ⟨create_truncation_barrier_congr _ _ rfl ?_, rfl⟩
    show s.m_flush_batch_max = batch_max s.m_flush_batch_max [c]
    rw [hbm, if_neg hgt]

/-- A whole batch: the barrier list after it is what `create_truncation_barrier`
makes of the old list and the batch maximum. -/
theorem run_batch_barriers (cs : List Completion) (hne : cs ≠ []) :
    ∀ s : HomeLogStore,
      (s.run_batch cs).m_truncation_barriers
        = (create_truncation_barrier
            { s with m_flush_batch_max := batch_max s.m_flush_batch_max cs }).m_truncation_barriers ∧
      (s.run_batch cs).m_flush_batch_max = ⟨-1, ⟨-1, 0⟩⟩ := by
  induction cs with
  | nil => exact absurd rfl hne
  | cons c rest ih =>
    intro s
    cases rest with
    | nil =>
      show (s.on_write_completion c.seq_num c.ld_key c.flush_ld_key 0).m_truncation_barriers = _ ∧
        (s.on_write_completion c.seq_num c.ld_key c.flush_ld_key 0).m_flush_batch_max = _
      exact on_write_completion_close s c
    | cons d rest2 =>
      obtain ⟨o1, o2⟩ := on_write_completion_open s c (d :: rest2).length (by simp)
      obtain ⟨i1, i2⟩ := ih (by simp)
        (s.on_write_completion c.seq_num c.ld_key c.flush_ld_key (d :: rest2).length)
      show (run_batch (s.on_write_completion c.seq_num c.ld_key c.flush_ld_key
          (d :: rest2).length) (d :: rest2)).m_truncation_barriers = _ ∧
        (run_batch (s.on_write_completion c.seq_num c.ld_key c.flush_ld_key
          (d :: rest2).length) (d :: rest2)).m_flush_batch_max = _
      refine ⟨?_, i2⟩
      rw [i1]
      apply create_truncation_barrier_congr
      · exact o1
      · show batch_max (s.on_write_completion c.seq_num c.ld_key c.flush_ld_key
            (d :: rest2).length).m_flush_batch_max (d :: rest2) = _
        rw [o2]
        rfl

/-- The batch maximum after the completions `cs`: either no completion exceeded
the starting seq_num, or it is the seq_num and flush key of the first completion
that carries the largest seq_num. -/
theorem batch_max_spec (cs : List Completion) :
    ∀ fbm : TruncationBarrier,
      (batch_max fbm cs = fbm ∧ ∀ c ∈ cs, c.seq_num ≤ fbm.seq_num) ∨
      ∃ (pre : List Completion) (c : Completion) (post : List Completion),
        cs = pre ++ c :: post ∧ (∀ p ∈ pre, p.seq_num < c.seq_num) ∧
        fbm.seq_num < c.seq_num ∧ (∀ p ∈ post, p.seq_num ≤ c.seq_num) ∧
        batch_max fbm cs = ⟨c.seq_num, c.flush_ld_key⟩ := by
  induction cs with
  | nil =>
    intro fbm
    left
    exact ⟨rfl, fun c hc => by simp at hc⟩
  | cons a rest ih =>
    intro fbm
    have hstep : batch_max fbm (a :: rest) =
        batch_max (if a.seq_num > fbm.seq_num then ⟨a.seq_num, a.flush_ld_key⟩ else fbm) rest :=
      rfl
    rw [hstep]
    by_cases hgt : a.seq_num > fbm.seq_num
    · rw [if_pos hgt]
      right
      rcases ih ⟨a.seq_num, a.flush_ld_key⟩ with ⟨h1, h2⟩ | ⟨pre, c, post, h1, h2, h3, h4, h5⟩
      · exact ⟨[], a, rest, rfl, fun p hp => by simp at hp, hgt, h2, h1⟩
      · have h3b : a.seq_num < c.seq_num := h3
        refine ⟨a :: pre, c, post, by rw [h1]; rfl, ?_, by omega, h4, h5⟩
        intro p hp
        rcases List.mem_cons.mp hp with rfl | hp
        · exact h3b
        · exact h2 p hp
    · rw [if_neg hgt]
      rcases ih fbm with ⟨h1, h2⟩ | ⟨pre, c, post, h1, h2, h3, h4, h5⟩
      · left
        refine ⟨h1, fun c hc => ?_⟩
        rcases List.mem_cons.mp hc with rfl | hc
        · omega
        · exact h2 c hc
      · right
        refine ⟨a :: pre, c, post, by rw [h1]; rfl, ?_, h3, h4, h5⟩
        intro p hp
        rcases List.mem_cons.mp hp with rfl | hp
        · omega
        · exact h2 p hp

/-- C17, as stated, fails: the barrier keeps the flush key of the completion that
carried the maximum seq_num, not that of the closing completion.  A batch with
seq_num 5 (flush key {7, 0}) followed by the closing seq_num 3 (flush key {8, 0})
appends the barrier (5, {7, 0}). -/
theorem run_batch_barrier_counterexample :
    (∀ c ∈ batch_mixed_flush, 0 ≤ c.seq_num) ∧
    (HomeLogStore.new 1).m_flush_batch_max = ⟨-1, ⟨-1, 0⟩⟩ ∧
    ((HomeLogStore.new 1).run_batch batch_mixed_flush).m_truncation_barriers
      = [⟨5, ⟨7, 0⟩⟩] ∧
    batch_mixed_flush.getLast?.map Completion.flush_ld_key = some ⟨8, 0⟩ ∧
    ((HomeLogStore.new 1).run_batch batch_mixed_flush).m_truncation_barriers.getLast?.map
        TruncationBarrier.ld_key
      ≠ batch_mixed_flush.getLast?.map Completion.flush_ld_key := by
  refine ⟨by decide, by decide, by decide, by decide, by decide⟩

/-- C17 (amended): for a flush batch `cs` (completions with seq_num >= 0, delivered
to a store whose `flush_batch_max` is reset, the last one closing the batch) whose
maximum seq_num exceeds the last existing barrier's seq_num, the barrier appended
at batch close has the maximum seq_num of the batch and the flush key delivered
with the first completion that carried that maximum (`c` below: nothing before it
reaches its seq_num, nothing after it exceeds it).  That key is the flush key of
the batch-closing completion when all completions of the batch carry the same
flush key.  The scratch is reset afterwards. -/
theorem run_batch_barrier (s : HomeLogStore) (cs : List Completion) (hne : cs ≠ [])
    (hreset : s.m_flush_batch_max = ⟨-1, ⟨-1, 0⟩⟩)
    (hseq : ∀ c ∈ cs, 0 ≤ c.seq_num)
    (hex : ∀ back : TruncationBarrier, s.m_truncation_barriers.getLast? = some back →
      ∃ c ∈ cs, back.seq_num < c.seq_num) :
    ∃ (pre : List Completion) (c : Completion) (post : List Completion),
      cs = pre ++ c :: post ∧ (∀ p ∈ pre, p.seq_num < c.seq_num) ∧
      (∀ p ∈ post, p.seq_num ≤ c.seq_num) ∧
      (s.run_batch cs).m_truncation_barriers
        = s.m_truncation_barriers ++ [⟨c.seq_num, c.flush_ld_key⟩] ∧
      (s.run_batch cs).m_flush_batch_max = ⟨-1, ⟨-1, 0⟩⟩ ∧
      (∀ last : Completion, cs.getLast? = some last →
        (∀ d ∈ cs, d.flush_ld_key = last.flush_ld_key) →
        (s.run_batch cs).m_truncation_barriers
          = s.m_truncation_barriers ++ [⟨c.seq_num, last.flush_ld_key⟩]) ∧
      (∀ last : Completion, cs.getLast? = some last →
        (∀ d ∈ cs.dropLast, d.seq_num < last.seq_num) →
        (s.run_batch cs).m_truncation_barriers
          = s.m_truncation_barriers ++ [⟨last.seq_num, last.flush_ld_key⟩]) := by
  obtain ⟨hb, hf⟩ := run_batch_barriers cs hne s
  rcases batch_max_spec cs s.m_flush_batch_max with ⟨_, h2⟩ | ⟨pre, c, post, h1, h2, h3, h4, h5⟩
  · exfalso
    obtain ⟨a, rest, hcs⟩ := List.exists_cons_of_ne_nil hne
    have ha : a ∈ cs := by rw [hcs]; exact List.mem_cons_self _ _
    have := h2 a ha
    have := hseq a ha
    rw [hreset] at *
    have hm1 : (⟨-1, ⟨-1, 0⟩⟩ : TruncationBarrier).seq_num = -1 := rfl
    omega
  · have hle : ∀ d ∈ cs, d.seq_num ≤ c.seq_num := by
      intro d hd
      rw [h1, List.mem_append, List.mem_cons] at hd
      rcases hd with hd | rfl | hd
      · exact le_of_lt (h2 d hd)
      · exact le_refl _
      · exact h4 d hd
    have hc : c ∈ cs := by rw [h1]; simp
    have hpush : (s.run_batch cs).m_truncation_barriers
        = s.m_truncation_barriers ++ [⟨c.seq_num, c.flush_ld_key⟩] := by
      rw [hb, h5]
      unfold create_truncation_barrier
      cases hl : s.m_truncation_barriers.getLast? with
      | none => rfl
      | some back =>
        obtain ⟨d, hd, hlt⟩ := hex back hl
        have := hle d hd
        simp only []
        rw [if_neg (by show ¬ back.seq_num ≥ c.seq_num; omega)]
    refine ⟨pre, c, post, h1, h2, h4, hpush, hf, ?_, ?_⟩
    · intro last _ hall
      rw [hpush, hall c hc]
    · intro last hlast hbelow
      obtain ⟨ys, hys⟩ := List.getLast?_eq_some_iff.mp hlast
      have hdl : cs.dropLast = ys := by rw [hys, List.dropLast_concat]
      have hlm : last ∈ cs := by rw [hys]; simp
      have hcl : c = last := by
        have hc2 := hc
        rw [hys, List.mem_append, List.mem_singleton] at hc2
        rcases hc2 with hc2 | hc2
        · have := hbelow c (by rw [hdl]; exact hc2)
          have := hle last hlm
          omega
        · exact hc2
      rw [hpush, hcl]

/-- C17 witness: on the barriers 10, 20, 30 the batch 31, 33, 32 with the one flush
key {9, 0} appends the barrier (33, {9, 0}). -/
theorem run_batch_barrier_witness :
    (store3.run_batch batch_uniform_flush).m_truncation_barriers
      = [⟨10, ⟨1, 0⟩⟩, ⟨20, ⟨2, 0⟩⟩, ⟨30, ⟨3, 0⟩⟩, ⟨33, ⟨9, 0⟩⟩] ∧
    ∃ (pre : List Completion) (c : Completion) (post : List Completion),
      batch_uniform_flush = pre ++ c :: post ∧
      (store3.run_batch batch_uniform_flush).m_truncation_barriers
        = store3.m_truncation_barriers ++ [⟨c.seq_num, c.flush_ld_key⟩] := by
  refine ⟨by decide, ?_⟩
  obtain ⟨pre, c, post, h1, _, _, h4, _⟩ :=
    run_batch_barrier store3 batch_uniform_flush (by decide) (by decide) (by decide)
      (by
        intro back hb
        exact ⟨⟨33, ⟨4, 128⟩, ⟨9, 0⟩⟩, by decide, by
          have : back = ⟨30, ⟨3, 0⟩⟩ := by
            have h : store3.m_truncation_barriers.getLast? = some ⟨30, ⟨3, 0⟩⟩ := by decide
            rw [h] at hb
            exact (Option.some.inj hb).symm
          rw [this]; decide⟩)
  exact ⟨pre, c, post, h1, h4⟩

end HomeLogStore

theorem crc16_t10dif_bit_lt (crc : Nat) : crc16_t10dif_bit crc < 65536 := by
  unfold crc16_t10dif_bit
  split
  · exact Nat.xor_lt_two_pow (n := 16) (Nat.mod_lt _ (by norm_num)) (by norm_num)
  · exact Nat.mod_lt _ (by norm_num)

theorem crc16_t10dif_byte_lt (crc byte : Nat) : crc16_t10dif_byte crc byte < 65536 := by
  unfold crc16_t10dif_byte
  exact crc16_t10dif_bit_lt _

/-- The CRC is a 16-bit value, so storing it in the `uint16_t checksum` field of
the header loses nothing. -/
theorem crc16_t10dif_lt (init_crc : Nat) (buf : List Nat) (len : Nat) :
    crc16_t10dif init_crc buf len < 65536 := by
  unfold crc16_t10dif
  generalize buf.take len = l
  induction l using List.reverseRecOn with
  | nil => exact Nat.mod_lt _ (by norm_num)
  | append_singleton l a _ =>
    rw [List.foldl_append]
    exact crc16_t10dif_byte_lt _ _

namespace BtreeNode

variable {K V : Type}

/-- C18, as stated, fails: `verify_node` does not look at the version.  The node
with data bytes 1, 2, 3, 4, its checksum set and header version 2 passes
`verify_node`, although its version is not 1. -/
theorem verify_node_counterexample :
    node_version2.is_valid_node = true ∧ node_version2.verify_node cfg4 = true ∧
    node_version2.version = 2 ∧
    ¬ (node_version2.verify_node cfg4 = true ↔
        (node_version2.magic = 0xAB ∧ node_version2.version = 1 ∧
          node_version2.checksum =
            crc16_t10dif bt_init_crc_16 node_version2.node_data_area_const
              cfg4.node_data_size)) := by
  refine ⟨by decide, by decide, by decide, ?_⟩
  intro h
  have := (h.mp (by decide)).2.1
  exact absurd this (by decide)

/-- C18 (amended): for every node, valid ones included, `verify_node(cfg)` returns
true if and only if the header magic equals 0xAB and the stored checksum equals
the CRC-16 of the node data area of length `cfg.node_data_size()`; the header
version is not examined. -/
theorem verify_node_iff (n : BtreeNode K V) (cfg : BtreeConfig) :
    n.verify_node cfg = true ↔
      (n.magic = 0xAB ∧
        n.checksum = crc16_t10dif bt_init_crc_16 n.node_data_area_const cfg.node_data_size) := by
  unfold verify_node
  simp only [Bool.and_eq_true, beq_iff_eq]
  constructor
  · rintro ⟨h1, h2⟩
    exact ⟨h1, h2⟩
  · rintro ⟨h1, h2⟩
    exact ⟨h1, h2⟩

/-- C18 witness: the leaf with data bytes 1, 2, 3, 4 after `set_checksum`. -/
theorem verify_node_iff_witness :
    (node_data4.set_checksum cfg4).is_valid_node = true ∧
    (node_data4.set_checksum cfg4).verify_node cfg4 = true ∧
    node_data4.verify_node cfg4 = false ∧
    ((node_data4.set_checksum cfg4).verify_node cfg4 = true ↔
      ((node_data4.set_checksum cfg4).magic = 0xAB ∧
        (node_data4.set_checksum cfg4).checksum =
          crc16_t10dif bt_init_crc_16 (node_data4.set_checksum cfg4).node_data_area_const
            cfg4.node_data_size)) :=
  ⟨by decide, by decide, by decide,
    verify_node_iff (node_data4.set_checksum cfg4) cfg4⟩

/-- C19: checksum round trip: for every valid node whose magic is 0xAB and every
config, `set_checksum(cfg)` followed by `verify_node(cfg)`, the data area left as
it is, returns true.  The checksum stored is a 16-bit value, and `set_checksum`
leaves the data area, the magic and the validity flag as they were. -/
theorem set_checksum_verify_node (n : BtreeNode K V) (cfg : BtreeConfig)
    (hvalid : n.is_valid_node = true) (hmagic : n.magic = 0xAB) :
    (n.set_checksum cfg).verify_node cfg = true ∧
    (n.set_checksum cfg).checksum < 65536 ∧
    (n.set_checksum cfg).node_data_area_const = n.node_data_area_const ∧
    (n.set_checksum cfg).magic = n.magic ∧
    (n.set_checksum cfg).is_valid_node = true := by
  refine ⟨?_, crc16_t10dif_lt _ _ _, rfl, rfl, hvalid⟩
  unfold verify_node
  simp only [Bool.and_eq_true, beq_iff_eq]
  constructor
  · show n.magic = BTREE_NODE_MAGIC
    rw [hmagic]; rfl
  · rfl

/-- C19 witness: the leaf with data bytes 1, 2, 3, 4; the stored checksum is 22055. -/
theorem set_checksum_verify_node_witness :
    node_data4.is_valid_node = true ∧ node_data4.magic = 0xAB ∧
    (node_data4.set_checksum cfg4).checksum = 22055 ∧
    (node_data4.set_checksum cfg4).verify_node cfg4 = true :=
  ⟨by decide, by decide, by decide,
    (set_checksum_verify_node node_data4 cfg4 (by decide) (by decide)).1⟩

/-- C20: the checksum protects the data area only: two nodes whose data areas agree
over `cfg.node_data_size()` bytes get the same checksum from `set_checksum(cfg)`,
whatever their header fields (node id, next node, entry count, generation, link
version, edge, level, the old checksum) and their entries hold; and
`set_checksum` changes no header field other than the checksum. -/
theorem set_checksum_data_only {K2 V2 : Type} (n1 : BtreeNode K V) (n2 : BtreeNode K2 V2)
    (cfg : BtreeConfig)
    (hdata : n1.node_data_area_const.take cfg.node_data_size
      = n2.node_data_area_const.take cfg.node_data_size) :
    (n1.set_checksum cfg).checksum = (n2.set_checksum cfg).checksum ∧
    (n1.set_checksum cfg).hdr = { n1.hdr with checksum := (n1.set_checksum cfg).checksum } ∧
    (n2.set_checksum cfg).hdr = { n2.hdr with checksum := (n2.set_checksum cfg).checksum } := by
  refine ⟨?_, rfl, rfl⟩
  show crc16_t10dif bt_init_crc_16 n1.node_data_area_const cfg.node_data_size
    = crc16_t10dif bt_init_crc_16 n2.node_data_area_const cfg.node_data_size
  unfold crc16_t10dif
  rw [hdata]

/-- C20 witness: a leaf and an interior node with different headers and the same
data bytes 1, 2, 3, 4. -/
theorem set_checksum_data_only_witness :
    node_data4.hdr ≠ node_data4_other.hdr ∧
    (node_data4.set_checksum cfg4).checksum = (node_data4_other.set_checksum cfg4).checksum :=
  ⟨by decide, (set_checksum_data_only node_data4 node_data4_other cfg4 (by decide)).1⟩

end BtreeNode

namespace BtreeNode

variable {K V : Type}

theorem key_compare_nonneg [LinearOrder K] (a b : K) : key_compare a b ≥ 0 ↔ ¬ a < b := by
  rw [← key_compare_neg]
  omega

/-- The loop of `validate_key_order` from index `i` on, with fuel that covers the
remaining entries: it returns true exactly when every entry from `i` on is above
its predecessor; otherwise it returns false in a release build and aborts in a
debug build. -/
theorem validate_key_order_loop_spec [LinearOrder K] [Inhabited K] (n : BtreeNode K V)
    (debug_build : Bool) :
    ∀ (fuel i : Nat), n.total_entries + 1 ≤ fuel + i →
      (n.validate_key_order_loop debug_build fuel i = some true ↔
        ∀ j : Nat, i ≤ j → j < n.total_entries → n.get_nth_key (j - 1) < n.get_nth_key j) ∧
      (n.validate_key_order_loop debug_build fuel i = some true ∨
        n.validate_key_order_loop debug_build fuel i
          = if debug_build then none else some false) := by
  intro fuel
  induction fuel with
  | zero =>
    intro i hf
    unfold validate_key_order_loop
    refine ⟨?_, Or.inl rfl⟩
    simp only [true_iff]
    intro j hj hjn
    omega
  | succ fuel ih =>
    intro i hf
    unfold validate_key_order_loop
    by_cases hi : i < n.total_entries
    · rw [if_pos hi]
      by_cases hc : key_compare (n.get_nth_key (i - 1)) (n.get_nth_key i) ≥ 0
      · rw [if_pos hc]
        refine ⟨?_, Or.inr rfl⟩
        constructor
        · intro h
          cases debug_build <;> simp at h
        · intro hall
          exact absurd (hall i (le_refl _) hi) ((key_compare_nonneg _ _).mp hc)
      · rw [if_neg hc]
        obtain ⟨ih1, ih2⟩ := ih (i + 1) (by omega)
        refine ⟨?_, ih2⟩
        rw [ih1]
        have hlt : n.get_nth_key (i - 1) < n.get_nth_key i := by
          by_contra h
          exact hc ((key_compare_nonneg _ _).mpr h)
        constructor
        · intro hall j hj hjn
          rcases Nat.eq_or_lt_of_le hj with h | h
          · rw [← h]; exact hlt
          · exact hall j h hjn
        · intro hall j hj hjn
          exact hall j (by omega) hjn
    · rw [if_neg hi]
      refine ⟨?_, Or.inl rfl⟩
      simp only [true_iff]
      intro j hj hjn
      omega

/-- Keys that increase from each entry to the next increase along the whole node. -/
theorem adjacent_increasing_all [LinearOrder K] [Inhabited K] (n : BtreeNode K V)
    (hadj : ∀ j : Nat, 1 ≤ j → j < n.total_entries → n.get_nth_key (j - 1) < n.get_nth_key j) :
    ∀ (j i : Nat), i < j → j < n.total_entries → n.get_nth_key i < n.get_nth_key j := by
  intro j
  induction j with
  | zero => intro i hi; omega
  | succ j ih =>
    intro i hi hj
    have h1 := hadj (j + 1) (by omega) hj
    rw [Nat.add_sub_cancel] at h1
    rcases Nat.eq_or_lt_of_le (Nat.lt_succ_iff.mp hi) with h | h
    · rw [h]; exact h1
    · exact lt_trans (ih i h (by omega)) h1

/-- C21, as stated, fails in a debug build: on the leaf with keys 10, 20, 20, 30,
whose second and third keys are equal, `validate_key_order` does not return
false; `DEBUG_ASSERT(false, ...)` aborts before `return false`.  The release build
returns false. -/
theorem validate_key_order_debug_counterexample :
    leaf_dup.get_nth_key 1 = leaf_dup.get_nth_key 2 ∧
    leaf_dup.validate_key_order true = none ∧
    leaf_dup.validate_key_order true ≠ some false ∧
    leaf_dup.validate_key_order false = some false := by
  refine ⟨by decide, by decide, by decide, by decide⟩

/-- C21 (amended): in a debug and in a release build alike `validate_key_order`
returns true if and only if every key is strictly above its predecessor
(`key[i-1] < key[i]` for every `1 <= i < nentries`), which on a coherent node is
to say that the keys are strictly increasing; in particular it returns true on a
node with 0 or 1 entries.  When the keys are not strictly increasing, so also
when two adjacent keys are equal, a release build returns false and a debug build
aborts on its assertion without returning. -/
theorem validate_key_order_iff [LinearOrder K] [Inhabited K] (n : BtreeNode K V)
    (debug_build : Bool) :
    (n.validate_key_order debug_build = some true ↔
      ∀ i : Nat, 1 ≤ i → i < n.total_entries → n.get_nth_key (i - 1) < n.get_nth_key i) ∧
    (n.wf → (n.validate_key_order debug_build = some true ↔ n.keys_increasing)) ∧
    (n.total_entries ≤ 1 → n.validate_key_order debug_build = some true) ∧
    (n.validate_key_order debug_build ≠ some true →
      n.validate_key_order debug_build = if debug_build then none else some false) ∧
    (∀ i : Nat, 1 ≤ i → i < n.total_entries → n.get_nth_key (i - 1) = n.get_nth_key i →
      n.validate_key_order debug_build = if debug_build then none else some false) := by
  obtain ⟨hiff, hor⟩ := n.validate_key_order_loop_spec debug_build n.total_entries 1 (by omega)
  have hnot : n.validate_key_order debug_build ≠ some true →
      n.validate_key_order debug_build = if debug_build then none else some false := by
    intro hne
    rcases hor with h | h
    · exact absurd h hne
    · exact h
  refine ⟨hiff, ?_, ?_, hnot, ?_⟩
  · intro hwf
    unfold wf at hwf
    show n.validate_key_order_loop debug_build n.total_entries 1 = some true ↔ _
    rw [hiff]
    constructor
    · intro hadj
      have hall := n.adjacent_increasing_all hadj
      unfold keys_increasing
      rw [List.pairwise_iff_getElem]
      intro i j hi hj hij
      have hj2 : j < n.total_entries := by rw [hwf]; simpa using hj
      have := hall j i hij hj2
      unfold get_nth_key at this
      rw [List.getD_eq_getElem _ _ hi, List.getD_eq_getElem _ _ hj] at this
      exact this
    · intro hs j hj hjn
      exact n.get_nth_key_lt hs (j - 1) j (by omega) (by omega)
  · intro hle
    show n.validate_key_order_loop debug_build n.total_entries 1 = some true
    rw [hiff]
    intro j hj hjn
    omega
  · intro i hi hin heq
    apply hnot
    intro hv
    have hv2 : n.validate_key_order_loop debug_build n.total_entries 1 = some true := hv
    rw [hiff] at hv2
    have := hv2 i hi hin
    rw [heq] at this
    exact absurd this (lt_irrefl _)

/-- C21 witness: keys 10, 20, 30 pass in both builds, keys 10, 20, 20, 30 fail in a
release build, one key passes. -/
theorem validate_key_order_iff_witness :
    leaf3.validate_key_order true = some true ∧ leaf3.validate_key_order false = some true ∧
    leaf_dup.validate_key_order false = some false ∧
    leaf1.validate_key_order true = some true ∧
    (leaf3.validate_key_order true = some true ↔ leaf3.keys_increasing) :=
  ⟨by decide, by decide, by decide, by decide,
    (validate_key_order_iff leaf3 true).2.1 (by decide)⟩

/-- C22: `has_valid_edge()` is false on every leaf, whatever its edge id holds; on
every node `invalidate_edge()` sets the edge id to the EMPTY sentinel, so that
`has_valid_edge()` is false afterwards, and leaves the edge link_version, every
other header field, the entries and the data area as they were. -/
theorem invalidate_edge_spec (n : BtreeNode K V) :
    (n.is_leaf = true → n.has_valid_edge = false) ∧
    n.invalidate_edge.edge_id = empty_bnodeid ∧
    n.invalidate_edge.has_valid_edge = false ∧
    n.invalidate_edge.edge_link_version = n.edge_link_version ∧
    n.invalidate_edge.hdr =
      { n.hdr with edge_info := ⟨empty_bnodeid, n.hdr.edge_info.m_link_version⟩ } ∧
    n.invalidate_edge.entries = n.entries ∧
    n.invalidate_edge.data_area = n.data_area := by
  refine ⟨?_, rfl, ?_, rfl, rfl, rfl, rfl⟩
  · intro hl
    unfold has_valid_edge
    rw [if_pos hl]
  · unfold has_valid_edge
    split
    · rfl
    · show (n.invalidate_edge.edge_id != empty_bnodeid) = false
      have : n.invalidate_edge.edge_id = empty_bnodeid := rfl
      rw [this]
      simp

/-- C22 witness: a leaf whose header carries the edge id 7, and the interior node
with the edge (7, 4). -/
theorem invalidate_edge_spec_witness :
    leaf_with_edge_id.edge_id = 7 ∧ leaf_with_edge_id.has_valid_edge = false ∧
    interior3.has_valid_edge = true ∧ interior3.invalidate_edge.has_valid_edge = false ∧
    interior3.invalidate_edge.edge_link_version = 4 ∧
    interior3.invalidate_edge.edge_id = empty_bnodeid :=
  ⟨by decide, by decide, by decide, by decide, by decide, (invalidate_edge_spec interior3).2.1⟩

/-- C23, as stated, fails below the header size: after `set_node_size(1)`,
`node_size()` is 1 but `node_data_size()` is 4294967233, the unsigned difference
wrapped, not 1 - 64. -/
theorem node_data_size_counterexample :
    (leaf3.set_node_size 1).node_size = 1 ∧
    (leaf3.set_node_size 1).node_data_size = 4294967233 ∧
    ((leaf3.set_node_size 1).node_data_size : Int) ≠ (1 : Int) - sizeof_persistent_hdr_t := by
  refine ⟨by decide, by decide, by decide⟩

/-- C23 (amended): the node size is stored in the 16-bit header field as `size - 1`
and read back exactly: for every `1 <= size <= 65536`, `node_size()` after
`set_node_size(size)` is `size`; `node_data_size()` is `size` minus the header size
(64) when `size` is at least the header size, and that difference wrapped to 32
bits, `size + 2^32 - 64`, below it. -/
theorem set_node_size_spec (n : BtreeNode K V) (size : Nat) (h1 : 1 ≤ size)
    (h2 : size ≤ 65536) :
    (n.set_node_size size).hdr.node_size = size - 1 ∧
    (n.set_node_size size).hdr.node_size < 65536 ∧
    (n.set_node_size size).node_size = size ∧
    (sizeof_persistent_hdr_t ≤ size →
      ((n.set_node_size size).node_data_size : Int) = (size : Int) - sizeof_persistent_hdr_t) ∧
    (size < sizeof_persistent_hdr_t →
      (n.set_node_size size).node_data_size = size + 4294967296 - sizeof_persistent_hdr_t) := by
  have hf : (n.set_node_size size).hdr.node_size = size - 1 := by
    show (size % 4294967296 + 4294967296 - 1) % 4294967296 % 65536 = size - 1
    omega
  have hs : (n.set_node_size size).node_size = size := by
    unfold node_size
    rw [hf]
    omega
  refine ⟨hf, by omega, hs, ?_, ?_⟩
  · intro h
    unfold node_data_size
    rw [hs]
    unfold sizeof_persistent_hdr_t at *
    omega
  · intro h
    unfold node_data_size
    rw [hs]
    unfold sizeof_persistent_hdr_t at *
    omega

/-- C23 witness: sizes 4096 and 65536. -/
theorem set_node_size_spec_witness :
    (leaf3.set_node_size 4096).node_size = 4096 ∧
    (leaf3.set_node_size 4096).node_data_size = 4032 ∧
    (leaf3.set_node_size 65536).hdr.node_size = 65535 ∧
    (leaf3.set_node_size 65536).node_size = 65536 :=
  ⟨by decide, by decide, by decide,
    (set_node_size_spec leaf3 65536 (by decide) (by decide)).2.2.1⟩

/-- C24, as stated, fails in a release build: the header checks of the loading
constructor are debug assertions.  A buffer with magic 0x12 and version 9 is
accepted as it is when the assertions are compiled out, and refused in a debug
build. -/
theorem construct_load_counterexample :
    node_bad_magic.magic = 0x12 ∧ node_bad_magic.version = 9 ∧
    node_bad_magic.construct 7 false true cfg4 false = some node_bad_magic ∧
    node_bad_magic.construct 7 false true cfg4 true = none := by
  refine ⟨by decide, by decide, rfl, rfl⟩

/-- C24 (amended): loading a node from an existing buffer (`init_buf = false`)
checks the header by debug assertions only.  In a debug build the load is accepted
if and only if the buffer's magic is 0xAB, its version is 1 and its stored node id
equals the requested id, and it aborts otherwise; in a build without debug
assertions every load is accepted.  An accepted load leaves the buffer as it is. -/
theorem construct_load_spec (node_buf : BtreeNode K V) (id : Nat) (is_leaf : Bool)
    (cfg : BtreeConfig) (debug_build : Bool) :
    ((node_buf.construct id false is_leaf cfg debug_build).isSome = true ↔
      (debug_build = false ∨
        (node_buf.magic = 0xAB ∧ node_buf.version = 1 ∧ node_buf.node_id = id))) ∧
    (∀ r : BtreeNode K V, node_buf.construct id false is_leaf cfg debug_build = some r →
      r = node_buf) := by
  unfold construct
  simp only [Bool.false_eq_true, if_false]
  cases debug_build
  · simp
  · by_cases hc : node_buf.node_id = id ∧ node_buf.magic = BTREE_NODE_MAGIC ∧
        node_buf.version = BTREE_NODE_VERSION
    · obtain ⟨c1, c2, c3⟩ := hc
      have hm : node_buf.magic = 0xAB := c2
      have hv : node_buf.version = 1 := c3
      have hb : (node_buf.node_id == id && node_buf.magic == BTREE_NODE_MAGIC &&
          node_buf.version == BTREE_NODE_VERSION) = true := by
        simp only [Bool.and_eq_true, beq_iff_eq]
        exact ⟨⟨c1, c2⟩, c3⟩
      simp only [hb, Bool.not_true, Bool.and_false, Bool.false_eq_true, if_false]
      constructor
      · constructor
        · intro _; right; exact ⟨hm, hv, c1⟩
        · intro _; rfl
      · intro r h
        exact (Option.some.inj h).symm
    · have hb : (node_buf.node_id == id && node_buf.magic == BTREE_NODE_MAGIC &&
          node_buf.version == BTREE_NODE_VERSION) = false := by
        rw [Bool.eq_false_iff]
        intro h
        simp only [Bool.and_eq_true, beq_iff_eq] at h
        exact hc ⟨h.1.1, h.1.2, h.2⟩
      simp only [hb, Bool.not_false, Bool.and_self, if_true]
      constructor
      · constructor
        · intro h; exact absurd h (by simp)
        · rintro (h | ⟨c2, c3, c1⟩)
          · exact absurd h (by simp)
          · exact absurd ⟨c1, c2, c3⟩ hc
      · intro r h
        exact absurd h (by simp)

/-- C24 witness: the node with keys 10, 20, 30 (magic 0xAB, version 1) loaded under
its own id in a debug build, and refused under another id. -/
theorem construct_load_spec_witness :
    leaf3.construct leaf3.node_id false true cfg4 true = some leaf3 ∧
    leaf3.construct 5 false true cfg4 true = none ∧
    ((leaf3.construct leaf3.node_id false true cfg4 true).isSome = true ↔
      (true = false ∨
        (leaf3.magic = 0xAB ∧ leaf3.version = 1 ∧ leaf3.node_id = leaf3.node_id))) :=
  ⟨rfl, rfl, (construct_load_spec leaf3 leaf3.node_id true cfg4 true).1⟩

end BtreeNode

namespace HomeLogStore

/-- After `k` calls of `append_async` on a store whose next_seq_num `s` is a 64-bit
value with `s + k` at most 2^63: `m_seq_num` is `s + k` as a 64-bit value, the
records `s .. s+k-1` are reserved, the other records are as they were. -/
theorem append_async_iterate_from (s : HomeLogStore) (k : Nat)
    (hlo : -9223372036854775808 ≤ s.m_seq_num) (hhi : s.m_seq_num ≤ 9223372036854775807)
    (hk : s.m_seq_num + k ≤ 9223372036854775808) :
    (append_async^[k] s).m_seq_num = wrap_i64 (s.m_seq_num + k) ∧
    ∀ i : Int, (append_async^[k] s).m_records.slots i =
      if s.m_seq_num ≤ i ∧ i < s.m_seq_num + k then some logstore_record.reserved
      else s.m_records.slots i := by
  revert hk
  induction k with
  | zero =>
    intro hk
    refine ⟨?_, fun i => ?_⟩
    · rw [wrap_i64_of_range _ (by omega) (by omega)]
      simp
    · rw [if_neg (show ¬ (s.m_seq_num ≤ i ∧ i < s.m_seq_num + ((0 : Nat) : Int)) by omega)]
      rfl
  | succ k ih =>
    intro hk
    rw [Function.iterate_succ_apply']
    have hk2 : s.m_seq_num + (k : Int) < 9223372036854775808 := by
      push_cast at hk
      omega
    obtain ⟨h1, h2⟩ := ih (by omega)
    rw [wrap_i64_of_range _ (by omega) hk2] at h1
    generalize append_async^[k] s = t at *
    refine ⟨?_, fun i => ?_⟩
    · show wrap_i64 (t.m_seq_num + 1) = wrap_i64 (s.m_seq_num + ((k + 1 : Nat) : Int))
      rw [h1]
      push_cast
      rw [Int.add_assoc]
    · show (if i = t.m_seq_num then some logstore_record.reserved else t.m_records.slots i) = _
      rw [h1, h2]
      by_cases hi : i = s.m_seq_num + (k : Int)
      · rw [if_pos hi,
          if_pos (show s.m_seq_num ≤ i ∧ i < s.m_seq_num + ((k + 1 : Nat) : Int) by
            push_cast; omega)]
      · rw [if_neg hi]
        by_cases hr : s.m_seq_num ≤ i ∧ i < s.m_seq_num + (k : Int)
        · rw [if_pos hr,
            if_pos (show s.m_seq_num ≤ i ∧ i < s.m_seq_num + ((k + 1 : Nat) : Int) by
              push_cast; omega)]
        · rw [if_neg hr,
            if_neg (show ¬ (s.m_seq_num ≤ i ∧ i < s.m_seq_num + ((k + 1 : Nat) : Int)) by
              push_cast; omega)]

/-- C25, as stated, fails where the 64-bit counter wraps: on a store whose
next_seq_num is `s` = 2^63 - 1, two `append_async` calls are assigned 2^63 - 1 and
then -2^63, not `s` and `s + 1`, and after one call next_seq_num is -2^63, not
`s + 1`. -/
theorem append_async_wrap_counterexample :
    store_seq_max.m_seq_num = 9223372036854775807 ∧
    store_seq_max.assigned_seq_nums 2 = [9223372036854775807, -9223372036854775808] ∧
    store_seq_max.assigned_seq_nums 2
      ≠ [store_seq_max.m_seq_num, store_seq_max.m_seq_num + 1] ∧
    (append_async^[1] store_seq_max).m_seq_num = -9223372036854775808 ∧
    (append_async^[1] store_seq_max).m_seq_num ≠ store_seq_max.m_seq_num + 1 := by
  refine ⟨by decide, by decide, by decide, by decide, by decide⟩

/-- C25 (amended): on a store whose next_seq_num `s` is a 64-bit value, `k`
successive `append_async` calls with `s + k <= 2^63` are assigned the seq_nums
`s, s+1, ..., s+k-1` in call order, each exactly once; a record is reserved at
each of them (the other records are as they were), and next_seq_num afterwards is
`s + k` when `s + k <= 2^63 - 1`, and -2^63 (the counter wrapped) when
`s + k = 2^63`. -/
theorem append_async_seq_nums (s : HomeLogStore) (k : Nat)
    (hlo : -9223372036854775808 ≤ s.m_seq_num) (hhi : s.m_seq_num ≤ 9223372036854775807)
    (hk : s.m_seq_num + k ≤ 9223372036854775808) :
    s.assigned_seq_nums k = (List.range k).map (fun (j : Nat) => s.m_seq_num + (j : Int)) ∧
    (s.assigned_seq_nums k).Nodup ∧
    (∀ j : Nat, j < k →
      (append_async^[k] s).m_records.slots (s.m_seq_num + j)
        = some logstore_record.reserved) ∧
    (∀ i : Int, ¬ (s.m_seq_num ≤ i ∧ i < s.m_seq_num + k) →
      (append_async^[k] s).m_records.slots i = s.m_records.slots i) ∧
    (s.m_seq_num + k ≤ 9223372036854775807 →
      (append_async^[k] s).m_seq_num = s.m_seq_num + k) ∧
    (s.m_seq_num + k = 9223372036854775808 →
      (append_async^[k] s).m_seq_num = -9223372036854775808) := by
  have hassigned : s.assigned_seq_nums k
      = (List.range k).map (fun (j : Nat) => s.m_seq_num + (j : Int)) := by
    unfold assigned_seq_nums
    apply List.map_congr_left
    intro j hj
    have hjk : j < k := List.mem_range.mp hj
    rw [(append_async_iterate_from s j hlo hhi (by omega)).1,
      wrap_i64_of_range _ (by omega) (by omega)]
  obtain ⟨h1, h2⟩ := append_async_iterate_from s k hlo hhi hk
  refine ⟨hassigned, ?_, ?_, ?_, ?_, ?_⟩
  · rw [hassigned]
    apply List.Nodup.map _ (List.nodup_range k)
    intro a b hab
    have : s.m_seq_num + (a : Int) = s.m_seq_num + (b : Int) := hab
    omega
  · intro j hj
    rw [h2, if_pos (by omega)]
  · intro i hi
    rw [h2, if_neg hi]
  · intro h
    rw [h1, wrap_i64_of_range _ (by omega) (by omega)]
  · intro h
    rw [h1, h]
    rfl

/-- C25 witness: three appends on the store whose next_seq_num is 31. -/
theorem append_async_seq_nums_witness :
    store3.assigned_seq_nums 3 = [31, 32, 33] ∧
    (append_async^[3] store3).m_seq_num = 34 ∧
    (store3.assigned_seq_nums 3).Nodup :=
  ⟨by decide, by decide,
    (append_async_seq_nums store3 3 (by decide) (by decide) (by decide)).2.1⟩

end HomeLogStore

namespace BtreeNode

variable {K V : Type}

/-- A key among the first `idx` keys of a node is the key of a slot below `idx`. -/
theorem mem_take_keys [Inhabited K] (n : BtreeNode K V) (idx : Nat) (a : K)
    (ha : a ∈ (n.entries.map Prod.fst).take idx) :
    ∃ i : Nat, i < idx ∧ i < n.entries.length ∧ n.get_nth_key i = a := by
  obtain ⟨i, hm, rfl⟩ := List.mem_take_iff_getElem.mp ha
  have hl : (n.entries.map Prod.fst).length = n.entries.length := List.length_map _ _
  have hi : i < (n.entries.map Prod.fst).length := by omega
  refine ⟨i, by omega, by omega, ?_⟩
  unfold get_nth_key
  rw [List.getD_eq_getElem _ _ hi]

/-- A key among the keys from `idx` on is the key of a slot at or above `idx`. -/
theorem mem_drop_keys [Inhabited K] (n : BtreeNode K V) (idx : Nat) (a : K)
    (ha : a ∈ (n.entries.map Prod.fst).drop idx) :
    ∃ i : Nat, idx ≤ i ∧ i < n.entries.length ∧ n.get_nth_key i = a := by
  obtain ⟨i, hm, rfl⟩ := List.mem_drop_iff_getElem.mp ha
  have hl : (n.entries.map Prod.fst).length = n.entries.length := List.length_map _ _
  have hi : idx + i < (n.entries.map Prod.fst).length := by omega
  refine ⟨idx + i, by omega, by omega, ?_⟩
  unfold get_nth_key
  rw [List.getD_eq_getElem _ _ hi]

/-- On a coherent node with strictly increasing keys `found` of `bsearch_node`
tells whether the key is present. -/
theorem bsearch_node_found_iff [LinearOrder K] [Inhabited K] (n : BtreeNode K V) (key : K)
    (hwf : n.wf) (hs : n.keys_increasing) :
    (n.bsearch_node key).1 = true ↔
      ∃ i : Nat, i < n.total_entries ∧ n.get_nth_key i = key := by
  obtain ⟨h1, h2, h3, h4, h5⟩ := n.bsearch_node_spec key hwf hs
  constructor
  · intro hf
    exact ⟨_, h4 hf⟩
  · rintro ⟨i, hi, hk⟩
    by_contra hf
    have hf2 : (n.bsearch_node key).1 = false := by simpa using hf
    rcases Nat.lt_trichotomy i (n.bsearch_node key).2 with h | h | h
    · have := h2 i h
      rw [hk] at this
      exact lt_irrefl _ this
    · have := h5 hf2 (by omega)
      rw [← h, hk] at this
      exact lt_irrefl _ this
    · have := h3 i h hi
      rw [hk] at this
      exact lt_irrefl _ this

/-- Keys below position `idx` are below `key`, keys from `idx + skip` on are above
it: the keys without those in between, with `mid` (nothing, or `key` itself) put
in their place, are strictly increasing. -/
theorem keys_splice_increasing [LinearOrder K] [Inhabited K] (n : BtreeNode K V)
    (hs : n.keys_increasing) (key : K) (idx skip : Nat) (mid : List K)
    (hmid : ∀ a ∈ mid, a = key) (hmid1 : mid.length ≤ 1)
    (hlo : ∀ i : Nat, i < idx → i < n.entries.length → n.get_nth_key i < key)
    (hhi : ∀ i : Nat, idx + skip ≤ i → i < n.entries.length → key < n.get_nth_key i) :
    ((n.entries.map Prod.fst).take idx ++ (mid ++ (n.entries.map Prod.fst).drop (idx + skip))).Pairwise
      (fun a b => a < b) := by
  unfold keys_increasing at hs
  have hlo2 : ∀ a ∈ (n.entries.map Prod.fst).take idx, a < key := by
    intro a ha
    obtain ⟨i, h1, h2, rfl⟩ := n.mem_take_keys idx a ha
    exact hlo i h1 h2
  have hhi2 : ∀ b ∈ (n.entries.map Prod.fst).drop (idx + skip), key < b := by
    intro b hb
    obtain ⟨i, h1, h2, rfl⟩ := n.mem_drop_keys (idx + skip) b hb
    exact hhi i h1 h2
  rw [List.pairwise_append]
  refine ⟨List.Pairwise.sublist (List.take_sublist _ _) hs, ?_, ?_⟩
  · rw [List.pairwise_append]
    refine ⟨?_, List.Pairwise.sublist (List.drop_sublist _ _) hs, ?_⟩
    · match mid, hmid1 with
      | [], _ => exact List.Pairwise.nil
      | [a], _ => exact List.pairwise_singleton _ _
      | a :: b :: t, h => simp at h
    · intro a ha b hb
      rw [hmid a ha]
      exact hhi2 b hb
  · intro a ha b hb
    rw [List.mem_append] at hb
    rcases hb with hb | hb
    · rw [hmid b hb]
      exact hlo2 a ha
    · exact lt_trans (hlo2 a ha) (hhi2 b hb)

/-- C26: key-based insert keeps the node ordered: on a coherent node with strictly
increasing keys that has room in its entry counter, for a key not present,
`insert(key, val)` returns success and yields a node whose keys are still strictly
increasing: the old entries, all of them and in their order, with `(key, val)` put
at the index that `find` returned, and nentries increased by one. -/
theorem insert_spec [LinearOrder K] [Inhabited K] (n : BtreeNode K V) (key : K) (val : V)
    (hwf : n.wf) (hs : n.keys_increasing)
    (hnot : ∀ i : Nat, i < n.total_entries → n.get_nth_key i ≠ key)
    (hroom : n.total_entries + 1 < 2 ^ 30) :
    (n.insert key val).1 = btree_status_t.success ∧
    (n.insert key val).2.keys_increasing ∧
    (n.insert key val).2.wf ∧
    (n.insert key val).2.total_entries = n.total_entries + 1 ∧
    (key, val) ∈ (n.insert key val).2.entries ∧
    (∀ e ∈ n.entries, e ∈ (n.insert key val).2.entries) ∧
    (n.insert key val).2.entries =
      n.entries.take (n.find key none).1.2 ++ (key, val) :: n.entries.drop (n.find key none).1.2 ∧
    (n.find key none).1.2 ≤ n.total_entries := by
  obtain ⟨h1, h2, h3, h4, h5⟩ := n.bsearch_node_spec key hwf hs
  have hfound : (n.bsearch_node key).1 = false := by
    cases hf : (n.bsearch_node key).1
    · rfl
    · obtain ⟨a, b⟩ := h4 hf
      exact absurd b (hnot _ a)
  have hidx : (n.find key none).1.2 = (n.bsearch_node key).2 := by rw [find_fst]
  have hwf2 : n.total_entries = n.entries.length := hwf
  have hent : (n.insert key val).2.entries =
      n.entries.take (n.find key none).1.2 ++
        (key, val) :: n.entries.drop (n.find key none).1.2 := rfl
  have htot : (n.insert key val).2.total_entries = n.total_entries + 1 := by
    show (n.hdr.nentries % 2 ^ 30 + 1) % 2 ^ 30 % 2 ^ 30 = n.hdr.nentries % 2 ^ 30 + 1
    have : n.total_entries = n.hdr.nentries % 2 ^ 30 := rfl
    omega
  refine ⟨rfl, ?_, ?_, htot, ?_, ?_, hent, by rw [hidx]; exact h1⟩
  · unfold keys_increasing
    rw [hent, hidx, List.map_append, List.map_cons, List.map_take, List.map_drop]
    have := n.keys_splice_increasing hs key (n.bsearch_node key).2 0 [key]
      (by intro a ha; simpa using ha) (by simp)
      (fun i hi _ => h2 i hi)
      (fun i hi hil => by
        rcases Nat.eq_or_lt_of_le hi with h | h
        · rw [Nat.add_zero] at h
          rw [← h]
          exact h5 hfound (by omega)
        · exact h3 i (by omega) (by omega))
    simpa using this
  · show (n.insert key val).2.total_entries = (n.insert key val).2.entries.length
    rw [htot, hent, hidx, List.length_append, List.length_cons, List.length_take,
      List.length_drop]
    omega
  · rw [hent]
    simp
  · intro e he
    rw [hent]
    have hsplit := List.take_append_drop (n.find key none).1.2 n.entries
    rw [← hsplit] at he
    rw [List.mem_append] at he ⊢
    rcases he with he | he
    · left; exact he
    · right; exact List.mem_cons_of_mem _ he

/-- C26 witness: key 25 into the leaf with keys 10, 20, 30. -/
theorem insert_spec_witness :
    (leaf3.insert 25 9).2.entries = [(10, 1), (20, 2), (25, 9), (30, 3)] ∧
    (leaf3.insert 25 9).2.total_entries = 4 ∧
    (leaf3.insert 25 9).2.keys_increasing :=
  ⟨by decide, by decide,
    (insert_spec leaf3 25 9 (by decide) (by unfold keys_increasing; decide) (by decide)
      (by decide)).2.1⟩

/-- The entry of a slot below the entry count, by its key. -/
theorem entry_at [Inhabited K] (n : BtreeNode K V) (idx : Nat) (hidx : idx < n.entries.length) :
    ∃ v : V, n.entries[idx]? = some (n.get_nth_key idx, v) := by
  refine ⟨(n.entries[idx]).2, ?_⟩
  rw [List.getElem?_eq_getElem hidx]
  have hi : idx < (n.entries.map Prod.fst).length := by rw [List.length_map]; exact hidx
  have hk : n.get_nth_key idx = (n.entries[idx]).1 := by
    unfold get_nth_key
    rw [List.getD_eq_getElem _ _ hi, List.getElem_map]
  rw [hk]

/-- What `find` leaves in `outval` when it stops on a stored entry. -/
theorem find_outval_at [LinearOrder K] [Inhabited K] (n : BtreeNode K V) (key : K)
    (outval : Option (BtreeValue V)) (e : K × V)
    (hlt : (n.bsearch_node key).2 < n.total_entries)
    (he : n.entries[(n.bsearch_node key).2]? = some e) :
    (n.find key outval).2 = outval.map (fun _ => BtreeValue.value e.2) := by
  unfold find
  simp only []
  rw [if_neg (by omega)]
  cases outval with
  | none => rfl
  | some old =>
    show some (n.get_nth_value (n.bsearch_node key).2 old) = some (BtreeValue.value e.2)
    unfold get_nth_value
    rw [he]

/-- The node that `remove(idx)` leaves when slot `idx` holds `key` on a coherent node
with strictly increasing keys: coherent, one entry fewer, keys strictly
increasing, and `key` no longer found. -/
theorem remove_at_key [LinearOrder K] [Inhabited K] (n : BtreeNode K V) (key : K) (idx : Nat)
    (hwf : n.wf) (hs : n.keys_increasing) (hidx : idx < n.total_entries)
    (hkey : n.get_nth_key idx = key) :
    (n.remove idx).entries = n.entries.take idx ++ n.entries.drop (idx + 1) ∧
    (n.remove idx).total_entries = n.total_entries - 1 ∧
    (n.remove idx).wf ∧ (n.remove idx).keys_increasing ∧
    ((n.remove idx).find key none).1.1 = false := by
  have hwf2 : n.total_entries = n.entries.length := hwf
  have hn := n.total_entries_lt
  have hent : (n.remove idx).entries = n.entries.take idx ++ n.entries.drop (idx + 1) := rfl
  have htot : (n.remove idx).total_entries = n.total_entries - 1 := by
    show (n.hdr.nentries % 2 ^ 30 + 2 ^ 30 - (idx + 1 - idx) % 2 ^ 30) % 2 ^ 30 % 2 ^ 30
      = n.hdr.nentries % 2 ^ 30 - 1
    have : n.total_entries = n.hdr.nentries % 2 ^ 30 := rfl
    have h1 : idx + 1 - idx = 1 := by omega
    rw [h1]
    omega
  have hwfr : (n.remove idx).wf := by
    show (n.remove idx).total_entries = (n.remove idx).entries.length
    rw [htot, hent, List.length_append, List.length_take, List.length_drop]
    omega
  have hlo : ∀ i : Nat, i < idx → i < n.entries.length → n.get_nth_key i < key := by
    intro i hi _
    rw [← hkey]
    exact n.get_nth_key_lt hs i idx hi (by omega)
  have hhi : ∀ i : Nat, idx + 1 ≤ i → i < n.entries.length → key < n.get_nth_key i := by
    intro i hi hil
    rw [← hkey]
    exact n.get_nth_key_lt hs idx i (by omega) hil
  have hkeys : (n.remove idx).entries.map Prod.fst =
      (n.entries.map Prod.fst).take idx ++ (n.entries.map Prod.fst).drop (idx + 1) := by
    rw [hent, List.map_append, List.map_take, List.map_drop]
  have hsr : (n.remove idx).keys_increasing := by
    unfold keys_increasing
    rw [hkeys]
    have := n.keys_splice_increasing hs key idx 1 [] (by intro a ha; simp at ha) (by simp)
      hlo hhi
    simpa using this
  refine ⟨hent, htot, hwfr, hsr, ?_⟩
  rw [find_fst]
  cases hf : ((n.remove idx).bsearch_node key).1
  · rfl
  · exfalso
    obtain ⟨i, hi, hk⟩ := ((n.remove idx).bsearch_node_found_iff key hwfr hsr).mp hf
    have hil : i < ((n.remove idx).entries.map Prod.fst).length := by
      rw [List.length_map]
      have : (n.remove idx).total_entries = (n.remove idx).entries.length := hwfr
      omega
    have hmem : key ∈ (n.remove idx).entries.map Prod.fst := by
      rw [← hk]
      unfold get_nth_key
      rw [List.getD_eq_getElem _ _ hil]
      exact List.getElem_mem hil
    rw [hkeys, List.mem_append] at hmem
    rcases hmem with hm | hm
    · obtain ⟨j, h1, h2, h3⟩ := n.mem_take_keys idx key hm
      have := hlo j h1 h2
      rw [h3] at this
      exact lt_irrefl _ this
    · obtain ⟨j, h1, h2, h3⟩ := n.mem_drop_keys (idx + 1) key hm
      have := hhi j h1 h2
      rw [h3] at this
      exact lt_irrefl _ this

/-- C27: on a coherent node with strictly increasing keys `remove_one(key)` returns
true if and only if the key is present.  When it returns true exactly the entry of
that key is taken out, the others kept in their order, so that a following
`find(key)` reports not found; a supplied `outval` holds the removed value and a
supplied `outkey` the key.  When it returns false the node is unchanged. -/
theorem remove_one_spec [LinearOrder K] [Inhabited K] (n : BtreeNode K V) (key : K)
    (outkey : Option K) (outval : Option (BtreeValue V))
    (hwf : n.wf) (hs : n.keys_increasing) :
    ((n.remove_one key outkey outval).1 = true ↔
      ∃ i : Nat, i < n.total_entries ∧ n.get_nth_key i = key) ∧
    ((n.remove_one key outkey outval).1 = true →
      ∃ (idx : Nat) (v : V), idx < n.total_entries ∧ n.entries[idx]? = some (key, v) ∧
        (n.remove_one key outkey outval).2.1.entries
          = n.entries.take idx ++ n.entries.drop (idx + 1) ∧
        (n.remove_one key outkey outval).2.1.total_entries = n.total_entries - 1 ∧
        (n.remove_one key outkey outval).2.1.wf ∧
        (n.remove_one key outkey outval).2.1.keys_increasing ∧
        ((n.remove_one key outkey outval).2.1.find key none).1.1 = false ∧
        (n.remove_one key outkey outval).2.2.2 = outval.map (fun _ => BtreeValue.value v) ∧
        (n.remove_one key outkey outval).2.2.1 = outkey.map (fun _ => key)) ∧
    ((n.remove_one key outkey outval).1 = false →
      (n.remove_one key outkey outval).2.1 = n) := by
  have hwf2 : n.total_entries = n.entries.length := hwf
  have hiff := n.bsearch_node_found_iff key hwf hs
  obtain ⟨_, _, _, h4, _⟩ := n.bsearch_node_spec key hwf hs
  have hfst : (n.find key outval).1 = n.bsearch_node key := find_fst n key outval
  cases hf : (n.bsearch_node key).1
  · have hR : n.remove_one key outkey outval = (false, n, outkey, (n.find key outval).2) := by
      unfold remove_one
      simp only [hfst, hf, Bool.false_eq_true, if_false]
    rw [hR]
    refine ⟨?_, ?_, fun _ => rfl⟩
    · rw [← hiff, hf]
    · intro h; exact absurd h (by simp)
  · have hR : n.remove_one key outkey outval =
        (true, n.remove (n.bsearch_node key).2,
          outkey.map (fun _ => n.get_nth_key (n.bsearch_node key).2), (n.find key outval).2) := by
      unfold remove_one
      simp only [hfst, hf, if_true]
    obtain ⟨hlt, hk⟩ := h4 hf
    obtain ⟨v, hv⟩ := n.entry_at (n.bsearch_node key).2 (by omega)
    obtain ⟨r1, r2, r3, r4, r5⟩ := n.remove_at_key key _ hwf hs hlt hk
    rw [hR]
    refine ⟨?_, ?_, fun h => absurd h (by simp)⟩
    · rw [← hiff, hf]
    · intro _
      refine ⟨(n.bsearch_node key).2, v, hlt, by rw [hv, hk], r1, r2, r3, r4, r5, ?_, ?_⟩
      · exact n.find_outval_at key outval _ hlt hv
      · show outkey.map (fun _ => n.get_nth_key (n.bsearch_node key).2) = _
        rw [hk]

/-- C27 witness: key 20 removed from the leaf with keys 10, 20, 30. -/
theorem remove_one_spec_witness :
    (leaf3.remove_one 20 (some 0) (some (BtreeValue.value 0))).1 = true ∧
    (leaf3.remove_one 20 (some 0) (some (BtreeValue.value 0))).2.1.entries
      = [(10, 1), (30, 3)] ∧
    (leaf3.remove_one 20 (some 0) (some (BtreeValue.value 0))).2.2
      = (some 20, some (BtreeValue.value 2)) ∧
    (leaf3.remove_one 25 none none).1 = false ∧
    ((leaf3.remove_one 20 (some 0) (some (BtreeValue.value 0))).1 = true ↔
      ∃ i : Nat, i < leaf3.total_entries ∧ leaf3.get_nth_key i = 20) :=
  ⟨by decide, by decide, by decide, by decide,
    (remove_one_spec leaf3 20 (some 0) (some (BtreeValue.value 0)) (by decide)
      (by unfold keys_increasing; decide)).1⟩

/-- C28 (amended): on a coherent node with strictly increasing keys `update_one`
returns true if and only if the key is present; then the slot of the key holds
`val`, every other slot is kept, and a supplied `outval` holds the value the slot
held before the update, the value that was replaced (`find` copies it out before
`update` runs, as `remove_one` does for the value it removes); when it returns
false the node is unchanged. -/
theorem update_one_previous_value [LinearOrder K] [Inhabited K] (n : BtreeNode K V) (key : K)
    (val : V) (outval : Option (BtreeValue V)) (hwf : n.wf) (hs : n.keys_increasing) :
    ((n.update_one key val outval).1 = true ↔
      ∃ i : Nat, i < n.total_entries ∧ n.get_nth_key i = key) ∧
    ((n.update_one key val outval).1 = true →
      ∃ (idx : Nat) (v : V), idx < n.total_entries ∧ n.entries[idx]? = some (key, v) ∧
        (n.update_one key val outval).2.1.entries = n.entries.set idx (key, val) ∧
        (n.update_one key val outval).2.1.hdr = n.hdr ∧
        (n.update_one key val outval).2.2 = outval.map (fun _ => BtreeValue.value v)) ∧
    ((n.update_one key val outval).1 = false → (n.update_one key val outval).2.1 = n) := by
  have hwf2 : n.total_entries = n.entries.length := hwf
  have hiff := n.bsearch_node_found_iff key hwf hs
  obtain ⟨_, _, _, h4, _⟩ := n.bsearch_node_spec key hwf hs
  have hfst : (n.find key outval).1 = n.bsearch_node key := find_fst n key outval
  cases hf : (n.bsearch_node key).1
  · have hR : n.update_one key val outval = (false, n, (n.find key outval).2) := by
      unfold update_one
      simp only [hfst, hf, Bool.false_eq_true, if_false]
    rw [hR]
    refine ⟨?_, ?_, fun _ => rfl⟩
    · rw [← hiff, hf]
    · intro h; exact absurd h (by simp)
  · have hR : n.update_one key val outval =
        (true, n.update (n.bsearch_node key).2 val, (n.find key outval).2) := by
      unfold update_one
      simp only [hfst, hf, if_true]
    obtain ⟨hlt, hk⟩ := h4 hf
    obtain ⟨v, hv⟩ := n.entry_at (n.bsearch_node key).2 (by omega)
    rw [hk] at hv
    have hupd : n.update (n.bsearch_node key).2 val =
        { n with entries := n.entries.set (n.bsearch_node key).2 (key, val) } := by
      unfold update
      rw [hv]
    rw [hR]
    refine ⟨?_, ?_, fun h => absurd h (by simp)⟩
    · rw [← hiff, hf]
    · intro _
      refine ⟨(n.bsearch_node key).2, v, hlt, hv, ?_, ?_, ?_⟩
      · show (n.update (n.bsearch_node key).2 val).entries = _
        rw [hupd]
      · show (n.update (n.bsearch_node key).2 val).hdr = _
        rw [hupd]
      · exact n.find_outval_at key outval _ hlt hv

/-- C28, as stated, fails: on the leaf with entries (10, 1), (20, 2), (30, 3) the
call `update_one(20, 99, outval)` returns true and stores 99 for the key 20, but
leaves in `outval` the value 2 that the key held before the update, not the value
99 now stored for it. -/
theorem update_one_outval_is_old_value :
    (leaf3.update_one 20 99 (some (BtreeValue.value 0))).1 = true ∧
    (leaf3.update_one 20 99 (some (BtreeValue.value 0))).2.1.entries
      = [(10, 1), (20, 99), (30, 3)] ∧
    (leaf3.update_one 20 99 (some (BtreeValue.value 0))).2.2 = some (BtreeValue.value 2) ∧
    (leaf3.update_one 20 99 (some (BtreeValue.value 0))).2.2 ≠ some (BtreeValue.value 99) := by
  refine ⟨by decide, by decide, by decide, by decide⟩

/-- C28 witness: the value of key 20 replaced by 99 on the leaf with keys 10, 20,
30; `outval` comes back with the replaced value 2. -/
theorem update_one_previous_value_witness :
    (leaf3.update_one 20 99 (some (BtreeValue.value 0))).2.2 = some (BtreeValue.value 2) ∧
    (leaf3.update_one 25 99 none).1 = false ∧
    ((leaf3.update_one 20 99 (some (BtreeValue.value 0))).1 = true ↔
      ∃ i : Nat, i < leaf3.total_entries ∧ leaf3.get_nth_key i = 20) :=
  ⟨by decide, by decide,
    (update_one_previous_value leaf3 20 99 (some (BtreeValue.value 0)) (by decide)
      (by unfold keys_increasing; decide)).1⟩

end BtreeNode

namespace HomeLogStoreMgr

/-- C29 (as stated, refuted): with `dry_run = false` on three stores `device_truncate`
returns the key {3, 64} and makes no request to the log device, so the device is
not asked to truncate up to the returned key. -/
theorem device_truncate_push_counterexample :
    (mgr_three.device_truncate_calls false).1 = ⟨3, 64⟩ ∧
    (mgr_three.device_truncate_calls false).2 = [] ∧
    LogDevCall.truncate (mgr_three.device_truncate_calls false).1
      ∉ (mgr_three.device_truncate_calls false).2 := by
  refine ⟨by decide, rfl, ?_⟩
  show LogDevCall.truncate _ ∉ ([] : List LogDevCall)
  exact List.not_mem_nil _

/-- C29 (amended): `device_truncate(dry_run)` makes no request to the log device
for either value of `dry_run`, and the key it returns is the same for both: the
running minimum of the stores (by `idx`) from `out_of_bound_ld_key`. -/
theorem device_truncate_no_push (m : HomeLogStoreMgr) (dry_run : Bool) :
    (m.device_truncate_calls dry_run).2 = [] ∧
    (m.device_truncate_calls dry_run).1 = m.device_truncate dry_run ∧
    (m.device_truncate_calls true).1 = (m.device_truncate_calls false).1 ∧
    m.device_truncate true = m.device_truncate false :=
  ⟨rfl, rfl, rfl, rfl⟩

end HomeLogStoreMgr

namespace BtreeNode

variable {K V : Type}

/-- On an interior node with a valid edge `match_range` always answers true: it
reports the adjusted start index twice when that index is the entry count, and
otherwise the adjusted start index with the index `bsearch_node` gives for the end
key. -/
theorem match_range_interior_eval [LinearOrder K] [Inhabited K] (n : BtreeNode K V)
    (range : BtreeKeyRange K) (hint : n.is_leaf = false) (hedge : n.has_valid_edge = true)
    (S : Nat)
    (hS : S = (if (n.bsearch_node range.start_key).1 && !range.is_start_inclusive then
      ((n.bsearch_node range.start_key).2 + 1) % 4294967296
      else (n.bsearch_node range.start_key).2)) :
    n.match_range range =
      (true, S, if S = n.total_entries then S else (n.bsearch_node range.end_key).2) := by
  unfold match_range
  simp only []
  rw [← hS]
  by_cases h : S = n.total_entries
  · rw [if_pos h, if_pos h, hint, hedge]
    rfl
  · rw [if_neg h, if_neg h, hint, hedge]
    simp

/-- C30: on a coherent interior node with strictly increasing keys and a valid edge,
for a range whose start key is below its end key, `match_range` returns true with
`start_idx ≤ end_idx ≤ nentries`, and every child slot that covers a key of the
range lies in `[start_idx, end_idx]`; slot `i` covers the keys in
`(key[i-1], key[i]]` and slot `nentries`, the edge, the keys above the last key. -/
theorem match_range_interior_cover [LinearOrder K] [Inhabited K] (n : BtreeNode K V)
    (range : BtreeKeyRange K) (hwf : n.wf) (hs : n.keys_increasing)
    (hint : n.is_leaf = false) (hedge : n.has_valid_edge = true)
    (hlt : range.start_key < range.end_key) :
    (n.match_range range).1 = true ∧
    (n.match_range range).2.1 ≤ (n.match_range range).2.2 ∧
    (n.match_range range).2.2 ≤ n.total_entries ∧
    ∀ k : K, in_range range k → ∀ i : Nat, n.slot_covers i k →
      (n.match_range range).2.1 ≤ i ∧ i ≤ (n.match_range range).2.2 := by
  obtain ⟨hSle, hSiff⟩ :=
    n.match_range_start_spec range.start_key range.is_start_inclusive hwf hs
  obtain ⟨e1, _, e3, e4, e5⟩ := n.bsearch_node_spec range.end_key hwf hs
  have hev := n.match_range_interior_eval range hint hedge _ rfl
  generalize hSdef : (if (n.bsearch_node range.start_key).1 && !range.is_start_inclusive then
      ((n.bsearch_node range.start_key).2 + 1) % 4294967296
      else (n.bsearch_node range.start_key).2) = S at hSle hSiff hev
  generalize hEdef : (n.bsearch_node range.end_key).2 = E at e1 e3 e4 e5 hev
  have hEkey : E < n.total_entries → range.end_key ≤ n.get_nth_key E := by
    intro hE
    cases hf : (n.bsearch_node range.end_key).1
    · exact le_of_lt (e5 hf hE)
    · exact le_of_eq (e4 hf).2.symm
  have hlow : ∀ x : K, range.end_key ≤ x →
      (if range.is_start_inclusive = true then range.start_key ≤ x else range.start_key < x) := by
    intro x hx
    have : range.start_key < x := lt_of_lt_of_le hlt hx
    split
    · exact le_of_lt this
    · exact this
  have hSE : S ≠ n.total_entries → S ≤ E := by
    intro hne
    by_contra hcon
    have hE : E < n.total_entries := by omega
    have := (hSiff E hE).mpr (hlow _ (hEkey hE))
    omega
  rw [hev]
  refine ⟨rfl, ?_, ?_, ?_⟩
  · show S ≤ (if S = n.total_entries then S else E)
    by_cases h : S = n.total_entries
    · rw [if_pos h]
    · rw [if_neg h]; exact hSE h
  · show (if S = n.total_entries then S else E) ≤ n.total_entries
    by_cases h : S = n.total_entries
    · rw [if_pos h]; exact hSle
    · rw [if_neg h]; exact e1
  · intro k hk i hc
    obtain ⟨hi, hprev, hnext⟩ := hc
    obtain ⟨hk1, hk2⟩ := hk
    have hkend : k ≤ range.end_key := by
      split at hk2
      · exact hk2
      · exact le_of_lt hk2
    constructor
    · show S ≤ i
      by_cases hit : i < n.total_entries
      · apply (hSiff i hit).mpr
        have hki := hnext hit
        split
        · rename_i hinc
          rw [if_pos hinc] at hk1
          exact le_trans hk1 hki
        · rename_i hinc
          rw [if_neg hinc] at hk1
          exact lt_of_lt_of_le hk1 hki
      · omega
    · show i ≤ (if S = n.total_entries then S else E)
      by_cases h : S = n.total_entries
      · rw [if_pos h, h]; exact hi
      · rw [if_neg h]
        by_contra hcon
        have hi0 : 0 < i := by omega
        have hpk : n.get_nth_key (i - 1) < range.end_key := lt_of_lt_of_le (hprev hi0) hkend
        by_cases hEq : E = i - 1
        · have := hEkey (by omega)
          rw [hEq] at this
          exact absurd hpk (not_lt.mpr this)
        · have := e3 (i - 1) (by omega) (by omega)
          exact absurd hpk (not_lt.mpr (le_of_lt this))

/-- C30 witness: the interior node with keys 10, 20, 30 and a valid edge, range
[15, 25]: slots 1 and 2 are reported. -/
theorem match_range_interior_cover_witness :
    interior3.match_range ⟨15, 25, true, true⟩ = (true, 1, 2) ∧
    interior3.match_range ⟨30, 40, false, true⟩ = (true, 3, 3) ∧
    ((interior3.match_range ⟨15, 25, true, true⟩).1 = true ∧
      (interior3.match_range ⟨15, 25, true, true⟩).2.1
        ≤ (interior3.match_range ⟨15, 25, true, true⟩).2.2 ∧
      (interior3.match_range ⟨15, 25, true, true⟩).2.2 ≤ interior3.total_entries ∧
      ∀ k : Int, in_range ⟨15, 25, true, true⟩ k → ∀ i : Nat, interior3.slot_covers i k →
        (interior3.match_range ⟨15, 25, true, true⟩).2.1 ≤ i ∧
        i ≤ (interior3.match_range ⟨15, 25, true, true⟩).2.2) :=
  ⟨by decide, by decide,
    match_range_interior_cover interior3 ⟨15, 25, true, true⟩ (by decide)
      (by unfold keys_increasing; decide) (by decide) (by decide) (by decide)⟩

/-- The loop of `get_adjacent_indicies` from an index `i` at most `nentries`, with
fuel above the room left in the list: it appends the run of consecutive indices
from `i` whose length `adjacent_run_length` gives. -/
theorem get_adjacent_indicies_loop_spec (n : BtreeNode K V) (max_indices end_ind : Nat) :
    ∀ (fuel i : Nat) (l : List Nat), i ≤ n.total_entries → max_indices - l.length < fuel →
      n.get_adjacent_indicies_loop max_indices end_ind fuel i l =
        l ++ List.range' i
          (n.adjacent_run_length (max_indices - l.length) (end_ind + 1 - i) i) := by
  have hn := n.total_entries_lt
  intro fuel
  induction fuel with
  | zero => intro i l _ h; omega
  | succ fuel ih =>
    intro i l hi hfuel
    rw [get_adjacent_indicies_loop]
    by_cases hc : i ≤ end_ind ∧ l.length < max_indices
    · rw [if_pos hc]
      by_cases hit : i = n.total_entries
      · rw [if_pos hit]
        have hcnt : n.adjacent_run_length (max_indices - l.length) (end_ind + 1 - i) i
            = (if n.has_valid_edge then 1 else 0) := by
          unfold adjacent_run_length
          rw [if_pos (by rw [hit]; omega)]
          omega
        rw [hcnt]
        cases n.has_valid_edge
        · simp
        · simp
      · rw [if_neg hit]
        have hmod : (i + 1) % 4294967296 = i + 1 := by omega
        rw [hmod, ih (i + 1) (l ++ [i]) (by omega)
          (by rw [List.length_append, List.length_singleton]; omega)]
        have hcnt : n.adjacent_run_length (max_indices - l.length) (end_ind + 1 - i) i
            = n.adjacent_run_length (max_indices - (l ++ [i]).length)
                (end_ind + 1 - (i + 1)) (i + 1) + 1 := by
          rw [List.length_append, List.length_singleton]
          unfold adjacent_run_length
          generalize (if n.has_valid_edge = true then 1 else 0) = E
          by_cases h1 : n.total_entries - i < min (max_indices - l.length) (end_ind + 1 - i)
          · rw [if_pos h1, if_pos (by omega)]
            omega
          · rw [if_neg h1, if_neg (by omega)]
            omega
        rw [hcnt, List.range'_succ, List.append_assoc]
        rfl
    · rw [if_neg hc]
      have hcnt : n.adjacent_run_length (max_indices - l.length) (end_ind + 1 - i) i = 0 := by
        unfold adjacent_run_length
        have : min (max_indices - l.length) (end_ind + 1 - i) = 0 := by omega
        rw [this, if_neg (by omega)]
      rw [hcnt]
      simp

/-- The window of `get_adjacent_indicies` for `1 <= max_indices < 2^32` and
`cur_ind < nentries`: it starts `(max_indices + 1) / 2 - 1` below `cur_ind`, or at
0 when `cur_ind` is smaller than that, and spans `max_indices` indices; none of
the `uint32_t` operations wraps. -/
theorem get_adjacent_indicies_window (n : BtreeNode K V) (cur_ind max_indices : Nat)
    (l : List Nat) (hcur : cur_ind < n.total_entries) (h1 : 1 ≤ max_indices)
    (h2 : max_indices < 4294967296) :
    n.get_adjacent_indicies cur_ind l max_indices =
      n.get_adjacent_indicies_loop max_indices
        (cur_ind - ((max_indices + 1) / 2 - 1) + max_indices - 1) (max_indices + 1)
        (cur_ind - ((max_indices + 1) / 2 - 1)) l := by
  have hn := n.total_entries_lt
  unfold get_adjacent_indicies
  simp only []
  have hmax : ((max_indices / 2 + 4294967296 - 1) % 4294967296 + max_indices % 2) % 4294967296
      = (max_indices + 1) / 2 - 1 := by omega
  rw [hmax]
  by_cases hlt : cur_ind < (max_indices + 1) / 2 - 1
  · rw [if_pos hlt, if_pos hlt]
    have he : ((cur_ind + max_indices / 2) % 4294967296 + ((max_indices + 1) / 2 - 1 - cur_ind))
        % 4294967296 = cur_ind - ((max_indices + 1) / 2 - 1) + max_indices - 1 := by omega
    have hs : cur_ind - ((max_indices + 1) / 2 - 1) = 0 := by omega
    rw [he, hs]
  · rw [if_neg hlt, if_neg hlt]
    have he : (cur_ind + max_indices / 2) % 4294967296
        = cur_ind - ((max_indices + 1) / 2 - 1) + max_indices - 1 := by omega
    rw [he]

/-- C31: for `cur_ind < nentries` and `1 <= max_indices < 2^32`,
`get_adjacent_indicies` called with an empty list produces a run of consecutive
ascending indices, from `cur_ind - ((max_indices + 1) / 2 - 1)` (0 when that is
negative), which contains `cur_ind`, has at most `max_indices` elements, none
above `nentries`, and holds `nentries` only when the node has a valid edge; when
the window of `max_indices` indices does not reach `nentries` the run has exactly
`max_indices` elements, otherwise it stops at `nentries - 1`, or at `nentries`
with a valid edge. -/
theorem get_adjacent_indicies_spec (n : BtreeNode K V) (cur_ind max_indices : Nat)
    (hcur : cur_ind < n.total_entries) (h1 : 1 ≤ max_indices)
    (h2 : max_indices < 4294967296) :
    n.get_adjacent_indicies cur_ind [] max_indices =
      List.range' (cur_ind - ((max_indices + 1) / 2 - 1))
        (n.get_adjacent_indicies cur_ind [] max_indices).length ∧
    cur_ind ∈ n.get_adjacent_indicies cur_ind [] max_indices ∧
    (n.get_adjacent_indicies cur_ind [] max_indices).length ≤ max_indices ∧
    (∀ x ∈ n.get_adjacent_indicies cur_ind [] max_indices, x ≤ n.total_entries) ∧
    (n.total_entries ∈ n.get_adjacent_indicies cur_ind [] max_indices →
      n.has_valid_edge = true) ∧
    (cur_ind - ((max_indices + 1) / 2 - 1) + max_indices ≤ n.total_entries →
      (n.get_adjacent_indicies cur_ind [] max_indices).length = max_indices) ∧
    (n.total_entries < cur_ind - ((max_indices + 1) / 2 - 1) + max_indices →
      (n.get_adjacent_indicies cur_ind [] max_indices).length =
        n.total_entries - (cur_ind - ((max_indices + 1) / 2 - 1))
          + (if n.has_valid_edge then 1 else 0)) := by
  have hn := n.total_entries_lt
  have hrun := n.get_adjacent_indicies_loop_spec max_indices
    (cur_ind - ((max_indices + 1) / 2 - 1) + max_indices - 1) (max_indices + 1)
    (cur_ind - ((max_indices + 1) / 2 - 1)) [] (by omega)
    (by rw [List.length_nil]; omega)
  rw [← n.get_adjacent_indicies_window cur_ind max_indices [] hcur h1 h2, List.nil_append,
    List.length_nil] at hrun
  have hlen : (n.get_adjacent_indicies cur_ind [] max_indices).length =
      if n.total_entries - (cur_ind - ((max_indices + 1) / 2 - 1)) < max_indices then
        n.total_entries - (cur_ind - ((max_indices + 1) / 2 - 1))
          + (if n.has_valid_edge then 1 else 0)
      else max_indices := by
    rw [hrun, List.length_range']
    unfold adjacent_run_length
    have hmin : min (max_indices - 0) (cur_ind - ((max_indices + 1) / 2 - 1) + max_indices - 1
        + 1 - (cur_ind - ((max_indices + 1) / 2 - 1))) = max_indices := by omega
    rw [hmin]
  generalize hS : cur_ind - ((max_indices + 1) / 2 - 1) = S at hrun hlen
  have hSle : S ≤ cur_ind := by omega
  have hScur : cur_ind < S + max_indices := by omega
  generalize hE : (if n.has_valid_edge = true then 1 else 0) = E at hlen
  have hE1 : E ≤ 1 := by
    rw [← hE]; split <;> omega
  have hE0 : 1 ≤ E → n.has_valid_edge = true := by
    intro h
    cases hv : n.has_valid_edge
    · rw [hv] at hE; simp at hE; omega
    · rfl
  generalize hr : n.get_adjacent_indicies cur_ind [] max_indices = r at hrun hlen
  have hr2 : r = List.range' S r.length := by
    have h := hrun
    rw [← List.length_range' S 1 (n.adjacent_run_length (max_indices - 0)
      (S + max_indices - 1 + 1 - S) S), ← hrun] at h
    exact h
  have hmem : ∀ x : Nat, x ∈ r ↔ S ≤ x ∧ x < S + r.length := by
    intro x
    nth_rewrite 1 [hr2]
    exact List.mem_range'_1
  by_cases hw : n.total_entries - S < max_indices
  · rw [if_pos hw] at hlen
    refine ⟨hr2, (hmem _).mpr (by omega), by omega, ?_, ?_, by omega, fun _ => hlen⟩
    · intro x hx
      have := (hmem x).mp hx
      omega
    · intro hx
      have := (hmem _).mp hx
      exact hE0 (by omega)
  · rw [if_neg hw] at hlen
    refine ⟨hr2, (hmem _).mpr (by omega), by omega, ?_, ?_, fun _ => hlen, by omega⟩
    · intro x hx
      have := (hmem x).mp hx
      omega
    · intro hx
      have := (hmem _).mp hx
      omega

/-- C31 witness: three indices around slot 1 of the leaf with three entries give
0, 1, 2; around slot 2 the window meets `nentries` = 3, which only the interior
node with a valid edge reports. -/
theorem get_adjacent_indicies_spec_witness :
    leaf3.get_adjacent_indicies 1 [] 3 = [0, 1, 2] ∧
    leaf3.get_adjacent_indicies 2 [] 3 = [1, 2] ∧
    interior3.get_adjacent_indicies 2 [] 3 = [1, 2, 3] ∧
    interior3.get_adjacent_indicies 0 [] 4 = [0, 1, 2, 3] ∧
    (interior3.get_adjacent_indicies 2 [] 3).length ≤ 3 :=
  ⟨by decide, by decide, by decide, by decide,
    (get_adjacent_indicies_spec interior3 2 3 (by decide) (by decide) (by decide)).2.2.1⟩

end BtreeNode

namespace HomeLogStore

/-- The loop of `search_max_le` from `start = -1` on a list, sorted or not, whose
barriers are all above `input_sn`: every probe moves `end` down, and the loop
returns -1. -/
theorem search_max_le_loop_all_above (bs : List TruncationBarrier) (input_sn : Int)
    (h : ∀ b ∈ bs, input_sn < b.seq_num) :
    ∀ (fuel : Nat) (e : Int), 0 ≤ e → e ≤ bs.length → e + 1 ≤ fuel →
      search_max_le_loop bs input_sn fuel (-1) e = -1 := by
  intro fuel
  induction fuel with
  | zero => intro e h0 _ hf; omega
  | succ fuel ih =>
    intro e h0 hlen hf
    rw [search_max_le_loop]
    by_cases hw : e - -1 > 1
    · rw [if_pos hw]
      simp only []
      have hmid0 : 0 ≤ -1 + (e - -1) / 2 := by omega
      have hmidlt : -1 + (e - -1) / 2 < e := by omega
      have hidx : (-1 + (e - -1) / 2).toNat < bs.length := by omega
      have hmem : bs.getD (-1 + (e - -1) / 2).toNat default ∈ bs := by
        rw [List.getD_eq_getElem _ _ hidx]
        exact List.getElem_mem hidx
      have hgt := h _ hmem
      rw [if_neg (by omega), if_pos (by omega)]
      exact ih _ hmid0 (by omega) (by omega)
    · rw [if_neg hw]
      omega

/-- C32: if no barrier has seq_num at most `upto_seq` (so also with no barrier at
all, or with `upto_seq` below the first barrier) `search_max_le` returns -1 and
`do_truncate(upto_seq)` leaves the store as it is: `safe_truncate_ld_key`,
`last_truncated_seq_num`, the records and the barrier list are unchanged.  The
barrier list need not be sorted. -/
theorem do_truncate_noop (s : HomeLogStore) (upto_seq : Int)
    (h : ∀ b ∈ s.m_truncation_barriers, upto_seq < b.seq_num) :
    s.search_max_le upto_seq = -1 ∧
    s.do_truncate upto_seq = s ∧
    (s.do_truncate upto_seq).m_safe_truncate_ld_key = s.m_safe_truncate_ld_key ∧
    (s.do_truncate upto_seq).m_last_truncated_seq_num = s.m_last_truncated_seq_num ∧
    (s.do_truncate upto_seq).m_records = s.m_records ∧
    (s.do_truncate upto_seq).m_truncation_barriers = s.m_truncation_barriers := by
  have hs : s.search_max_le upto_seq = -1 := by
    unfold search_max_le
    exact search_max_le_loop_all_above _ _ h _ _ (by omega) (le_refl _) (by omega)
  have hd : s.do_truncate upto_seq = s := by
    unfold do_truncate
    simp only []
    rw [hs, if_pos (by omega)]
  refine ⟨hs, hd, ?_, ?_, ?_, ?_⟩ <;> rw [hd]

/-- C32 witness: the store with barriers 10, 20, 30 truncated up to 5. -/
theorem do_truncate_noop_witness :
    (∀ b ∈ store3.m_truncation_barriers, (5 : Int) < b.seq_num) ∧
    store3.search_max_le 5 = -1 ∧
    (store3.do_truncate 5).m_last_truncated_seq_num = -1 ∧
    store3.do_truncate 5 = store3 :=
  ⟨by decide, by decide, by decide, (do_truncate_noop store3 5 (by decide)).2.1⟩

end HomeLogStore

namespace HomeLogStoreMgr

/-- C33, as stated, fails on two counts: a single store whose safe key {2^63 - 1, 77}
carries the out-of-bound idx never replaces the sentinel, so the result
{2^63 - 1, 0} is the safe key of no store; and beside a store of idx -1 a store of
idx -5 brings the result idx to -5, not -1. -/
theorem device_truncate_safe_point_counterexample :
    mgr_sentinel_idx.device_truncate false = ⟨9223372036854775807, 0⟩ ∧
    (∀ st ∈ mgr_sentinel_idx.stores,
      mgr_sentinel_idx.device_truncate false ≠ st.get_safe_truncation_log_dev_key) ∧
    (∃ st ∈ mgr_below_minus_one.stores, st.get_safe_truncation_log_dev_key.idx = -1) ∧
    mgr_below_minus_one.device_truncate false = ⟨-5, 9⟩ ∧
    (mgr_below_minus_one.device_truncate false).idx ≠ -1 := by
  refine ⟨by decide, by decide, ?_, by decide, by decide⟩
  exact ⟨store_with_safe_key 1 ⟨-1, 3⟩, by simp [mgr_below_minus_one], by decide⟩

/-- C33 (amended): the key that `device_truncate` returns never exceeds a store's
safe point: its idx is at most the idx of every store's safe-truncate key.  With
no store registered it is the out-of-bound sentinel {2^63 - 1, 0}; it is the safe
key of one of the stores as soon as some store's idx is below the sentinel idx,
and the sentinel otherwise.
A store that was never truncated holds the safe key {-1, 0}, and a store of idx -1
brings the result idx to -1 when no store holds an idx below -1. -/
theorem device_truncate_safe_point (m : HomeLogStoreMgr) (dry_run : Bool) :
    (∀ st ∈ m.stores,
      (m.device_truncate dry_run).idx ≤ st.get_safe_truncation_log_dev_key.idx) ∧
    (m.stores = [] → m.device_truncate dry_run = out_of_bound_ld_key) ∧
    out_of_bound_ld_key = ⟨2 ^ 63 - 1, 0⟩ ∧
    ((∃ st ∈ m.stores, st.get_safe_truncation_log_dev_key.idx < out_of_bound_ld_key.idx) →
      ∃ st ∈ m.stores, m.device_truncate dry_run = st.get_safe_truncation_log_dev_key) ∧
    ((∀ st ∈ m.stores, ¬ st.get_safe_truncation_log_dev_key.idx < out_of_bound_ld_key.idx) →
      m.device_truncate dry_run = out_of_bound_ld_key) ∧
    (∀ id : Nat, (HomeLogStore.new id).get_safe_truncation_log_dev_key = ⟨-1, 0⟩) ∧
    ((∀ st ∈ m.stores, -1 ≤ st.get_safe_truncation_log_dev_key.idx) →
      (∃ st ∈ m.stores, st.get_safe_truncation_log_dev_key.idx = -1) →
      (m.device_truncate dry_run).idx = -1) := by
  obtain ⟨_, h2, h3⟩ := device_truncate_loop m.stores out_of_bound_ld_key
  have hsentinel : (∀ st ∈ m.stores,
      ¬ st.get_safe_truncation_log_dev_key.idx < out_of_bound_ld_key.idx) →
      m.device_truncate dry_run = out_of_bound_ld_key := by
    intro hall
    rcases device_truncate_loop_first m.stores out_of_bound_ld_key with
      ⟨h, _⟩ | ⟨pre, st, post, e, _, hlt, _, _⟩
    · exact h
    · exact absurd hlt (hall st (by rw [e]; simp))
  have hstore : (∃ st ∈ m.stores,
      st.get_safe_truncation_log_dev_key.idx < out_of_bound_ld_key.idx) →
      ∃ st ∈ m.stores, m.device_truncate dry_run = st.get_safe_truncation_log_dev_key := by
    rintro ⟨st, hst, hlt⟩
    rcases h3 with h3 | h3
    · have := h2 st hst
      rw [h3] at this
      omega
    · exact h3
  refine ⟨h2, ?_, by decide, hstore, hsentinel, fun _ => rfl, ?_⟩
  · intro he
    unfold device_truncate
    rw [he]
    rfl
  · intro hall ⟨st, hst, hidx⟩
    have hle := h2 st hst
    have hsent : out_of_bound_ld_key.idx = 9223372036854775807 := rfl
    obtain ⟨st2, hst2, heq⟩ := hstore ⟨st, hst, by rw [hidx, hsent]; omega⟩
    have hge := hall st2 hst2
    have hle2 : (m.device_truncate dry_run).idx ≤ st.get_safe_truncation_log_dev_key.idx := hle
    rw [heq] at hle2 ⊢
    omega

/-- C33 witness: among stores with safe keys {7, 0}, {-1, 0} (a new store) and
{5, 0}, `device_truncate` returns {-1, 0}. -/
theorem device_truncate_safe_point_witness :
    mgr_with_new_store.device_truncate false = ⟨-1, 0⟩ ∧
    (⟨[]⟩ : HomeLogStoreMgr).device_truncate false = ⟨9223372036854775807, 0⟩ ∧
    (mgr_with_new_store.device_truncate false).idx = -1 :=
  ⟨by decide, by decide,
    (device_truncate_safe_point mgr_with_new_store false).2.2.2.2.2.2 (by decide)
      ⟨HomeLogStore.new 2, by simp [mgr_with_new_store], by decide⟩⟩

end HomeLogStoreMgr

namespace BtreeNode

variable {K V : Type}

/-- The recorded run of the `bsearch` loop, for any comparison whatever: with at
least one unit of fuel and fuel covering `end - start` the run ends, its result is
that of `bsearch_loop`, it probes fewer than `end - start` indices, every probe
lies strictly between `start` and `end`, and a found result is one of the
probes. -/
theorem bsearch_loop_trace_spec (cmp : Nat → Int) :
    ∀ (fuel : Nat) (s e : Int), 1 ≤ fuel → e - s ≤ fuel →
      ∃ probes : List Int,
        bsearch_loop_trace cmp fuel s e
          = some (bsearch_loop cmp (e - s).toNat s e, probes) ∧
        (probes.length : Int) ≤ max (e - s - 1) 0 ∧
        (∀ mid ∈ probes, s < mid ∧ mid < e) ∧
        ((bsearch_loop cmp (e - s).toNat s e).1 = true →
          (bsearch_loop cmp (e - s).toNat s e).2 ∈ probes) := by
  intro fuel
  induction fuel with
  | zero => intro s e h1 _; omega
  | succ fuel ih =>
    intro s e _ hf
    rw [bsearch_loop_trace, bsearch_loop_unfold cmp (e - s).toNat s e (by omega)]
    by_cases hw : e - s > 1
    · rw [if_pos hw, if_pos hw]
      simp only []
      have hm1 : s < s + (e - s) / 2 := by omega
      have hm2 : s + (e - s) / 2 < e := by omega
      by_cases hx : cmp (int_to_u32 (s + (e - s) / 2)) = 0
      · rw [if_pos hx, if_pos hx]
        refine ⟨[s + (e - s) / 2], rfl, ?_, ?_, ?_⟩
        · rw [List.length_singleton]; omega
        · intro mid hmid
          rw [List.mem_singleton] at hmid
          rw [hmid]
          exact ⟨hm1, hm2⟩
        · intro _
          exact List.mem_singleton.mpr rfl
      · rw [if_neg hx, if_neg hx]
        by_cases hg : cmp (int_to_u32 (s + (e - s) / 2)) > 0
        · rw [if_pos hg, if_pos hg]
          obtain ⟨probes, hp1, hp2, hp3, hp4⟩ :=
            ih s (s + (e - s) / 2) (by omega) (by omega)
          rw [hp1]
          refine ⟨(s + (e - s) / 2) :: probes, rfl, ?_, ?_, ?_⟩
          · rw [List.length_cons]; push_cast; omega
          · intro mid hmid
            rcases List.mem_cons.mp hmid with h | h
            · rw [h]; exact ⟨hm1, hm2⟩
            · have := hp3 mid h
              omega
          · intro hfound
            exact List.mem_cons_of_mem _ (hp4 hfound)
        · rw [if_neg hg, if_neg hg]
          obtain ⟨probes, hp1, hp2, hp3, hp4⟩ :=
            ih (s + (e - s) / 2) e (by omega) (by omega)
          rw [hp1]
          refine ⟨(s + (e - s) / 2) :: probes, rfl, ?_, ?_, ?_⟩
          · rw [List.length_cons]; push_cast; omega
          · intro mid hmid
            rcases List.mem_cons.mp hmid with h | h
            · rw [h]; exact ⟨hm1, hm2⟩
            · have := hp3 mid h
              omega
          · intro hfound
            exact List.mem_cons_of_mem _ (hp4 hfound)
    · rw [if_neg hw, if_neg hw]
      refine ⟨[], rfl, ?_, ?_, ?_⟩
      · rw [List.length_nil]; omega
      · intro mid hmid; simp at hmid
      · intro h; simp at h

/-- C34: the assertions of the node search hold on every node and for every key,
whatever the order of the stored keys: each probe `mid` of
`bsearch(-1, nentries, key)` satisfies `0 <= mid < nentries`, a found result of
`bsearch_node` has an index below `nentries`, and `find` never reports found
together with the index `nentries`.  The probes are those of the run that gives
the result of `bsearch`. -/
theorem bsearch_asserts_hold [LinearOrder K] [Inhabited K] (n : BtreeNode K V) (key : K) :
    bsearch_loop_trace (n.compare_nth_key key) (((n.total_entries : Int) - -1).toNat + 1) (-1)
        n.total_entries
      = some (bsearch_loop (n.compare_nth_key key) ((n.total_entries : Int) - -1).toNat (-1)
          n.total_entries, n.bsearch_probes (-1) n.total_entries key) ∧
    (∀ mid ∈ n.bsearch_probes (-1) n.total_entries key,
      0 ≤ mid ∧ mid < (n.total_entries : Int)) ∧
    ((n.bsearch_node key).1 = true → (n.bsearch_node key).2 < n.total_entries) ∧
    (∀ outval : Option (BtreeValue V),
      ¬ ((n.find key outval).1.1 = true ∧ (n.find key outval).1.2 = n.total_entries)) := by
  have hn := n.total_entries_lt
  obtain ⟨probes, hp1, _, hp3, hp4⟩ := bsearch_loop_trace_spec (n.compare_nth_key key)
    (((n.total_entries : Int) - -1).toNat + 1) (-1) n.total_entries (by omega) (by omega)
  have hprobes : n.bsearch_probes (-1) n.total_entries key = probes := by
    unfold bsearch_probes
    rw [hp1]
  have hfound : (n.bsearch_node key).1 = true → (n.bsearch_node key).2 < n.total_entries := by
    unfold bsearch_node bsearch
    by_cases h0 : (n.total_entries : Int) - -1 ≤ 1
    · rw [if_pos h0]
      intro h
      exact absurd h (by simp)
    · rw [if_neg h0]
      simp only []
      intro h
      have hb := hp3 _ (hp4 h)
      rw [int_to_u32_of_nat _ (by omega) (by omega)]
      omega
  rw [hprobes]
  refine ⟨hp1, ?_, hfound, ?_⟩
  · intro mid hmid
    have := hp3 mid hmid
    omega
  · intro outval ⟨h1, h2⟩
    rw [find_fst] at h1 h2
    have := hfound h1
    omega

end BtreeNode

namespace HomeLogStore

/-- The step-by-step run of the `search_max_le` loop, for any barrier list whatever
(sorted or not): with at least one unit of fuel and fuel covering `end - start`
the run ends, its result is that of `search_max_le_loop` under any covering fuel,
and it probes fewer than `end - start` barriers. -/
theorem search_max_le_trace_spec (bs : List TruncationBarrier) (input_sn : Int) :
    ∀ (fuel : Nat) (s e : Int), 1 ≤ fuel → e - s ≤ fuel →
      ∃ k : Nat,
        (∀ f2 : Nat, e - s ≤ f2 →
          search_max_le_trace bs input_sn fuel s e
            = some (search_max_le_loop bs input_sn f2 s e, k)) ∧
        (k : Int) ≤ max (e - s - 1) 0 := by
  intro fuel
  induction fuel with
  | zero => intro s e h1 _; omega
  | succ fuel ih =>
    intro s e _ hf
    by_cases hw : e - s > 1
    · by_cases hx : (bs.getD (s + (e - s) / 2).toNat default).seq_num = input_sn
      · refine ⟨1, ?_, by omega⟩
        intro f2 hf2
        cases f2 with
        | zero => omega
        | succ f2 =>
          rw [search_max_le_trace, search_max_le_loop, if_pos hw, if_pos hw]
          simp only []
          rw [if_pos hx, if_pos hx]
      · by_cases hg : (bs.getD (s + (e - s) / 2).toNat default).seq_num > input_sn
        · obtain ⟨k, hk, hb⟩ := ih s (s + (e - s) / 2) (by omega) (by omega)
          refine ⟨k + 1, ?_, by push_cast; omega⟩
          intro f2 hf2
          cases f2 with
          | zero => omega
          | succ f2 =>
            rw [search_max_le_trace, search_max_le_loop, if_pos hw, if_pos hw]
            simp only []
            rw [if_neg hx, if_neg hx, if_pos hg, if_pos hg, hk f2 (by omega)]
            rfl
        · obtain ⟨k, hk, hb⟩ := ih (s + (e - s) / 2) e (by omega) (by omega)
          refine ⟨k + 1, ?_, by push_cast; omega⟩
          intro f2 hf2
          cases f2 with
          | zero => omega
          | succ f2 =>
            rw [search_max_le_trace, search_max_le_loop, if_pos hw, if_pos hw]
            simp only []
            rw [if_neg hx, if_neg hx, if_neg hg, if_neg hg, hk f2 (by omega)]
            rfl
    · refine ⟨0, ?_, by omega⟩
      intro f2 _
      rw [search_max_le_trace, if_neg hw]
      cases f2 with
      | zero => rw [search_max_le_loop]
      | succ f2 => rw [search_max_le_loop, if_neg hw]

end HomeLogStore

/-- C35: the binary searches terminate on every input.  For every node, key and
bounds `start < end`, the step-by-step run of the `bsearch` loop ends under any
fuel of at least `end - start` iterations with the result of `bsearch`, after
fewer than `end - start` probes; an iteration that does not return continues on
bounds whose distance is positive and strictly below `end - start`.  Likewise the
run of `search_max_le` ends for every barrier list, sorted or not, and every
`input_sn`, with the result of `search_max_le`, after at most as many probes as
there are barriers. -/
theorem binary_searches_terminate {K V : Type} [LinearOrder K] [Inhabited K]
    (n : BtreeNode K V) (key : K) (start end_ : Int) (hlt : start < end_)
    (st : HomeLogStore) (input_sn : Int) :
    (∀ fuel : Nat, (end_ - start).toNat ≤ fuel →
      ∃ probes : List Int,
        BtreeNode.bsearch_loop_trace (n.compare_nth_key key) fuel start end_
          = some (BtreeNode.bsearch_loop (n.compare_nth_key key) (end_ - start).toNat
              start end_, probes) ∧
        (probes.length : Int) < end_ - start ∧
        n.bsearch start end_ key =
          if end_ - start ≤ 1 then (false, 0)
          else ((BtreeNode.bsearch_loop (n.compare_nth_key key) (end_ - start).toNat
              start end_).1,
            int_to_u32 (BtreeNode.bsearch_loop (n.compare_nth_key key) (end_ - start).toNat
              start end_).2)) ∧
    (∀ (fuel : Nat) (s e : Int), e - s > 1 →
      n.compare_nth_key key (int_to_u32 (s + (e - s) / 2)) ≠ 0 →
      BtreeNode.bsearch_loop_trace (n.compare_nth_key key) (fuel + 1) s e =
        (BtreeNode.bsearch_loop_trace (n.compare_nth_key key) fuel
          (if n.compare_nth_key key (int_to_u32 (s + (e - s) / 2)) > 0 then s
            else s + (e - s) / 2)
          (if n.compare_nth_key key (int_to_u32 (s + (e - s) / 2)) > 0 then s + (e - s) / 2
            else e)).map (fun r => (r.1, (s + (e - s) / 2) :: r.2)) ∧
      0 < (if n.compare_nth_key key (int_to_u32 (s + (e - s) / 2)) > 0 then s + (e - s) / 2
            else e)
          - (if n.compare_nth_key key (int_to_u32 (s + (e - s) / 2)) > 0 then s
            else s + (e - s) / 2) ∧
      (if n.compare_nth_key key (int_to_u32 (s + (e - s) / 2)) > 0 then s + (e - s) / 2
            else e)
          - (if n.compare_nth_key key (int_to_u32 (s + (e - s) / 2)) > 0 then s
            else s + (e - s) / 2) < e - s) ∧
    (∀ fuel : Nat, st.m_truncation_barriers.length + 1 ≤ fuel →
      ∃ k : Nat,
        HomeLogStore.search_max_le_trace st.m_truncation_barriers input_sn fuel (-1)
            st.m_truncation_barriers.length
          = some (st.search_max_le input_sn, k) ∧
        k ≤ st.m_truncation_barriers.length) := by
  refine ⟨?_, ?_, ?_⟩
  · intro fuel hf
    obtain ⟨probes, hp1, hp2, _, _⟩ := BtreeNode.bsearch_loop_trace_spec
      (n.compare_nth_key key) fuel start end_ (by omega) (by omega)
    exact ⟨probes, hp1, by omega, rfl⟩
  · intro fuel s e hw hx
    rw [BtreeNode.bsearch_loop_trace, if_pos hw]
    simp only []
    rw [if_neg hx]
    by_cases hg : n.compare_nth_key key (int_to_u32 (s + (e - s) / 2)) > 0
    · simp only [hg, if_true]
      exact ⟨trivial, by omega, by omega⟩
    · simp only [hg, if_false]
      exact ⟨trivial, by omega, by omega⟩
  · intro fuel hf
    obtain ⟨k, hk, hb⟩ := HomeLogStore.search_max_le_trace_spec st.m_truncation_barriers
      input_sn fuel (-1) st.m_truncation_barriers.length (by omega) (by omega)
    refine ⟨k, ?_, by omega⟩
    rw [hk (st.m_truncation_barriers.length + 1) (by omega)]
    rfl

/-- C35 witness: the search for key 20 in the leaf with keys 10, 20, 30 ends after
one probe, and `search_max_le(25)` on the barriers 10, 20, 30 after two. -/
theorem binary_searches_terminate_witness :
    BtreeNode.bsearch_loop_trace (leaf3.compare_nth_key 20) 4 (-1) 3 = some ((true, 1), [1]) ∧
    HomeLogStore.search_max_le_trace store3.m_truncation_barriers 25 4 (-1) 3 = some (1, 2) ∧
    ∃ k : Nat,
      HomeLogStore.search_max_le_trace store3.m_truncation_barriers 25 7 (-1)
          store3.m_truncation_barriers.length
        = some (store3.search_max_le 25, k) ∧
      k ≤ store3.m_truncation_barriers.length :=
  ⟨by decide, by decide,
    (binary_searches_terminate leaf3 20 (-1) 3 (by decide) store3 25).2.2 7 (by decide)⟩

namespace CacheStats

/-- C36, as stated, fails when the divisor wraps: with 2 hits and 2^64 - 1 misses,
`hit_count * 100` does not overflow and `hit_count + miss_count` is positive, but
the 64-bit sum is 1 and `get_hit_ratio` returns 200, which is neither
`floor(100 * 2 / (2^64 + 1))` = 0 nor at most 100; with 1 hit and 2^64 - 1 misses
the sum wraps to 0 and the division is by zero. -/
theorem get_hit_ratio_counterexample :
    (⟨2, 18446744073709551615⟩ : CacheStats).get_hit_count * 100 < 18446744073709551616 ∧
    0 < (⟨2, 18446744073709551615⟩ : CacheStats).get_hit_count
      + (⟨2, 18446744073709551615⟩ : CacheStats).get_miss_count ∧
    ((⟨2, 18446744073709551615⟩ : CacheStats).get_hit_count
      + (⟨2, 18446744073709551615⟩ : CacheStats).get_miss_count) % 18446744073709551616 = 1 ∧
    (⟨2, 18446744073709551615⟩ : CacheStats).get_hit_ratio = some 200 ∧
    100 * 2 / (2 + 18446744073709551615) = 0 ∧
    (⟨1, 18446744073709551615⟩ : CacheStats).get_hit_ratio = none := by
  refine ⟨by decide, by decide, by decide, by decide, by decide, by decide⟩

/-- C36 (amended): `get_hit_ratio` has no defined result exactly when
`hit_count + miss_count` is zero as a 64-bit sum, which includes both counters
being zero; whenever `hit_count + miss_count > 0`, the sum does not overflow 64
bits and `hit_count * 100` does not overflow 64 bits, it returns
`floor(100 * hit_count / (hit_count + miss_count))`, a value between 0 and 100. -/
theorem get_hit_ratio_spec (c : CacheStats) :
    (c.get_hit_ratio = none ↔
      (c.get_hit_count + c.get_miss_count) % 18446744073709551616 = 0) ∧
    (c.get_hit_count = 0 → c.get_miss_count = 0 → c.get_hit_ratio = none) ∧
    (0 < c.get_hit_count + c.get_miss_count →
      c.get_hit_count + c.get_miss_count < 18446744073709551616 →
      c.get_hit_count * 100 < 18446744073709551616 →
      c.get_hit_ratio
        = some ((100 * c.get_hit_count / (c.get_hit_count + c.get_miss_count) : Nat) : Int) ∧
      100 * c.get_hit_count / (c.get_hit_count + c.get_miss_count) ≤ 100) := by
  refine ⟨?_, ?_, ?_⟩
  · unfold get_hit_ratio
    by_cases h : (c.get_hit_count + c.get_miss_count) % 18446744073709551616 = 0
    · rw [if_pos h]; simp [h]
    · rw [if_neg h]; simp [h]
  · intro h1 h2
    unfold get_hit_ratio
    rw [h1, h2]
    rfl
  · intro hpos hsum hmul
    have hle : 100 * c.get_hit_count / (c.get_hit_count + c.get_miss_count) ≤ 100 :=
      Nat.div_le_of_le_mul (by nlinarith)
    refine ⟨?_, hle⟩
    unfold get_hit_ratio
    rw [Nat.mod_eq_of_lt hsum, Nat.mod_eq_of_lt hmul, if_neg (by omega),
      Nat.mul_comm c.get_hit_count 100]
    generalize 100 * c.get_hit_count / (c.get_hit_count + c.get_miss_count) = q at hle
    unfold u64_to_int
    rw [Nat.mod_eq_of_lt (by omega)]
    have hq : ((q + 2147483648 : Nat) : Int) - 2147483648 = (q : Int) := by
      push_cast
      omega
    rw [hq]

/-- C36 witness: 3 hits and 1 miss give 75. -/
theorem get_hit_ratio_spec_witness :
    (⟨3, 1⟩ : CacheStats).get_hit_ratio = some 75 ∧
    (⟨0, 0⟩ : CacheStats).get_hit_ratio = none ∧
    ((⟨3, 1⟩ : CacheStats).get_hit_ratio
        = some ((100 * (⟨3, 1⟩ : CacheStats).get_hit_count
            / ((⟨3, 1⟩ : CacheStats).get_hit_count + (⟨3, 1⟩ : CacheStats).get_miss_count)
              : Nat) : Int) ∧
      100 * (⟨3, 1⟩ : CacheStats).get_hit_count
        / ((⟨3, 1⟩ : CacheStats).get_hit_count + (⟨3, 1⟩ : CacheStats).get_miss_count) ≤ 100) :=
  ⟨by decide, by decide,
    (get_hit_ratio_spec ⟨3, 1⟩).2.2 (by decide) (by decide) (by decide)⟩

end CacheStats

namespace HomeLogStore

/-- C37: when a flush batch closes, the assertion `m_flush_batch_max.seq_num != -1`
holds.  After any run of `on_write_completion` calls, from any store (one whose
`m_flush_batch_max` is reset to {-1, {-1, 0}} included), a call with
`nremaining_in_batch == 0` whose request has `seq_num >= 0` reaches the assertion
with `m_flush_batch_max.seq_num` at least the seq_num of the request, hence
`>= 0`; the barrier is created from that value, and `m_flush_batch_max` is
{-1, {-1, 0}} after the call. -/
theorem flush_batch_assert_holds (s : HomeLogStore) (calls : List (Completion × Nat))
    (c : Completion) (hc : 0 ≤ c.seq_num) :
    c.seq_num ≤ ((s.run_completions calls).flush_batch_max_at_assert c.seq_num
      c.flush_ld_key).seq_num ∧
    0 ≤ ((s.run_completions calls).flush_batch_max_at_assert c.seq_num
      c.flush_ld_key).seq_num ∧
    (s.run_completions calls).on_write_completion_assert c.seq_num c.flush_ld_key 0 = true ∧
    ((s.run_completions calls).on_write_completion c.seq_num c.ld_key c.flush_ld_key
      0).m_truncation_barriers
      = (create_truncation_barrier
          { s.run_completions calls with
            m_flush_batch_max := (s.run_completions calls).flush_batch_max_at_assert
              c.seq_num c.flush_ld_key }).m_truncation_barriers ∧
    ((s.run_completions calls).on_write_completion c.seq_num c.ld_key c.flush_ld_key
      0).m_flush_batch_max = ⟨-1, ⟨-1, 0⟩⟩ ∧
    s.run_completions (calls ++ [(c, 0)])
      = (s.run_completions calls).on_write_completion c.seq_num c.ld_key c.flush_ld_key 0 := by
  have hlast : s.run_completions (calls ++ [(c, 0)])
      = (s.run_completions calls).on_write_completion c.seq_num c.ld_key c.flush_ld_key 0 := by
    unfold run_completions
    rw [List.foldl_append]
    rfl
  generalize s.run_completions calls = t at hlast ⊢
  have hge : c.seq_num ≤ (t.flush_batch_max_at_assert c.seq_num c.flush_ld_key).seq_num := by
    unfold flush_batch_max_at_assert
    by_cases hgt : c.seq_num > t.m_flush_batch_max.seq_num
    · rw [if_pos hgt]
    · rw [if_neg hgt]; omega
  obtain ⟨hb, hr⟩ := on_write_completion_close t c
  refine ⟨hge, by omega, ?_, hb, hr, ?_⟩
  · unfold on_write_completion_assert
    rw [if_pos rfl]
    simp only [bne_iff_ne, ne_eq]
    omega
  · exact hlast

/-- C37 witness: a batch of the seq_nums 0 and 1 delivered to a new store; the
closing call finds `m_flush_batch_max.seq_num` = 1. -/
theorem flush_batch_assert_holds_witness :
    (((HomeLogStore.new 1).run_completions [(⟨0, ⟨1, 0⟩, ⟨1, 64⟩⟩, 1)]).flush_batch_max_at_assert
      1 ⟨1, 64⟩).seq_num = 1 ∧
    ((HomeLogStore.new 1).run_completions
      [(⟨0, ⟨1, 0⟩, ⟨1, 64⟩⟩, 1), (⟨1, ⟨1, 32⟩, ⟨1, 64⟩⟩, 0)]).m_truncation_barriers
      = [⟨1, ⟨1, 64⟩⟩] ∧
    ((HomeLogStore.new 1).run_completions [(⟨0, ⟨1, 0⟩, ⟨1, 64⟩⟩, 1)]).on_write_completion_assert
      1 ⟨1, 64⟩ 0 = true :=
  ⟨by decide, by decide,
    (flush_batch_assert_holds (HomeLogStore.new 1) [(⟨0, ⟨1, 0⟩, ⟨1, 64⟩⟩, 1)]
      ⟨1, ⟨1, 32⟩, ⟨1, 64⟩⟩ (by decide)).2.2.1⟩

end HomeLogStore

namespace BtreeNode

variable {K V : Type}

/-- A node whose header differs from that of `n` in the entry counter only. -/
theorem same_but_nentries_update (n : BtreeNode K V) (c : Nat) :
    n.same_but_nentries { n with hdr := { n.hdr with nentries := c } } :=
  ⟨rfl, rfl, rfl⟩

/-- The flags of a node whose header differs from that of `n` in the entry counter
only. -/
theorem flags_nentries_update (n : BtreeNode K V) (c : Nat) :
    ({ n with hdr := { n.hdr with nentries := c } } : BtreeNode K V).is_leaf = n.is_leaf ∧
    ({ n with hdr := { n.hdr with nentries := c } } : BtreeNode K V).is_valid_node
      = n.is_valid_node :=
  ⟨rfl, rfl⟩

/-- C38: the entry counter is a 30-bit field.  `set_total_entries`, `inc_entries`,
`dec_entries`, `add_entries` and `sub_entries` bring `total_entries()` to the
expected value modulo 2^30 (so `inc_entries` at 2^30 - 1 gives 0 and `dec_entries`
at 0 gives 2^30 - 1) and change nothing else: the leaf flag, the valid_node flag,
every other header field and the data are kept.  `set_leaf` and `set_valid_node`
change their flag only and keep `total_entries()`. -/
theorem entry_counter_frame (n : BtreeNode K V) (cnt addn subn : Nat) (flag : Bool) :
    ((n.set_total_entries cnt).total_entries = cnt % 2 ^ 30 ∧
      n.same_but_nentries (n.set_total_entries cnt)) ∧
    ((n.inc_entries).total_entries = (n.total_entries + 1) % 2 ^ 30 ∧
      (n.total_entries = 2 ^ 30 - 1 → (n.inc_entries).total_entries = 0) ∧
      (n.total_entries < 2 ^ 30 - 1 → (n.inc_entries).total_entries = n.total_entries + 1) ∧
      n.same_but_nentries n.inc_entries) ∧
    ((n.dec_entries).total_entries = (n.total_entries + 2 ^ 30 - 1) % 2 ^ 30 ∧
      (n.total_entries = 0 → (n.dec_entries).total_entries = 2 ^ 30 - 1) ∧
      (0 < n.total_entries → (n.dec_entries).total_entries = n.total_entries - 1) ∧
      n.same_but_nentries n.dec_entries) ∧
    ((n.add_entries addn).total_entries = (n.total_entries + addn) % 2 ^ 30 ∧
      n.same_but_nentries (n.add_entries addn)) ∧
    ((n.sub_entries subn).total_entries
        = (n.total_entries + 2 ^ 30 - subn % 2 ^ 30) % 2 ^ 30 ∧
      (subn ≤ n.total_entries → (n.sub_entries subn).total_entries = n.total_entries - subn) ∧
      n.same_but_nentries (n.sub_entries subn)) ∧
    ((n.set_total_entries cnt).is_leaf = n.is_leaf ∧
      (n.inc_entries).is_leaf = n.is_leaf ∧ (n.dec_entries).is_leaf = n.is_leaf ∧
      (n.add_entries addn).is_leaf = n.is_leaf ∧ (n.sub_entries subn).is_leaf = n.is_leaf) ∧
    ((n.set_total_entries cnt).is_valid_node = n.is_valid_node ∧
      (n.inc_entries).is_valid_node = n.is_valid_node ∧
      (n.dec_entries).is_valid_node = n.is_valid_node ∧
      (n.add_entries addn).is_valid_node = n.is_valid_node ∧
      (n.sub_entries subn).is_valid_node = n.is_valid_node) ∧
    ((n.set_leaf flag).total_entries = n.total_entries ∧ (n.set_leaf flag).is_leaf = flag ∧
      (n.set_leaf flag).is_valid_node = n.is_valid_node ∧
      (n.set_leaf flag).hdr = { n.hdr with leaf := flag }) ∧
    ((n.set_valid_node flag).total_entries = n.total_entries ∧
      (n.set_valid_node flag).is_valid_node = flag ∧
      (n.set_valid_node flag).is_leaf = n.is_leaf ∧
      (n.set_valid_node flag).hdr = { n.hdr with valid_node := flag }) := by
  have hn := n.total_entries_lt
  have ht : n.total_entries = n.hdr.nentries % 2 ^ 30 := rfl
  have h30 : (2 : Nat) ^ 30 = 1073741824 := by norm_num
  refine ⟨⟨?_, same_but_nentries_update n _⟩,
    ⟨?_, ?_, ?_, same_but_nentries_update n _⟩, ⟨?_, ?_, ?_, same_but_nentries_update n _⟩,
    ⟨?_, same_but_nentries_update n _⟩, ⟨?_, ?_, same_but_nentries_update n _⟩,
    ⟨(flags_nentries_update n _).1, (flags_nentries_update n _).1,
      (flags_nentries_update n _).1, (flags_nentries_update n _).1,
      (flags_nentries_update n _).1⟩,
    ⟨(flags_nentries_update n _).2, (flags_nentries_update n _).2,
      (flags_nentries_update n _).2, (flags_nentries_update n _).2,
      (flags_nentries_update n _).2⟩, ⟨rfl, rfl, rfl, rfl⟩, ⟨rfl, ?_, rfl, ?_⟩⟩
  · show cnt % 4294967296 % 2 ^ 30 % 2 ^ 30 = cnt % 2 ^ 30
    rw [h30]; omega
  · show (n.hdr.nentries % 2 ^ 30 + 1) % 2 ^ 30 % 2 ^ 30 = (n.total_entries + 1) % 2 ^ 30
    rw [ht, h30]; omega
  · intro h
    show (n.hdr.nentries % 2 ^ 30 + 1) % 2 ^ 30 % 2 ^ 30 = 0
    rw [ht, h30] at h
    rw [h30]; omega
  · intro h
    show (n.hdr.nentries % 2 ^ 30 + 1) % 2 ^ 30 % 2 ^ 30 = n.total_entries + 1
    rw [ht, h30] at h
    rw [ht, h30]; omega
  · show (n.hdr.nentries % 2 ^ 30 + 2 ^ 30 - 1) % 2 ^ 30 % 2 ^ 30
      = (n.total_entries + 2 ^ 30 - 1) % 2 ^ 30
    rw [ht, h30]; omega
  · intro h
    show (n.hdr.nentries % 2 ^ 30 + 2 ^ 30 - 1) % 2 ^ 30 % 2 ^ 30 = 2 ^ 30 - 1
    rw [ht, h30] at h
    rw [h30]; omega
  · intro h
    show (n.hdr.nentries % 2 ^ 30 + 2 ^ 30 - 1) % 2 ^ 30 % 2 ^ 30 = n.total_entries - 1
    rw [ht, h30] at h
    rw [ht, h30]; omega
  · show (n.hdr.nentries % 2 ^ 30 + addn % 4294967296) % 2 ^ 30 % 2 ^ 30
      = (n.total_entries + addn) % 2 ^ 30
    rw [ht, h30]; omega
  · show (n.hdr.nentries % 2 ^ 30 + 2 ^ 30 - subn % 2 ^ 30) % 2 ^ 30 % 2 ^ 30
      = (n.total_entries + 2 ^ 30 - subn % 2 ^ 30) % 2 ^ 30
    rw [ht, h30]; omega
  · intro h
    show (n.hdr.nentries % 2 ^ 30 + 2 ^ 30 - subn % 2 ^ 30) % 2 ^ 30 % 2 ^ 30
      = n.total_entries - subn
    rw [ht, h30] at h
    rw [ht, h30]; omega
  · cases flag <;> rfl
  · cases flag <;> rfl

/-- C38 witness: `inc_entries` on a counter of 2^30 - 1 gives 0 and keeps the leaf
flag; `dec_entries` on the leaf with three entries gives 2. -/
theorem entry_counter_frame_witness :
    node_counter_max.total_entries = 1073741823 ∧
    node_counter_max.inc_entries.is_leaf = true ∧
    leaf3.dec_entries.total_entries = 2 ∧
    (leaf3.set_leaf false).total_entries = 3 ∧
    node_counter_max.inc_entries.total_entries = 0 :=
  ⟨by decide, by decide, by decide, by decide,
    (entry_counter_frame node_counter_max 0 0 0 false).2.1.2.1 (by decide)⟩

/-- C34 witness: on the leaf with the unordered keys 30, 10, 20 the search for 30
probes the indices 1 and 2 and ends with (false, 3); the search for 10 finds it at
index 1, below `nentries`. -/
theorem bsearch_asserts_hold_witness :
    leaf_unsorted.bsearch_probes (-1) 3 30 = [1, 2] ∧
    leaf_unsorted.bsearch_node 30 = (false, 3) ∧
    leaf_unsorted.bsearch_node 10 = (true, 1) ∧
    (leaf_unsorted.bsearch_node 10).2 < leaf_unsorted.total_entries :=
  ⟨by decide, by decide, by decide,
    (bsearch_asserts_hold leaf_unsorted 10).2.2.1 (by decide)⟩

end BtreeNode

end homestore
